import Mathlib

/-!
Milton: stroke capture and rasterisation.

A shallow embedding of `src/milton.h` and theorems about it.

Conventions of the embedding.

* `int64` values are integers; the coordinate arithmetic of the vector helpers
  and of the pixel index is reduced with `wrap64` (two's complement), so the
  theorems hold for every pair of 64-bit coordinates.  The counters
  `num_stroke_points` and `num_stored_strokes` are bounded by the array
  capacity `4096 * 4096` in every state the program builds and are
  incremented without reduction.
* C arrays and pointers to arrays are maps from an integer index to the
  element (`Int → α`).  Every store of the source, and every read of the two
  fixed arrays, first tests that the index lies inside the object: the
  `4096 * 4096` elements of `stroke_points` and of `stored_strokes`, the
  `raster_buffer_size` bytes of the block `milton_init` allocates for
  `raster_buffer`.  An access outside its object is undefined behaviour in C;
  here the call ends there with `Fault.out_of_bounds` and has no resulting
  state.
* `assert` is enabled: a failed assertion ends the call with a `Fault`.
* A loop `for (i = a; i < n; ++i)` is a structural recursion whose first
  argument is the trip count; the loop counter is the second argument.  The
  counters the source declares `int` end the call with `Fault.int_overflow`
  when they are incremented past `INT_MAX`.
* A theorem about a call that completes (`fault_of .. = none`) therefore
  speaks of calls in which no assertion fails and no access leaves its object.
-/

namespace Milton

/-! ## Machine integers -/

/-- Two's-complement reduction of an integer to the range of `int64`. -/
def wrap64 (z : Int) : Int :=
  (z + 9223372036854775808) % 18446744073709551616 - 9223372036854775808

/-- Range of `int64`. -/
def in_int64 (z : Int) : Prop :=
  -9223372036854775808 ≤ z ∧ z < 9223372036854775808

instance (z : Int) : Decidable (in_int64 z) := by
  unfold in_int64; infer_instance

/-! ## `vector.generated.h` -/

/-- Modelled from the spec: the type `v2l` of `vector.generated.h` (generated
by the metaprogram, not part of the sources at hand), a pair of signed 64-bit
integers; the source reads the two components both as `x`, `y` and as `w`,
`h`. -/
structure v2l where
  x : Int
  y : Int
deriving DecidableEq, Repr

/-- Alias of the first component (`point.w`, `screen_size.w`). -/
def v2l.w (p : v2l) : Int := p.x

/-- Alias of the second component (`point.h`, `screen_size.h`). -/
def v2l.h (p : v2l) : Int := p.y

/-- Modelled from the spec: `add_v2l` of `vector.generated.h`, the
component-wise sum (`point + center`) of 64-bit integers. -/
def add_v2l (a b : v2l) : v2l :=
  ⟨wrap64 (a.x + b.x), wrap64 (a.y + b.y)⟩

/-- Modelled from the spec: `sub_v2l` of `vector.generated.h`, the
component-wise difference (`... - center`) of 64-bit integers. -/
def sub_v2l (a b : v2l) : v2l :=
  ⟨wrap64 (a.x - b.x), wrap64 (a.y - b.y)⟩

/-- Modelled from the spec: `scale_v2l` of `vector.generated.h`, each
component multiplied by the factor (`point * scale`). -/
def scale_v2l (v : v2l) (factor : Int) : v2l :=
  ⟨wrap64 (v.x * factor), wrap64 (v.y * factor)⟩

/-- Modelled from the spec: `invscale_v2l` of `vector.generated.h`, each
component divided by the factor with C integer division, which truncates
toward zero (`Int.tdiv`).  A factor of zero is outside the contract of the
view transform; the quotient is then `0` here. -/
def invscale_v2l (v : v2l) (factor : Int) : v2l :=
  ⟨wrap64 (Int.tdiv v.x factor), wrap64 (Int.tdiv v.y factor)⟩

/-! ## Data model -/

/-- C `typedef v2l StrokePoint`. -/
abbrev StrokePoint := v2l

/-- C `StoredStroke`: a pointer to the points and their number; the block
pointed to holds `num_points` elements, as the one `milton_update` allocates
does. -/
structure StoredStroke where
  points : Int → StrokePoint
  num_points : Int

/-- Capacity of `stroke_points` and of `stored_strokes` (`4096 * 4096`). -/
def MAX_STROKE_POINTS : Int := 4096 * 4096

/-- C `MiltonState`.  `raster_buffer` is read through the `uint32*` view the
source takes of it: a map from pixel index to pixel value, for the block of
`raster_buffer_size` bytes that `milton_init` allocates.  The two arena
pointers are not fields here; allocation is `arena_alloc_array`. -/
structure MiltonState where
  full_width : Int
  full_height : Int
  bytes_per_pixel : Nat
  raster_buffer : Int → Nat
  raster_buffer_size : Nat
  screen_size : v2l
  view_center : v2l
  view_scale : Int
  stroke_points : Int → StrokePoint
  num_stroke_points : Int
  stored_strokes : Int → StoredStroke
  num_stored_strokes : Int

/-- C `MiltonInput`: `brush` is a nullable pointer to a point. -/
structure MiltonInput where
  full_refresh : Int
  brush : Option v2l

/-- C `Rectl`. -/
structure Rectl where
  top_left : v2l
  bot_right : v2l
deriving DecidableEq, Repr

/-- Why a call has no defined result.  Either one of the three assertions of
the source failed, or the call reached undefined behaviour: an access outside
the object it indexes (`out_of_bounds`) or an `int` loop counter incremented
past `INT_MAX` (`int_overflow`).  The embedding follows a call no further
than that point; what a compiled program does from there (stop at a signal,
or carry on with a neighbouring field overwritten) is not described. -/
inductive Fault where
  | assert_num_points
  | assert_buffer_size
  | assert_index
  | out_of_bounds
  | int_overflow
deriving DecidableEq, Repr

/-- Largest value of the C type `int` (32 bits). -/
def INT_MAX : Int := 2147483647

/-- The four bytes of the `uint32` pixel at `index` lie inside a block of
`size` bytes. -/
def pixel_in_buffer (size : Nat) (index : Int) : Prop :=
  0 ≤ index ∧ 4 * (index + 1) ≤ (size : Int)

instance (size : Nat) (index : Int) : Decidable (pixel_in_buffer size index) := by
  unfold pixel_in_buffer; infer_instance

/-- The index lies inside an array of `4096 * 4096` elements. -/
def in_array (index : Int) : Prop :=
  0 ≤ index ∧ index < 4096 * 4096

instance (index : Int) : Decidable (in_array index) := by
  unfold in_array; infer_instance

/-- Store `value` at `index` of an array. -/
def store {α : Type} (a : Int → α) (index : Int) (value : α) : Int → α :=
  fun i => if i = index then value else a i

/-- Modelled from the spec: `arena_alloc_array` of the arena allocator (an
external collaborator, not part of the sources at hand): a fresh block, whose
elements are taken to be `fill`. -/
def arena_alloc_array {α : Type} (fill : α) : Int → α :=
  fun _ => fill

/-- C `memcpy` of the first `n` elements of `src` over `dst`. -/
def memcpy {α : Type} (dst src : Int → α) (n : Int) : Int → α :=
  fun i => if 0 ≤ i ∧ i < n then src i else dst i

/-- Foreground pixel value written by `rasterize_stroke`. -/
def FOREGROUND : Nat := 0xff0000ff

/-- Background pixel value written by the clear of `milton_update`. -/
def BACKGROUND : Nat := 0xff000000

/-! ## `milton_init` -/

/-- C `milton_init`. -/
def milton_init (milton_state : MiltonState) : MiltonState :=
  { milton_state with
    full_width := 7680
    full_height := 4320
    bytes_per_pixel := 4
    view_scale := 1000 * 1000 * 1000
    raster_buffer_size := 2 ^ 27
    raster_buffer := arena_alloc_array 0 }

/-! ## `bounding_rect_for_stroke` -/

/-- Body of the loop of `bounding_rect_for_stroke` for one `point`. -/
def bounding_rect_step (r : Rectl) (point : v2l) : Rectl :=
  let top_left := r.top_left
  let bot_right := r.bot_right
  let top_left := if point.x < top_left.x then { top_left with x := point.x } else top_left
  let top_left := if point.y > top_left.y then { top_left with x := point.x } else top_left
  let bot_right := if point.x > bot_right.x then { bot_right with x := point.x } else bot_right
  let bot_right := if point.y > bot_right.y then { bot_right with y := point.y } else bot_right
  { top_left := top_left, bot_right := bot_right }

/-- Loop `for (i = ...; i < num_points; ++i)` of `bounding_rect_for_stroke`. -/
def bounding_rect_loop (points : Int → StrokePoint) : Nat → Int → Rectl → Rectl
  | 0, _, r => r
  | k + 1, i, r => bounding_rect_loop points k (i + 1) (bounding_rect_step r (points i))

/-- C `bounding_rect_for_stroke`. -/
def bounding_rect_for_stroke (points : Int → StrokePoint) (num_points : Int) :
    Except Fault Rectl :=
  if num_points > 0 then
    .ok (bounding_rect_loop points (num_points - 1).toNat 1
      { top_left := points 0, bot_right := points 0 })
  else .error Fault.assert_num_points

/-! ## View transform -/

/-- C `canvas_to_raster`.  The source only reads `milton_state`. -/
def canvas_to_raster (milton_state : MiltonState) (canvas_point : v2l) : v2l :=
  let point := canvas_point
  let point := add_v2l point milton_state.view_center
  let point := invscale_v2l point milton_state.view_scale
  point

/-- Lines 156-157 of `milton_update`: the brush sample moved to the canvas,
`sub_v2l(scale_v2l(in_point, view_scale), view_center)`. -/
def raster_to_canvas (milton_state : MiltonState) (in_point : v2l) : v2l :=
  let canvas_point := scale_v2l in_point milton_state.view_scale
  sub_v2l canvas_point milton_state.view_center

/-! ## `rasterize_stroke` -/

/-- Lines 121-125 of `rasterize_stroke`: `none` when the point is skipped by
`continue`, otherwise the computed `index`. -/
def raster_index (milton_state : MiltonState) (canvas_point : v2l) : Option Int :=
  let point := canvas_to_raster milton_state canvas_point
  if point.w ≥ milton_state.screen_size.w ∨ point.h ≥ milton_state.screen_size.h then
    none
  else
    some (wrap64 (wrap64 (point.y * milton_state.screen_size.w) + point.x))

/-- Body of the loop of `rasterize_stroke` for one point: skip, or check the
two assertions and write the foreground pixel at `pixels[index]`. -/
def rasterize_point (milton_state : MiltonState) (canvas_point : v2l) :
    Except Fault MiltonState :=
  match raster_index milton_state canvas_point with
  | none => .ok milton_state
  | some index =>
    if ¬ ((milton_state.raster_buffer_size : Int) < 9223372036854775808) then
      .error Fault.assert_buffer_size
    else if ¬ (index < wrap64 (milton_state.raster_buffer_size : Int)) then
      .error Fault.assert_index
    else if pixel_in_buffer milton_state.raster_buffer_size index then
      .ok { milton_state with
            raster_buffer := store milton_state.raster_buffer index FOREGROUND }
    else
      .error Fault.out_of_bounds

/-- Loop of `rasterize_stroke`. -/
def rasterize_loop (points : Int → v2l) : Nat → Int → MiltonState → Except Fault MiltonState
  | 0, _, ms => .ok ms
  | k + 1, i, ms =>
    match rasterize_point ms (points i) with
    | .error f => .error f
    | .ok ms1 => rasterize_loop points k (i + 1) ms1

/-- C `rasterize_stroke`. -/
def rasterize_stroke (milton_state : MiltonState) (points : Int → v2l) (num_points : Int) :
    Except Fault MiltonState :=
  rasterize_loop points num_points.toNat 0 milton_state

/-! ## `milton_update` -/

/-- Inner loop of the clear, `for (int x = 0; x < w; ++x) *pixels++ =
0xff000000;`, in a buffer of `size` bytes: trip count, the counter `x`, the
buffer and the pointer `pixels` as a pixel index. -/
def clear_row (size : Nat) :
    Nat → Int → (Int → Nat) × Int → Except Fault ((Int → Nat) × Int)
  | 0, _, s => .ok s
  | k + 1, x, (pixels, ptr) =>
    if pixel_in_buffer size ptr then
      if x + 1 > INT_MAX then .error Fault.int_overflow
      else clear_row size k (x + 1) (store pixels ptr BACKGROUND, ptr + 1)
    else .error Fault.out_of_bounds

/-- Outer loop of the clear, `for (int y = 0; y < h; ++y)`, over rows of `w`
pixels: trip count, the counter `y`, the buffer and the pointer. -/
def clear_rows (size : Nat) (w : Nat) :
    Nat → Int → (Int → Nat) × Int → Except Fault ((Int → Nat) × Int)
  | 0, _, s => .ok s
  | k + 1, y, s =>
    match clear_row size w 0 s with
    | .error f => .error f
    | .ok s1 =>
      if y + 1 > INT_MAX then .error Fault.int_overflow
      else clear_rows size w k (y + 1) s1

/-- Lines 142-149 of `milton_update`: the clear of `screen_size.h` rows of
`screen_size.w` pixels, from the start of the raster buffer. -/
def clear_raster (ms : MiltonState) : Except Fault MiltonState :=
  match clear_rows ms.raster_buffer_size ms.screen_size.w.toNat ms.screen_size.h.toNat 0
      (ms.raster_buffer, 0) with
  | .error f => .error f
  | .ok s => .ok { ms with raster_buffer := s.1 }

/-- Lines 181-185 of `milton_update`: every stored stroke
`stored_strokes[i]` rasterized, in index order.  The counter is an `int`; it
stays below `4096 * 4096` while the reads stay inside the array. -/
def rasterize_history : Nat → Int → MiltonState → Except Fault MiltonState
  | 0, _, ms => .ok ms
  | k + 1, i, ms =>
    if in_array i then
      let stored := ms.stored_strokes i
      match rasterize_stroke ms stored.points stored.num_points with
      | .error f => .error f
      | .ok ms1 => rasterize_history k (i + 1) ms1
    else .error Fault.out_of_bounds

/-- Line 160 of `milton_update`:
`stroke_points[num_stroke_points++] = canvas_point`. -/
def push_stroke_point (ms : MiltonState) (canvas_point : v2l) : Except Fault MiltonState :=
  if in_array ms.num_stroke_points then
    .ok { ms with
          stroke_points := store ms.stroke_points ms.num_stroke_points canvas_point
          num_stroke_points := ms.num_stroke_points + 1 }
  else .error Fault.out_of_bounds

/-- Lines 169-178 of `milton_update`: the `num_stroke_points` live points
copied out of `stroke_points` into a freshly allocated `StoredStroke`, which
is stored at `stored_strokes[num_stored_strokes++]`, and `num_stroke_points`
reset. -/
def push_stroke_to_history (ms : MiltonState) : Except Fault MiltonState :=
  if ms.num_stroke_points ≤ MAX_STROKE_POINTS ∧ in_array ms.num_stored_strokes then
    let stored : StoredStroke :=
      { points := memcpy (arena_alloc_array ⟨0, 0⟩) ms.stroke_points ms.num_stroke_points
        num_points := ms.num_stroke_points }
    .ok { ms with
          stored_strokes := store ms.stored_strokes ms.num_stored_strokes stored
          num_stored_strokes := ms.num_stored_strokes + 1
          num_stroke_points := 0 }
  else .error Fault.out_of_bounds

/-- Lines 152-179 of `milton_update`: the brush branch, the finalize branch,
or neither.  Returns the state and the value of `updated`. -/
def milton_update_stroke (ms : MiltonState) (input : MiltonInput) (updated : Int) :
    Except Fault (MiltonState × Int) :=
  match input.brush with
  | some in_point =>
    let canvas_point := raster_to_canvas ms in_point
    match push_stroke_point ms canvas_point with
    | .error f => .error f
    | .ok ms1 =>
      match rasterize_stroke ms1 ms1.stroke_points ms1.num_stroke_points with
      | .error f => .error f
      | .ok ms2 => .ok (ms2, 1)
  | none =>
    if ms.num_stroke_points > 0 then
      match push_stroke_to_history ms with
      | .error f => .error f
      | .ok ms1 => .ok (ms1, updated)
    else .ok (ms, updated)

/-- C `milton_update`.  Returns the state after the call and the returned
`bool32`, or the `Fault` at which the call ends. -/
def milton_update (milton_state : MiltonState) (input : MiltonInput) :
    Except Fault (MiltonState × Int) :=
  let updated : Int := 0
  let cleared : Except Fault (MiltonState × Int) :=
    if input.full_refresh ≠ 0 ∨ (1 : Int) ≠ 0 then
      match clear_raster milton_state with
      | .error f => .error f
      | .ok ms1 => .ok (ms1, 1)
    else .ok (milton_state, updated)
  match cleared with
  | .error f => .error f
  | .ok (ms1, updated) =>
    match milton_update_stroke ms1 input updated with
    | .error f => .error f
    | .ok (ms3, updated) =>
      match rasterize_history ms3.num_stored_strokes.toNat 0 ms3 with
      | .error f => .error f
      | .ok ms4 => .ok (ms4, updated)

/-- Successive calls of `milton_update`, one per input, as the frame loop of
the platform layer makes them; the first call that ends at a `Fault` ends
the run. -/
def milton_run (ms : MiltonState) : List MiltonInput → Except Fault MiltonState
  | [] => .ok ms
  | input :: rest =>
    match milton_update ms input with
    | .error f => .error f
    | .ok (ms1, _) => milton_run ms1 rest

/-- Lines 152-185 of `milton_update`: the stages after the clear, entered
with `updated = 1`. -/
def milton_update_repaint (ms : MiltonState) (input : MiltonInput) :
    Except Fault (MiltonState × Int) :=
  match milton_update_stroke ms input 1 with
  | .error f => .error f
  | .ok (ms3, updated) =>
    match rasterize_history ms3.num_stored_strokes.toNat 0 ms3 with
    | .error f => .error f
    | .ok ms4 => .ok (ms4, updated)

/-- Successive calls of the stages of `milton_update` after the clear. -/
def milton_run_repaint (ms : MiltonState) : List MiltonInput → Except Fault MiltonState
  | [] => .ok ms
  | input :: rest =>
    match milton_update_repaint ms input with
    | .error f => .error f
    | .ok (ms1, _) => milton_run_repaint ms1 rest

/-- The screen fits the raster buffer: the `screen_size.h * screen_size.w`
pixels of the clear lie inside the `raster_buffer_size` bytes, and both sizes
are values of an `int`. -/
def screen_fits (ms : MiltonState) : Prop :=
  ms.screen_size.h ≤ INT_MAX ∧ ms.screen_size.w ≤ INT_MAX ∧
    4 * ((ms.screen_size.h.toNat : Int) * (ms.screen_size.w.toNat : Int))
      ≤ (ms.raster_buffer_size : Int)

instance (ms : MiltonState) : Decidable (screen_fits ms) := by
  unfold screen_fits; infer_instance

/-! ## Concrete sessions -/

/-- A state with every field zero and every array empty. -/
def blank_state : MiltonState :=
  { full_width := 0
    full_height := 0
    bytes_per_pixel := 0
    raster_buffer := fun _ => 0
    raster_buffer_size := 0
    screen_size := ⟨0, 0⟩
    view_center := ⟨0, 0⟩
    view_scale := 0
    stroke_points := fun _ => ⟨0, 0⟩
    num_stroke_points := 0
    stored_strokes := fun _ => { points := fun _ => ⟨0, 0⟩, num_points := 0 }
    num_stored_strokes := 0 }

/-- The state after `milton_init`, with the screen size and the view set by
the platform layer; no stroke has been drawn. -/
def session (screen_size view_center : v2l) (view_scale : Int) : MiltonState :=
  { milton_init blank_state with
    screen_size := screen_size
    view_center := view_center
    view_scale := view_scale }

/-- The array holding the points of a list, in order from index `0`. -/
def points_of (l : List v2l) : Int → v2l :=
  fun i => if 0 ≤ i then l.getD i.toNat ⟨0, 0⟩ else ⟨0, 0⟩

/-- The first `n` elements of an array, in index order. -/
def take_points (a : Int → v2l) (n : Int) : List v2l :=
  (List.range n.toNat).map (fun (k : Nat) => a (Int.ofNat k))

/-- Why a call has no defined result, if it has none. -/
def fault_of {α : Type} (r : Except Fault α) : Option Fault :=
  match r with
  | .ok _ => none
  | .error f => some f

/-- The state a call left, if it completed. -/
def state_of (r : Except Fault MiltonState) : Option MiltonState :=
  match r with
  | .ok ms => some ms
  | .error _ => none

/-- The state a call of `milton_update` left, if it completed. -/
def updated_state (r : Except Fault (MiltonState × Int)) : Option MiltonState :=
  match r with
  | .ok (ms, _) => some ms
  | .error _ => none

/-- The value a call of `milton_update` returned, if it completed. -/
def updated_flag (r : Except Fault (MiltonState × Int)) : Option Int :=
  match r with
  | .ok (_, updated) => some updated
  | .error _ => none

/-- Three brush samples in raster coordinates. -/
def three_samples : List v2l := [⟨10, 10⟩, ⟨11, 10⟩, ⟨12, 11⟩]

/-- One tick per sample of `three_samples`. -/
def three_ticks : List MiltonInput :=
  [⟨0, some ⟨10, 10⟩⟩, ⟨1, some ⟨11, 10⟩⟩, ⟨0, some ⟨12, 11⟩⟩]

/-- A session in which two points have been captured and the brush is still
down. -/
def capturing : MiltonState :=
  { session ⟨100, 100⟩ ⟨0, 0⟩ 1 with
    stroke_points := points_of [⟨10, 10⟩, ⟨11, 10⟩]
    num_stroke_points := 2 }

/-- An idle session whose history holds one stroke of two points. -/
def with_history : MiltonState :=
  { session ⟨100, 100⟩ ⟨0, 0⟩ 1 with
    stored_strokes := store (session ⟨100, 100⟩ ⟨0, 0⟩ 1).stored_strokes 0
      { points := points_of [⟨10, 10⟩, ⟨11, 10⟩], num_points := 2 }
    num_stored_strokes := 1 }

/-- A session whose live stroke holds `4096 * 4096` points, all of them at the
canvas point `(100, 0)`, just right of the screen. -/
def full_live_stroke : MiltonState :=
  { session ⟨100, 100⟩ ⟨0, 0⟩ 1 with
    stroke_points := fun _ => ⟨100, 0⟩
    num_stroke_points := MAX_STROKE_POINTS }

/-- A session in which one stroke of two points has been finalized and a
second one is being captured. -/
def drawing : MiltonState :=
  { session ⟨100, 100⟩ ⟨0, 0⟩ 1 with
    stroke_points := points_of [⟨20, 20⟩]
    num_stroke_points := 1
    stored_strokes := store (session ⟨100, 100⟩ ⟨0, 0⟩ 1).stored_strokes 0
      { points := points_of [⟨10, 10⟩, ⟨11, 10⟩], num_points := 2 }
    num_stored_strokes := 1 }

/-- Every stored stroke of the history holds at least one point. -/
def no_empty_stroke (ms : MiltonState) : Prop :=
  ∀ i : Int, 0 ≤ i → i < ms.num_stored_strokes → 1 ≤ (ms.stored_strokes i).num_points

/-- Two states that differ at most in the contents of the raster buffer, and
whose buffers hold the same value at every index of `S`. -/
def agree_on (S : Int → Prop) (a b : MiltonState) : Prop :=
  b = { a with raster_buffer := b.raster_buffer } ∧
    ∀ i : Int, S i → a.raster_buffer i = b.raster_buffer i

/-- The session `drawing` with other contents in the raster buffer. -/
def drawing_dirty : MiltonState :=
  { drawing with raster_buffer := fun i => (i * i).toNat + 7 }

/-! ## The repaint in the order of the specification -/

/-- Rasterizer contract, step 2, the test of one point: its raster coordinate
by the view transform; `none` when the coordinate lies outside
`[0, screen_size.w) x [0, screen_size.h)`, otherwise the index
`y * screen_size.w + x` (in the 64-bit arithmetic of the data model). -/
def spec_raster_index (ms : MiltonState) (canvas_point : v2l) : Option Int :=
  let point := canvas_to_raster ms canvas_point
  if 0 ≤ point.x ∧ point.x < ms.screen_size.w ∧ 0 ≤ point.y ∧ point.y < ms.screen_size.h then
    some (wrap64 (wrap64 (point.y * ms.screen_size.w) + point.x))
  else
    none

/-- Rasterizer contract, step 2, for one point: skip it, or write the
foreground value at its index. -/
def spec_paint_point (ms : MiltonState) (pixels : Int → Nat) (canvas_point : v2l) :
    Int → Nat :=
  match spec_raster_index ms canvas_point with
  | none => pixels
  | some index => store pixels index FOREGROUND

/-- Rasterizer contract, step 2, for the points of one stroke, in order. -/
def spec_paint_stroke (ms : MiltonState) (points : Int → v2l) :
    Nat → Int → (Int → Nat) → (Int → Nat)
  | 0, _, pixels => pixels
  | k + 1, i, pixels =>
    spec_paint_stroke ms points k (i + 1) (spec_paint_point ms pixels (points i))

/-- Rasterizer contract, step 2, for every stored stroke of the history, in
insertion order. -/
def spec_paint_history (ms : MiltonState) : Nat → Int → (Int → Nat) → (Int → Nat)
  | 0, _, pixels => pixels
  | k + 1, i, pixels =>
    spec_paint_history ms k (i + 1)
      (spec_paint_stroke ms (ms.stored_strokes i).points
        (ms.stored_strokes i).num_points.toNat 0 pixels)

/-- Rasterizer contract, steps 1 and 2, for the strokes of a state: every
pixel cleared to the background value, then every stored stroke of the
history painted in insertion order, and then the live stroke. -/
def repaint_in_spec_order (ms : MiltonState) : Int → Nat :=
  let cleared : Int → Nat := fun _ => BACKGROUND
  let with_history := spec_paint_history ms ms.num_stored_strokes.toNat 0 cleared
  spec_paint_stroke ms ms.stroke_points ms.num_stroke_points.toNat 0 with_history

/-- The raster coordinate of a point lies inside the screen, or the point is
skipped by the test of `rasterize_stroke` (`x >= w` or `y >= h`). -/
def in_range_or_skipped (ms : MiltonState) (canvas_point : v2l) : Prop :=
  let point := canvas_to_raster ms canvas_point
  (0 ≤ point.x ∧ point.x < ms.screen_size.w ∧ 0 ≤ point.y ∧ point.y < ms.screen_size.h) ∨
    point.x ≥ ms.screen_size.w ∨ point.y ≥ ms.screen_size.h

/-- Every point of the live stroke and of the history is `in_range_or_skipped`. -/
def strokes_in_range_or_skipped (ms : MiltonState) : Prop :=
  (∀ j : Int, 0 ≤ j → j < ms.num_stroke_points →
    in_range_or_skipped ms (ms.stroke_points j)) ∧
  (∀ s j : Int, 0 ≤ s → s < ms.num_stored_strokes →
    0 ≤ j → j < (ms.stored_strokes s).num_points →
    in_range_or_skipped ms ((ms.stored_strokes s).points j))

instance (ms : MiltonState) (p : v2l) : Decidable (in_range_or_skipped ms p) := by
  unfold in_range_or_skipped
  infer_instance

/-- A session whose history holds one stroke of two points, the second one
right of the screen, and in which a second stroke is being captured. -/
def sketch : MiltonState :=
  { session ⟨100, 100⟩ ⟨0, 0⟩ 1 with
    stroke_points := points_of [⟨20, 20⟩]
    num_stroke_points := 1
    stored_strokes := store (session ⟨100, 100⟩ ⟨0, 0⟩ 1).stored_strokes 0
      { points := points_of [⟨10, 10⟩, ⟨150, 10⟩], num_points := 2 }
    num_stored_strokes := 1 }

/-! ## Arithmetic lemmas -/

theorem wrap64_eq_self {z : Int} (h : in_int64 z) : wrap64 z = z := by
  unfold in_int64 at h
  unfold wrap64
  omega

theorem wrap64_range (z : Int) : in_int64 (wrap64 z) := by
  unfold in_int64 wrap64
  omega

theorem wrap64_add_left (a b : Int) : wrap64 (wrap64 a + b) = wrap64 (a + b) := by
  unfold wrap64
  omega

theorem wrap64_sub_left (a b : Int) : wrap64 (wrap64 a - b) = wrap64 (a - b) := by
  unfold wrap64
  omega

/-- Truncating division by a positive divisor: the quotient times the divisor
lies between zero and the dividend, less than one divisor away from it. -/
theorem tdiv_trunc (a s : Int) (hs : 0 < s) :
    (0 ≤ a → 0 ≤ Int.tdiv a s * s ∧ Int.tdiv a s * s ≤ a ∧ a < Int.tdiv a s * s + s) ∧
    (a ≤ 0 → Int.tdiv a s * s ≤ 0 ∧ a ≤ Int.tdiv a s * s ∧ Int.tdiv a s * s - s < a) := by
  have key : ∀ b : Int, 0 ≤ b →
      0 ≤ Int.tdiv b s * s ∧ Int.tdiv b s * s ≤ b ∧ b < Int.tdiv b s * s + s := by
    intro b hb
    rw [Int.tdiv_eq_ediv hb (le_of_lt hs)]
    have h1 := Int.ediv_add_emod b s
    have h2 := Int.emod_nonneg b (ne_of_gt hs)
    have h3 := Int.emod_lt_of_pos b hs
    have h4 : 0 ≤ b / s := Int.ediv_nonneg hb (le_of_lt hs)
    have h5 : 0 ≤ b / s * s := mul_nonneg h4 (le_of_lt hs)
    have h6 : s * (b / s) = b / s * s := mul_comm _ _
    omega
  refine ⟨key a, ?_⟩
  intro ha
  have h := key (-a) (by omega)
  rw [Int.neg_tdiv, neg_mul] at h
  omega

/-- The quotient lies between zero and its product with a positive divisor. -/
theorem tdiv_between (a s : Int) (hs : 0 < s) :
    (0 ≤ a → 0 ≤ Int.tdiv a s ∧ Int.tdiv a s ≤ Int.tdiv a s * s) ∧
    (a ≤ 0 → Int.tdiv a s * s ≤ Int.tdiv a s ∧ Int.tdiv a s ≤ 0) := by
  have key : ∀ b : Int, 0 ≤ b → 0 ≤ Int.tdiv b s ∧ Int.tdiv b s ≤ Int.tdiv b s * s := by
    intro b hb
    have h0 : 0 ≤ Int.tdiv b s := Int.tdiv_nonneg hb (le_of_lt hs)
    have h1 : 0 ≤ Int.tdiv b s * (s - 1) := mul_nonneg h0 (by omega)
    have h2 : Int.tdiv b s * (s - 1) = Int.tdiv b s * s - Int.tdiv b s := by ring
    exact ⟨h0, by omega⟩
  refine ⟨key a, ?_⟩
  intro ha
  have h := key (-a) (by omega)
  rw [Int.neg_tdiv, neg_mul] at h
  omega

/-- Dividing a 64-bit value by a positive divisor stays in range, and so does
the quotient multiplied back. -/
theorem tdiv_in_int64 (a s : Int) (ha : in_int64 a) (hs : 0 < s) :
    in_int64 (Int.tdiv a s) ∧ in_int64 (Int.tdiv a s * s) := by
  have h1 := tdiv_trunc a s hs
  have h2 := tdiv_between a s hs
  unfold in_int64 at *
  rcases le_total 0 a with h | h
  · have := h1.1 h
    have := h2.1 h
    omega
  · have := h1.2 h
    have := h2.2 h
    omega

/-- One coordinate of the round trip raster -> canvas -> raster, `r` being the
raster coordinate of the first mapping. -/
theorem round_trip_coord (a c s r : Int) (hs : 0 < s)
    (hr : r = wrap64 (Int.tdiv (wrap64 (a + c)) s)) :
    wrap64 (Int.tdiv (wrap64 (wrap64 (wrap64 (r * s) - c) + c)) s) = r := by
  have hq := wrap64_range (a + c)
  have ht := tdiv_in_int64 (wrap64 (a + c)) s hq hs
  rw [wrap64_eq_self ht.1] at hr
  subst hr
  rw [wrap64_eq_self ht.2, wrap64_add_left, sub_add_cancel,
    wrap64_eq_self ht.2, Int.mul_tdiv_cancel _ (ne_of_gt hs), wrap64_eq_self ht.1]

/-! ## View transform: theorems -/

/-- C1. Transform round trip: for every canvas point `p`, view center and
scale `s > 0`, mapping `p` to raster, back to the canvas with the inverse
`milton_update` uses, and to raster again gives the raster point of `p`, in
both components. -/
theorem canvas_to_raster_round_trip (ms : MiltonState) (p : v2l) (hs : 0 < ms.view_scale) :
    canvas_to_raster ms (raster_to_canvas ms (canvas_to_raster ms p))
      = canvas_to_raster ms p := by
  simp only [canvas_to_raster, raster_to_canvas, add_v2l, sub_v2l, scale_v2l, invscale_v2l,
    v2l.mk.injEq]
  exact ⟨round_trip_coord p.x ms.view_center.x ms.view_scale _ hs rfl,
    round_trip_coord p.y ms.view_center.y ms.view_scale _ hs rfl⟩

/-- Witness of C1: center `(7, -2)`, scale `3`, canvas point `(-12, 8)`. -/
theorem canvas_to_raster_round_trip_witness :
    0 < (session ⟨100, 100⟩ ⟨7, -2⟩ 3).view_scale ∧
    canvas_to_raster (session ⟨100, 100⟩ ⟨7, -2⟩ 3)
        (raster_to_canvas (session ⟨100, 100⟩ ⟨7, -2⟩ 3)
          (canvas_to_raster (session ⟨100, 100⟩ ⟨7, -2⟩ 3) ⟨-12, 8⟩))
      = canvas_to_raster (session ⟨100, 100⟩ ⟨7, -2⟩ 3) ⟨-12, 8⟩ ∧
    canvas_to_raster (session ⟨100, 100⟩ ⟨7, -2⟩ 3) ⟨-12, 8⟩ = ⟨-1, 2⟩ ∧
    raster_to_canvas (session ⟨100, 100⟩ ⟨7, -2⟩ 3) ⟨-1, 2⟩ = ⟨-10, 8⟩ :=
  ⟨by decide, canvas_to_raster_round_trip _ _ (by decide), by decide, by decide⟩

/-- C2. For a state with `view_scale > 0`, `canvas_to_raster` returns in each
component the 64-bit sum of the point and `view_center` divided by
`view_scale` with truncation toward zero: the quotient times the scale lies
between zero and the sum, less than one scale away from it.  The sum is the
mathematical one whenever that fits 64 bits.  The function returns the point
only; the state is an argument it reads. -/
theorem canvas_to_raster_truncates (ms : MiltonState) (p : v2l) (hs : 0 < ms.view_scale) :
    (canvas_to_raster ms p).x = Int.tdiv (add_v2l p ms.view_center).x ms.view_scale ∧
    (canvas_to_raster ms p).y = Int.tdiv (add_v2l p ms.view_center).y ms.view_scale ∧
    (in_int64 (p.x + ms.view_center.x) → (add_v2l p ms.view_center).x = p.x + ms.view_center.x) ∧
    (in_int64 (p.y + ms.view_center.y) → (add_v2l p ms.view_center).y = p.y + ms.view_center.y) ∧
    (0 ≤ (add_v2l p ms.view_center).x →
      0 ≤ (canvas_to_raster ms p).x * ms.view_scale ∧
      (canvas_to_raster ms p).x * ms.view_scale ≤ (add_v2l p ms.view_center).x ∧
      (add_v2l p ms.view_center).x < (canvas_to_raster ms p).x * ms.view_scale + ms.view_scale) ∧
    ((add_v2l p ms.view_center).x ≤ 0 →
      (canvas_to_raster ms p).x * ms.view_scale ≤ 0 ∧
      (add_v2l p ms.view_center).x ≤ (canvas_to_raster ms p).x * ms.view_scale ∧
      (canvas_to_raster ms p).x * ms.view_scale - ms.view_scale < (add_v2l p ms.view_center).x) ∧
    (0 ≤ (add_v2l p ms.view_center).y →
      0 ≤ (canvas_to_raster ms p).y * ms.view_scale ∧
      (canvas_to_raster ms p).y * ms.view_scale ≤ (add_v2l p ms.view_center).y ∧
      (add_v2l p ms.view_center).y < (canvas_to_raster ms p).y * ms.view_scale + ms.view_scale) ∧
    ((add_v2l p ms.view_center).y ≤ 0 →
      (canvas_to_raster ms p).y * ms.view_scale ≤ 0 ∧
      (add_v2l p ms.view_center).y ≤ (canvas_to_raster ms p).y * ms.view_scale ∧
      (canvas_to_raster ms p).y * ms.view_scale - ms.view_scale < (add_v2l p ms.view_center).y) := by
  have hx : (canvas_to_raster ms p).x = Int.tdiv (add_v2l p ms.view_center).x ms.view_scale :=
    wrap64_eq_self (tdiv_in_int64 _ _ (wrap64_range _) hs).1
  have hy : (canvas_to_raster ms p).y = Int.tdiv (add_v2l p ms.view_center).y ms.view_scale :=
    wrap64_eq_self (tdiv_in_int64 _ _ (wrap64_range _) hs).1
  rw [hx, hy]
  have tx := tdiv_trunc (add_v2l p ms.view_center).x ms.view_scale hs
  have ty := tdiv_trunc (add_v2l p ms.view_center).y ms.view_scale hs
  exact ⟨rfl, rfl, fun h => wrap64_eq_self h, fun h => wrap64_eq_self h,
    tx.1, tx.2, ty.1, ty.2⟩

/-- Witness of C2: scale `2`, center `(0, 0)`; the sum `-3` gives `-1` and
the sum `3` gives `1`. -/
theorem canvas_to_raster_truncates_witness :
    0 < (session ⟨100, 100⟩ ⟨0, 0⟩ 2).view_scale ∧
    canvas_to_raster (session ⟨100, 100⟩ ⟨0, 0⟩ 2) ⟨-3, 3⟩ = ⟨-1, 1⟩ ∧
    (canvas_to_raster (session ⟨100, 100⟩ ⟨0, 0⟩ 2) ⟨-3, 3⟩).x
      = Int.tdiv (add_v2l ⟨-3, 3⟩ (session ⟨100, 100⟩ ⟨0, 0⟩ 2).view_center).x
          (session ⟨100, 100⟩ ⟨0, 0⟩ 2).view_scale :=
  ⟨by decide, by decide,
    (canvas_to_raster_truncates (session ⟨100, 100⟩ ⟨0, 0⟩ 2) ⟨-3, 3⟩ (by decide)).1⟩



/-! ## The clear -/

theorem ok_of_fault_none {α : Type} {r : Except Fault α} (h : fault_of r = none) :
    ∃ a, r = .ok a := by
  cases r with
  | error f => simp [fault_of] at h
  | ok a => exact ⟨a, rfl⟩

/-- A completed inner loop of the clear wrote the background value at the `k`
pixels from `ptr` on, all of them inside the buffer, and its counter stayed
an `int`. -/
theorem clear_row_ok (size : Nat) :
    ∀ (k : Nat) (x : Int) (pixels : Int → Nat) (ptr : Int) (s : (Int → Nat) × Int),
      clear_row size k x (pixels, ptr) = .ok s →
      s = (fun i => if ptr ≤ i ∧ i < ptr + k then BACKGROUND else pixels i, ptr + k) ∧
      (0 < k → 0 ≤ ptr ∧ 4 * (ptr + k) ≤ (size : Int) ∧ x + k ≤ INT_MAX) := by
  intro k
  induction k with
  | zero =>
    intro x pixels ptr s h
    simp only [clear_row] at h
    cases h
    refine ⟨?_, fun h0 => absurd h0 (lt_irrefl 0)⟩
    congr 1
    · funext i
      have : ¬ (ptr ≤ i ∧ i < ptr + ((0 : Nat) : Int)) := by
        push_cast
        omega
      rw [if_neg this]
    · simp
  | succ k ih =>
    intro x pixels ptr s h
    simp only [clear_row] at h
    by_cases hin : pixel_in_buffer size ptr
    · rw [if_pos hin] at h
      by_cases hov : x + 1 > INT_MAX
      · rw [if_pos hov] at h
        cases h
      · rw [if_neg hov] at h
        obtain ⟨hs, hb⟩ := ih _ _ _ _ h
        obtain ⟨hin1, hin2⟩ := hin
        refine ⟨?_, fun _ => ?_⟩
        · rw [hs]
          congr 1
          · funext i
            by_cases hi : i = ptr
            · subst hi
              have h1 : ¬ (i + 1 ≤ i ∧ i < i + 1 + (k : Int)) := by omega
              have h2 : i ≤ i ∧ i < i + ((k + 1 : Nat) : Int) := by
                push_cast
                omega
              rw [if_neg h1, if_pos h2]
              simp [store]
            · have h3 : store pixels ptr BACKGROUND i = pixels i := by
                simp [store, hi]
              rw [h3]
              by_cases hr : ptr + 1 ≤ i ∧ i < ptr + 1 + (k : Int)
              · have h2 : ptr ≤ i ∧ i < ptr + ((k + 1 : Nat) : Int) := by
                  push_cast
                  omega
                rw [if_pos hr, if_pos h2]
              · have h2 : ¬ (ptr ≤ i ∧ i < ptr + ((k + 1 : Nat) : Int)) := by
                  push_cast
                  omega
                rw [if_neg hr, if_neg h2]
          · push_cast
            ring
        · by_cases hk : 0 < k
          · obtain ⟨-, h4, h5⟩ := hb hk
            refine ⟨hin1, ?_, ?_⟩
            · push_cast
              omega
            · push_cast
              omega
          · have hk0 : k = 0 := by omega
            subst hk0
            refine ⟨hin1, ?_, ?_⟩
            · push_cast
              omega
            · push_cast
              omega
    · rw [if_neg hin] at h
      cases h

/-- The inner loop of the clear completes when its `k` pixels lie inside the
buffer and its counter stays an `int`. -/
theorem clear_row_completes (size : Nat) :
    ∀ (k : Nat) (x : Int) (pixels : Int → Nat) (ptr : Int),
      (0 < k → 0 ≤ ptr ∧ 4 * (ptr + k) ≤ (size : Int) ∧ x + k ≤ INT_MAX) →
      ∃ s, clear_row size k x (pixels, ptr) = .ok s := by
  intro k
  induction k with
  | zero =>
    intro x pixels ptr _
    exact ⟨_, rfl⟩
  | succ k ih =>
    intro x pixels ptr h
    obtain ⟨h1, h2, h3⟩ := h (Nat.succ_pos k)
    push_cast at h2 h3
    have hin : pixel_in_buffer size ptr := ⟨h1, by omega⟩
    have hov : ¬ x + 1 > INT_MAX := by omega
    simp only [clear_row, if_pos hin, if_neg hov]
    apply ih
    intro _
    refine ⟨by omega, by omega, by omega⟩

/-- Whether the inner loop of the clear completes does not depend on the
contents of the buffer. -/
theorem clear_row_fault (size : Nat) :
    ∀ (k : Nat) (x : Int) (p1 p2 : Int → Nat) (ptr : Int),
      fault_of (clear_row size k x (p1, ptr)) = fault_of (clear_row size k x (p2, ptr)) := by
  intro k
  induction k with
  | zero => intro x p1 p2 ptr; rfl
  | succ k ih =>
    intro x p1 p2 ptr
    simp only [clear_row]
    by_cases hin : pixel_in_buffer size ptr
    · simp only [if_pos hin]
      by_cases hov : x + 1 > INT_MAX
      · simp only [if_pos hov]
      · simp only [if_neg hov]
        exact ih _ _ _ _
    · simp only [if_neg hin]

/-- A completed outer loop of the clear wrote the background value at the
`k * w` pixels from `ptr` on, all of them inside the buffer, and its counters
stayed `int`s. -/
theorem clear_rows_ok (size : Nat) (w : Nat) :
    ∀ (k : Nat) (y : Int) (pixels : Int → Nat) (ptr : Int) (s : (Int → Nat) × Int),
      clear_rows size w k y (pixels, ptr) = .ok s →
      s = (fun i => if ptr ≤ i ∧ i < ptr + k * w then BACKGROUND else pixels i,
           ptr + k * w) ∧
      (0 < k → y + k ≤ INT_MAX ∧
        (0 < w → 0 ≤ ptr ∧ 4 * (ptr + k * w) ≤ (size : Int) ∧ (w : Int) ≤ INT_MAX)) := by
  intro k
  induction k with
  | zero =>
    intro y pixels ptr s h
    simp only [clear_rows] at h
    cases h
    refine ⟨?_, fun h0 => absurd h0 (lt_irrefl 0)⟩
    congr 1
    · funext i
      have : ¬ (ptr ≤ i ∧ i < ptr + ((0 : Nat) : Int) * w) := by
        push_cast
        omega
      rw [if_neg this]
    · simp
  | succ k ih =>
    intro y pixels ptr s h
    simp only [clear_rows] at h
    cases hr : clear_row size w 0 (pixels, ptr) with
    | error f => simp [hr] at h
    | ok s1 =>
      simp only [hr] at h
      obtain ⟨hs1, hb1⟩ := clear_row_ok size w 0 pixels ptr s1 hr
      by_cases hov : y + 1 > INT_MAX
      · rw [if_pos hov] at h
        cases h
      · rw [if_neg hov] at h
        subst hs1
        obtain ⟨hs, hb⟩ := ih _ _ _ _ h
        have hkw : (0 : Int) ≤ (k : Int) * w := by positivity
        have hmul : (((k + 1 : Nat) : Int)) * (w : Int) = (w : Int) + (k : Int) * w := by
          push_cast
          ring
        refine ⟨?_, fun _ => ?_⟩
        · rw [hs, hmul]
          congr 1
          · funext i
            by_cases h1 : ptr + (w : Int) ≤ i ∧ i < ptr + (w : Int) + (k : Int) * w
            · have h2 : ptr ≤ i ∧ i < ptr + ((w : Int) + (k : Int) * w) := by omega
              rw [if_pos h1, if_pos h2]
            · rw [if_neg h1]
              by_cases h3 : ptr ≤ i ∧ i < ptr + (w : Int)
              · have h2 : ptr ≤ i ∧ i < ptr + ((w : Int) + (k : Int) * w) := by omega
                rw [if_pos h3, if_pos h2]
              · have h2 : ¬ (ptr ≤ i ∧ i < ptr + ((w : Int) + (k : Int) * w)) := by omega
                rw [if_neg h3, if_neg h2]
          · ring
        · refine ⟨?_, fun hw => ?_⟩
          · by_cases hk : 0 < k
            · have := (hb hk).1
              push_cast
              omega
            · have hk0 : k = 0 := by omega
              subst hk0
              push_cast
              omega
          · obtain ⟨h4, h5, h6⟩ := hb1 hw
            rw [hmul]
            by_cases hk : 0 < k
            · obtain ⟨-, h7, -⟩ := (hb hk).2 hw
              refine ⟨h4, by omega, by omega⟩
            · have hk0 : k = 0 := by omega
              subst hk0
              simp only [Nat.cast_zero, zero_mul, add_zero]
              refine ⟨h4, h5, by omega⟩

/-- The outer loop of the clear completes when its `k * w` pixels lie inside
the buffer and its counters stay `int`s. -/
theorem clear_rows_completes (size : Nat) (w : Nat) :
    ∀ (k : Nat) (y : Int) (pixels : Int → Nat) (ptr : Int),
      (0 < k → y + k ≤ INT_MAX ∧
        (0 < w → 0 ≤ ptr ∧ 4 * (ptr + k * w) ≤ (size : Int) ∧ (w : Int) ≤ INT_MAX)) →
      ∃ s, clear_rows size w k y (pixels, ptr) = .ok s := by
  intro k
  induction k with
  | zero =>
    intro y pixels ptr _
    exact ⟨_, rfl⟩
  | succ k ih =>
    intro y pixels ptr h
    obtain ⟨h1, h2⟩ := h (Nat.succ_pos k)
    have hkw : (0 : Int) ≤ (k : Int) * w := by positivity
    have hmul : (((k + 1 : Nat) : Int)) * (w : Int) = (w : Int) + (k : Int) * w := by
      push_cast
      ring
    rw [hmul] at h2
    push_cast at h1
    obtain ⟨s1, hr⟩ := clear_row_completes size w 0 pixels ptr (by
      intro hw
      obtain ⟨h3, h4, h5⟩ := h2 hw
      refine ⟨h3, by omega, by omega⟩)
    obtain ⟨hs1, -⟩ := clear_row_ok size w 0 pixels ptr s1 hr
    have hov : ¬ y + 1 > INT_MAX := by omega
    simp only [clear_rows, hr, if_neg hov]
    subst hs1
    apply ih
    intro hk
    refine ⟨by omega, fun hw => ?_⟩
    obtain ⟨h3, h4, h5⟩ := h2 hw
    refine ⟨by omega, by omega, h5⟩

/-- Whether the outer loop of the clear completes does not depend on the
contents of the buffer. -/
theorem clear_rows_fault (size : Nat) (w : Nat) :
    ∀ (k : Nat) (y : Int) (p1 p2 : Int → Nat) (ptr : Int),
      fault_of (clear_rows size w k y (p1, ptr)) = fault_of (clear_rows size w k y (p2, ptr)) := by
  intro k
  induction k with
  | zero => intro y p1 p2 ptr; rfl
  | succ k ih =>
    intro y p1 p2 ptr
    simp only [clear_rows]
    have hf := clear_row_fault size w 0 p1 p2 ptr
    cases h1 : clear_row size w 0 (p1, ptr) with
    | error f =>
      cases h2 : clear_row size w 0 (p2, ptr) with
      | error g =>
        rw [h1, h2] at hf
        simp only [fault_of] at hf ⊢
        exact hf
      | ok s2 =>
        rw [h1, h2] at hf
        simp [fault_of] at hf
    | ok s1 =>
      cases h2 : clear_row size w 0 (p2, ptr) with
      | error g =>
        rw [h1, h2] at hf
        simp [fault_of] at hf
      | ok s2 =>
        simp only
        obtain ⟨e1, -⟩ := clear_row_ok size w 0 p1 ptr s1 h1
        obtain ⟨e2, -⟩ := clear_row_ok size w 0 p2 ptr s2 h2
        subst e1
        subst e2
        by_cases hov : y + 1 > INT_MAX
        · simp only [if_pos hov]
        · simp only [if_neg hov]
          exact ih _ _ _ _


/-- A completed clear changed the raster buffer only: it wrote the background
value at the first `screen_size.h * screen_size.w` pixels, which lie inside
the buffer. -/
theorem clear_raster_ok {ms c : MiltonState} (h : clear_raster ms = .ok c) :
    c = { ms with
          raster_buffer := fun i =>
            if 0 ≤ i ∧ i < (ms.screen_size.h.toNat : Int) * (ms.screen_size.w.toNat : Int)
            then BACKGROUND else ms.raster_buffer i } ∧
    (0 < ms.screen_size.h → 0 < ms.screen_size.w →
      4 * (ms.screen_size.h * ms.screen_size.w) ≤ (ms.raster_buffer_size : Int)) := by
  unfold clear_raster at h
  cases hr : clear_rows ms.raster_buffer_size ms.screen_size.w.toNat ms.screen_size.h.toNat 0
      (ms.raster_buffer, 0) with
  | error f => simp [hr] at h
  | ok s =>
    simp only [hr] at h
    cases h
    obtain ⟨hs, hb⟩ := clear_rows_ok _ _ _ _ _ _ _ hr
    subst hs
    refine ⟨?_, fun hh hw => ?_⟩
    · simp only [zero_add]
    · have h1 : 0 < ms.screen_size.h.toNat := by omega
      have h2 : 0 < ms.screen_size.w.toNat := by omega
      obtain ⟨-, h3, -⟩ := (hb h1).2 h2
      have e1 : (ms.screen_size.h.toNat : Int) = ms.screen_size.h := Int.toNat_of_nonneg hh.le
      have e2 : (ms.screen_size.w.toNat : Int) = ms.screen_size.w := Int.toNat_of_nonneg hw.le
      rw [e1, e2, zero_add] at h3
      exact h3

/-- The clear completes when the screen fits the raster buffer. -/
theorem clear_raster_completes {ms : MiltonState} (h : screen_fits ms) :
    ∃ c, clear_raster ms = .ok c := by
  obtain ⟨h1, h2, h3⟩ := h
  obtain ⟨s, hs⟩ := clear_rows_completes ms.raster_buffer_size ms.screen_size.w.toNat
    ms.screen_size.h.toNat 0 ms.raster_buffer 0 (by
      intro hk
      refine ⟨by omega, fun hw => ⟨le_refl 0, ?_, by omega⟩⟩
      rw [zero_add]
      exact h3)
  exact ⟨{ ms with raster_buffer := s.1 }, by simp only [clear_raster, hs]⟩

/-- Whether the clear completes does not depend on the contents of the raster
buffer. -/
theorem clear_raster_fault (ms : MiltonState) (buf : Int → Nat) :
    fault_of (clear_raster { ms with raster_buffer := buf }) = fault_of (clear_raster ms) := by
  have hf := clear_rows_fault ms.raster_buffer_size ms.screen_size.w.toNat
    ms.screen_size.h.toNat 0 buf ms.raster_buffer 0
  unfold clear_raster
  simp only
  cases h1 : clear_rows ms.raster_buffer_size ms.screen_size.w.toNat ms.screen_size.h.toNat 0
      (buf, 0) with
  | error f =>
    cases h2 : clear_rows ms.raster_buffer_size ms.screen_size.w.toNat ms.screen_size.h.toNat 0
        (ms.raster_buffer, 0) with
    | error g =>
      rw [h1, h2] at hf
      exact hf
    | ok s2 =>
      rw [h1, h2] at hf
      simp [fault_of] at hf
  | ok s1 =>
    cases h2 : clear_rows ms.raster_buffer_size ms.screen_size.w.toNat ms.screen_size.h.toNat 0
        (ms.raster_buffer, 0) with
    | error g =>
      rw [h1, h2] at hf
      simp [fault_of] at hf
    | ok s2 => rfl

/-! ## Frame: the rasterizer writes the raster buffer only -/

theorem rasterize_point_frame {ms ms' : MiltonState} {p : v2l}
    (h : rasterize_point ms p = .ok ms') :
    ms' = { ms with raster_buffer := ms'.raster_buffer } := by
  unfold rasterize_point at h
  split at h
  · cases h
    rfl
  · split_ifs at h
    cases h
    rfl

theorem rasterize_loop_frame (points : Int → v2l) :
    ∀ (k : Nat) (i : Int) (ms ms' : MiltonState),
      rasterize_loop points k i ms = .ok ms' →
      ms' = { ms with raster_buffer := ms'.raster_buffer } := by
  intro k
  induction k with
  | zero =>
    intro i ms ms' h
    simp only [rasterize_loop] at h
    cases h
    rfl
  | succ k ih =>
    intro i ms ms' h
    simp only [rasterize_loop] at h
    cases hp : rasterize_point ms (points i) with
    | error f => simp [hp] at h
    | ok ms1 =>
      simp only [hp] at h
      have h1 := rasterize_point_frame hp
      have h2 := ih _ _ _ h
      rw [h1] at h2
      exact h2

theorem rasterize_stroke_frame {ms ms' : MiltonState} {points : Int → v2l} {n : Int}
    (h : rasterize_stroke ms points n = .ok ms') :
    ms' = { ms with raster_buffer := ms'.raster_buffer } :=
  rasterize_loop_frame points _ _ _ _ h

/-- One completed step of the history pass: the read is inside
`stored_strokes` and the stroke read was rasterized. -/
theorem rasterize_history_succ {k : Nat} {i : Int} {ms ms' : MiltonState}
    (h : rasterize_history (k + 1) i ms = .ok ms') :
    in_array i ∧ ∃ ms1,
      rasterize_stroke ms (ms.stored_strokes i).points (ms.stored_strokes i).num_points
        = .ok ms1 ∧
      rasterize_history k (i + 1) ms1 = .ok ms' := by
  simp only [rasterize_history] at h
  by_cases hin : in_array i
  · rw [if_pos hin] at h
    cases hp : rasterize_stroke ms (ms.stored_strokes i).points
        (ms.stored_strokes i).num_points with
    | error f => simp [hp] at h
    | ok ms1 =>
      simp only [hp] at h
      exact ⟨hin, ms1, rfl, h⟩
  · rw [if_neg hin] at h
    cases h

theorem rasterize_history_frame :
    ∀ (k : Nat) (i : Int) (ms ms' : MiltonState),
      rasterize_history k i ms = .ok ms' →
      ms' = { ms with raster_buffer := ms'.raster_buffer } := by
  intro k
  induction k with
  | zero =>
    intro i ms ms' h
    simp only [rasterize_history] at h
    cases h
    rfl
  | succ k ih =>
    intro i ms ms' h
    obtain ⟨-, ms1, hp, h'⟩ := rasterize_history_succ h
    have h1 := rasterize_stroke_frame hp
    have h2 := ih _ _ _ h'
    rw [h1] at h2
    exact h2

/-- The clear, then the stages after it. -/
theorem milton_update_eq (ms : MiltonState) (input : MiltonInput) :
    milton_update ms input =
      match clear_raster ms with
      | .error f => .error f
      | .ok c => milton_update_repaint c input := by
  simp only [milton_update, milton_update_repaint]
  cases clear_raster ms with
  | error f => simp
  | ok c => simp

/-- The completed stages after the clear: the stroke branch, then the history
pass. -/
theorem milton_update_repaint_ok {c ms' : MiltonState} {input : MiltonInput} {r : Int}
    (h : milton_update_repaint c input = .ok (ms', r)) :
    ∃ mid, milton_update_stroke c input 1 = .ok (mid, r) ∧
      rasterize_history mid.num_stored_strokes.toNat 0 mid = .ok ms' := by
  unfold milton_update_repaint at h
  cases hs : milton_update_stroke c input 1 with
  | error f => simp [hs] at h
  | ok out =>
    obtain ⟨mid, u⟩ := out
    simp only [hs] at h
    cases hh : rasterize_history mid.num_stored_strokes.toNat 0 mid with
    | error f => simp [hh] at h
    | ok ms4 =>
      simp only [hh] at h
      cases h
      exact ⟨mid, rfl, hh⟩

/-- A completed update: the clear completed, then the stroke branch, then the
history pass. -/
theorem milton_update_ok {ms ms' : MiltonState} {input : MiltonInput} {r : Int}
    (h : milton_update ms input = .ok (ms', r)) :
    ∃ c mid, clear_raster ms = .ok c ∧
      milton_update_stroke c input 1 = .ok (mid, r) ∧
      rasterize_history mid.num_stored_strokes.toNat 0 mid = .ok ms' := by
  rw [milton_update_eq] at h
  cases hc : clear_raster ms with
  | error f => simp [hc] at h
  | ok c =>
    simp only [hc] at h
    obtain ⟨mid, hs, hh⟩ := milton_update_repaint_ok h
    exact ⟨c, mid, rfl, hs, hh⟩

/-- The completed stages after the clear with a brush sample: the store of
the sample was inside `stroke_points`, the sample is pushed on the live
stroke and nothing but the raster buffer differs otherwise. -/
theorem milton_update_repaint_brush {ms ms' : MiltonState} {fr r : Int} {b : v2l}
    (h : milton_update_repaint ms ⟨fr, some b⟩ = .ok (ms', r)) :
    r = 1 ∧ in_array ms.num_stroke_points ∧
    ms' = { ms with
            stroke_points := store ms.stroke_points ms.num_stroke_points (raster_to_canvas ms b)
            num_stroke_points := ms.num_stroke_points + 1
            raster_buffer := ms'.raster_buffer } := by
  obtain ⟨mid, hs, hh⟩ := milton_update_repaint_ok h
  simp only [milton_update_stroke, push_stroke_point] at hs
  by_cases hin : in_array ms.num_stroke_points
  · simp only [if_pos hin] at hs
    cases hr : rasterize_stroke
        { ms with
          stroke_points := store ms.stroke_points ms.num_stroke_points (raster_to_canvas ms b)
          num_stroke_points := ms.num_stroke_points + 1 }
        (store ms.stroke_points ms.num_stroke_points (raster_to_canvas ms b))
        (ms.num_stroke_points + 1) with
    | error f => simp [hr] at hs
    | ok ms2 =>
      simp only [hr] at hs
      cases hs
      have h1 := rasterize_stroke_frame hr
      have h2 := rasterize_history_frame _ _ _ _ hh
      rw [h1] at h2
      exact ⟨rfl, hin, h2⟩
  · simp only [if_neg hin] at hs
    cases hs

/-- The completed stages after the clear without a brush sample while points
are captured: the copy read inside `stroke_points`, the store was inside
`stored_strokes`, and the live stroke is pushed to the history. -/
theorem milton_update_repaint_release {ms ms' : MiltonState} {fr r : Int}
    (hn : 0 < ms.num_stroke_points)
    (h : milton_update_repaint ms ⟨fr, none⟩ = .ok (ms', r)) :
    r = 1 ∧ ms.num_stroke_points ≤ MAX_STROKE_POINTS ∧ in_array ms.num_stored_strokes ∧
    ms' = { ms with
            stored_strokes := store ms.stored_strokes ms.num_stored_strokes
              { points := memcpy (arena_alloc_array ⟨0, 0⟩) ms.stroke_points
                  ms.num_stroke_points
                num_points := ms.num_stroke_points }
            num_stored_strokes := ms.num_stored_strokes + 1
            num_stroke_points := 0
            raster_buffer := ms'.raster_buffer } := by
  obtain ⟨mid, hs, hh⟩ := milton_update_repaint_ok h
  have hn' : ms.num_stroke_points > 0 := hn
  simp only [milton_update_stroke, if_pos hn', push_stroke_to_history] at hs
  by_cases hin : ms.num_stroke_points ≤ MAX_STROKE_POINTS ∧ in_array ms.num_stored_strokes
  · simp only [if_pos hin] at hs
    cases hs
    have h2 := rasterize_history_frame _ _ _ _ hh
    exact ⟨rfl, hin.1, hin.2, h2⟩
  · simp only [if_neg hin] at hs
    cases hs

/-- The completed stages after the clear without a brush sample and without
captured points: nothing but the raster buffer differs. -/
theorem milton_update_repaint_idle {ms ms' : MiltonState} {fr r : Int}
    (hn : ¬ 0 < ms.num_stroke_points)
    (h : milton_update_repaint ms ⟨fr, none⟩ = .ok (ms', r)) :
    r = 1 ∧ ms' = { ms with raster_buffer := ms'.raster_buffer } := by
  obtain ⟨mid, hs, hh⟩ := milton_update_repaint_ok h
  have hn' : ¬ ms.num_stroke_points > 0 := hn
  simp only [milton_update_stroke, if_neg hn'] at hs
  cases hs
  have h2 := rasterize_history_frame _ _ _ _ hh
  exact ⟨rfl, h2⟩

/-- A completed update ran the stages after the clear on the state with the
cleared buffer. -/
theorem milton_update_cleared {ms ms' : MiltonState} {input : MiltonInput} {r : Int}
    (h : milton_update ms input = .ok (ms', r)) :
    ∃ buf, clear_raster ms = .ok { ms with raster_buffer := buf } ∧
      milton_update_repaint { ms with raster_buffer := buf } input = .ok (ms', r) := by
  rw [milton_update_eq] at h
  cases hc : clear_raster ms with
  | error f => simp [hc] at h
  | ok c =>
    simp only [hc] at h
    obtain ⟨e, -⟩ := clear_raster_ok hc
    rw [e] at h
    refine ⟨_, ?_, h⟩
    rw [← e]

/-- A completed update with a brush sample: the store of the sample was
inside `stroke_points`, the sample is pushed on the live stroke and nothing
but the raster buffer differs otherwise. -/
theorem milton_update_brush {ms ms' : MiltonState} {fr r : Int} {b : v2l}
    (h : milton_update ms ⟨fr, some b⟩ = .ok (ms', r)) :
    r = 1 ∧ in_array ms.num_stroke_points ∧
    ms' = { ms with
            stroke_points := store ms.stroke_points ms.num_stroke_points (raster_to_canvas ms b)
            num_stroke_points := ms.num_stroke_points + 1
            raster_buffer := ms'.raster_buffer } := by
  obtain ⟨buf, -, h'⟩ := milton_update_cleared h
  have h2 := milton_update_repaint_brush h'
  exact h2

/-- A completed update without a brush sample while points are captured: the
copy read inside `stroke_points`, the store was inside `stored_strokes`, and
the live stroke is pushed to the history. -/
theorem milton_update_release {ms ms' : MiltonState} {fr r : Int}
    (hn : 0 < ms.num_stroke_points)
    (h : milton_update ms ⟨fr, none⟩ = .ok (ms', r)) :
    r = 1 ∧ ms.num_stroke_points ≤ MAX_STROKE_POINTS ∧ in_array ms.num_stored_strokes ∧
    ms' = { ms with
            stored_strokes := store ms.stored_strokes ms.num_stored_strokes
              { points := memcpy (arena_alloc_array ⟨0, 0⟩) ms.stroke_points
                  ms.num_stroke_points
                num_points := ms.num_stroke_points }
            num_stored_strokes := ms.num_stored_strokes + 1
            num_stroke_points := 0
            raster_buffer := ms'.raster_buffer } := by
  obtain ⟨buf, -, h'⟩ := milton_update_cleared h
  have h2 := @milton_update_repaint_release { ms with raster_buffer := buf } ms' fr r hn h'
  exact h2

/-- A completed update without a brush sample and without captured points:
nothing but the raster buffer differs. -/
theorem milton_update_idle {ms ms' : MiltonState} {fr r : Int}
    (hn : ¬ 0 < ms.num_stroke_points)
    (h : milton_update ms ⟨fr, none⟩ = .ok (ms', r)) :
    r = 1 ∧ ms' = { ms with raster_buffer := ms'.raster_buffer } := by
  obtain ⟨buf, -, h'⟩ := milton_update_cleared h
  have h2 := @milton_update_repaint_idle { ms with raster_buffer := buf } ms' fr r hn h'
  exact h2


/-! ## Stroke lifecycle -/

theorem milton_run_append :
    ∀ (xs ys : List MiltonInput) (ms ms' : MiltonState),
      milton_run ms (xs ++ ys) = .ok ms' →
      ∃ mid, milton_run ms xs = .ok mid ∧ milton_run mid ys = .ok ms' := by
  intro xs
  induction xs with
  | nil =>
    intro ys ms ms' h
    exact ⟨ms, rfl, h⟩
  | cons x xs ih =>
    intro ys ms ms' h
    simp only [List.cons_append, milton_run] at h ⊢
    cases hu : milton_update ms x with
    | error f => simp [hu] at h
    | ok out =>
      obtain ⟨ms1, r⟩ := out
      simp only [hu] at h ⊢
      exact ih ys ms1 ms' h

/-- A run of ticks that all carry a brush sample: the samples, moved to the
canvas, are appended to the live stroke in order; the history and the view
are untouched. -/
theorem milton_run_brush :
    ∀ (ins : List MiltonInput) (bs : List v2l) (ms ms' : MiltonState),
      ins.map MiltonInput.brush = bs.map some →
      milton_run ms ins = .ok ms' →
      ms'.num_stroke_points = ms.num_stroke_points + bs.length ∧
      (∀ k : Nat, k < bs.length →
        ms'.stroke_points (ms.num_stroke_points + k) = raster_to_canvas ms (bs.getD k ⟨0, 0⟩)) ∧
      (∀ i : Int, i < ms.num_stroke_points → ms'.stroke_points i = ms.stroke_points i) ∧
      ms'.stored_strokes = ms.stored_strokes ∧
      ms'.num_stored_strokes = ms.num_stored_strokes ∧
      ms'.view_scale = ms.view_scale ∧ ms'.view_center = ms.view_center := by
  intro ins
  induction ins with
  | nil =>
    intro bs ms ms' hb h
    cases bs with
    | cons b bs => simp at hb
    | nil =>
      simp only [milton_run] at h
      cases h
      simp
  | cons inp rest ih =>
    intro bs ms ms' hb h
    cases bs with
    | nil => simp at hb
    | cons b bs =>
      obtain ⟨fr, br⟩ := inp
      simp only [List.map_cons, List.cons.injEq] at hb
      obtain ⟨hbr, hrest⟩ := hb
      change br = some b at hbr
      subst hbr
      simp only [milton_run] at h
      cases hu : milton_update ms ⟨fr, some b⟩ with
      | error f => simp [hu] at h
      | ok out =>
        obtain ⟨ms1, r⟩ := out
        simp only [hu] at h
        obtain ⟨-, -, h1⟩ := milton_update_brush hu
        obtain ⟨hn, hp, hlow, hss, hns, hvs, hvc⟩ := ih bs ms1 ms' hrest h
        have e1 : ms1.num_stroke_points = ms.num_stroke_points + 1 := by rw [h1]
        have e2 : ms1.stroke_points
            = store ms.stroke_points ms.num_stroke_points (raster_to_canvas ms b) := by
          rw [h1]
        have e3 : ms1.stored_strokes = ms.stored_strokes := by rw [h1]
        have e4 : ms1.num_stored_strokes = ms.num_stored_strokes := by rw [h1]
        have e5 : ms1.view_scale = ms.view_scale := by rw [h1]
        have e6 : ms1.view_center = ms.view_center := by rw [h1]
        have e7 : ∀ q, raster_to_canvas ms1 q = raster_to_canvas ms q := by
          intro q; simp only [raster_to_canvas, e5, e6]
        refine ⟨?_, ?_, ?_, ?_, ?_, ?_, ?_⟩
        · rw [hn, e1]; simp only [List.length_cons]; push_cast; ring
        · intro k hk
          cases k with
          | zero =>
            have := hlow ms.num_stroke_points (by rw [e1]; omega)
            simp only [Nat.cast_zero, add_zero, List.getD_cons_zero]
            rw [this, e2]
            simp [store]
          | succ k =>
            have hk' : k < bs.length := by simpa using hk
            have := hp k hk'
            rw [e1, e7] at this
            simp only [List.getD_cons_succ]
            rw [← this]
            congr 1
            push_cast
            ring
        · intro i hi
          have := hlow i (by rw [e1]; omega)
          rw [this, e2]
          have hne : i ≠ ms.num_stroke_points := by omega
          simp [store, hne]
        · rw [hss, e3]
        · rw [hns, e4]
        · rw [hvs, e5]
        · rw [hvc, e6]


/-- Without overflow the canvas point of a brush sample is
`(b.x * view_scale - view_center.x, b.y * view_scale - view_center.y)`. -/
theorem raster_to_canvas_exact (ms : MiltonState) (b : v2l)
    (hx : in_int64 (b.x * ms.view_scale)) (hy : in_int64 (b.y * ms.view_scale))
    (hx' : in_int64 (b.x * ms.view_scale - ms.view_center.x))
    (hy' : in_int64 (b.y * ms.view_scale - ms.view_center.y)) :
    raster_to_canvas ms b
      = ⟨b.x * ms.view_scale - ms.view_center.x, b.y * ms.view_scale - ms.view_center.y⟩ := by
  simp only [raster_to_canvas, scale_v2l, sub_v2l, wrap64_eq_self hx, wrap64_eq_self hy,
    wrap64_eq_self hx', wrap64_eq_self hy']

/-- C3. Stroke finalize round trip: from a state whose live stroke is empty,
`n >= 1` ticks with brush samples `b1..bn` followed by one tick without
brush, all of which complete (no assertion fails and no access leaves its
object, so `n` is within the capacity of `stroke_points` and the history is
below the capacity of `stored_strokes`), append exactly one `StoredStroke` to
the history; its `num_points` is `n`, its points are the canvas points of
`b1..bn` in capture order (`bi * view_scale - view_center` when that does not
overflow), and `num_stroke_points` is `0` again. -/
theorem stroke_finalize_round_trip (ms : MiltonState) (ins : List MiltonInput)
    (bs : List v2l) (last : MiltonInput)
    (hidle : ms.num_stroke_points = 0) (hn : 1 ≤ bs.length)
    (hbs : ins.map MiltonInput.brush = bs.map some) (hlast : last.brush = none)
    (hok : fault_of (milton_run ms (ins ++ [last])) = none) :
    ∃ ms', milton_run ms (ins ++ [last]) = .ok ms' ∧
      (bs.length : Int) ≤ MAX_STROKE_POINTS ∧
      (0 ≤ ms.num_stored_strokes ∧ ms.num_stored_strokes < MAX_STROKE_POINTS) ∧
      ms'.num_stored_strokes = ms.num_stored_strokes + 1 ∧
      (∀ i, i ≠ ms.num_stored_strokes → ms'.stored_strokes i = ms.stored_strokes i) ∧
      (ms'.stored_strokes ms.num_stored_strokes).num_points = bs.length ∧
      take_points (ms'.stored_strokes ms.num_stored_strokes).points bs.length
        = bs.map (raster_to_canvas ms) ∧
      (∀ b ∈ bs, in_int64 (b.x * ms.view_scale) → in_int64 (b.y * ms.view_scale) →
        in_int64 (b.x * ms.view_scale - ms.view_center.x) →
        in_int64 (b.y * ms.view_scale - ms.view_center.y) →
        raster_to_canvas ms b
          = ⟨b.x * ms.view_scale - ms.view_center.x, b.y * ms.view_scale - ms.view_center.y⟩) ∧
      ms'.num_stroke_points = 0 := by
  obtain ⟨ms', hrun⟩ := ok_of_fault_none hok
  obtain ⟨mid, hmid, hfin⟩ := milton_run_append _ _ _ _ hrun
  obtain ⟨hcount, hpts, -, hss, hns, -, -⟩ := milton_run_brush ins bs ms mid hbs hmid
  obtain ⟨fr, br⟩ := last
  change br = none at hlast
  subst hlast
  simp only [milton_run] at hfin
  cases hu : milton_update mid ⟨fr, none⟩ with
  | error f => simp [hu] at hfin
  | ok out =>
    obtain ⟨ms2, r⟩ := out
    simp only [hu] at hfin
    cases hfin
    have hpos : 0 < mid.num_stroke_points := by rw [hcount, hidle]; omega
    obtain ⟨-, hcap, hhist, h2⟩ := milton_update_release hpos hu
    have e1 : ms'.num_stored_strokes = mid.num_stored_strokes + 1 := by rw [h2]
    have e2 : ms'.stored_strokes = store mid.stored_strokes mid.num_stored_strokes
        { points := memcpy (arena_alloc_array ⟨0, 0⟩) mid.stroke_points mid.num_stroke_points
          num_points := mid.num_stroke_points } := by rw [h2]
    have e3 : ms'.num_stroke_points = 0 := by rw [h2]
    refine ⟨ms', hrun, ?_, ?_, ?_, ?_, ?_, ?_, ?_, e3⟩
    · rw [hcount, hidle] at hcap
      omega
    · rw [hns] at hhist
      exact hhist
    · rw [e1, hns]
    · intro i hi
      rw [e2, hns, hss]
      simp [store, hi]
    · rw [e2, hns]
      simp [store, hcount, hidle]
    · rw [e2, hns]
      simp only [store, if_true, take_points, Int.toNat_ofNat]
      apply List.ext_getElem
      · simp
      · intro k h1 h2
        simp only [List.length_map, List.length_range] at h1
        simp only [List.getElem_map, List.getElem_range, memcpy, Int.ofNat_eq_coe]
        have hlt : (0 : Int) ≤ (k : Int) ∧ (k : Int) < mid.num_stroke_points := by
          rw [hcount, hidle]; omega
        rw [if_pos hlt]
        have := hpts k h1
        rw [hidle, zero_add] at this
        rw [this, List.getD_eq_getElem _ _ h1]
    · intro b _ hx hy hx' hy'
      exact raster_to_canvas_exact ms b hx hy hx' hy'



/-! ## Completion -/

/-- The index computed for a point depends on the screen size and the view
only. -/
theorem raster_index_congr (m1 m2 : MiltonState) (p : v2l)
    (h1 : m1.screen_size = m2.screen_size) (h2 : m1.view_center = m2.view_center)
    (h3 : m1.view_scale = m2.view_scale) :
    raster_index m1 p = raster_index m2 p := by
  simp only [raster_index, canvas_to_raster, h1, h2, h3]

/-- Whether the loop body of `rasterize_stroke` completes at a point depends
on the screen size, the view and `raster_buffer_size` only. -/
theorem fault_point_congr (m1 m2 : MiltonState) (p : v2l)
    (h1 : m1.screen_size = m2.screen_size) (h2 : m1.view_center = m2.view_center)
    (h3 : m1.view_scale = m2.view_scale)
    (h4 : m1.raster_buffer_size = m2.raster_buffer_size) :
    fault_of (rasterize_point m1 p) = fault_of (rasterize_point m2 p) := by
  unfold rasterize_point
  rw [raster_index_congr m1 m2 p h1 h2 h3, h4]
  cases raster_index m2 p with
  | none => rfl
  | some index =>
    simp only
    split_ifs <;> rfl

/-- Whether the loop body of `rasterize_stroke` completes at a point does not
depend on the contents of the raster buffer. -/
theorem fault_point_frame (ms : MiltonState) (buf : Int → Nat) (p : v2l) :
    fault_of (rasterize_point { ms with raster_buffer := buf } p)
      = fault_of (rasterize_point ms p) :=
  fault_point_congr _ _ p rfl rfl rfl rfl

theorem rasterize_loop_completes (points : Int → v2l) :
    ∀ (k : Nat) (i : Int) (ms : MiltonState),
      (∀ j : Int, i ≤ j → j < i + k → fault_of (rasterize_point ms (points j)) = none) →
      fault_of (rasterize_loop points k i ms) = none := by
  intro k
  induction k with
  | zero => intro i ms _; rfl
  | succ k ih =>
    intro i ms h
    obtain ⟨ms1, h1⟩ := ok_of_fault_none (h i (le_refl i) (by push_cast; omega))
    simp only [rasterize_loop, h1]
    apply ih
    intro j hj1 hj2
    rw [rasterize_point_frame h1, fault_point_frame]
    exact h j (by omega) (by push_cast; omega)

theorem rasterize_stroke_completes (ms : MiltonState) (points : Int → v2l) (n : Int)
    (h : ∀ j : Int, 0 ≤ j → j < n → fault_of (rasterize_point ms (points j)) = none) :
    fault_of (rasterize_stroke ms points n) = none := by
  apply rasterize_loop_completes
  intro j hj1 hj2
  exact h j hj1 (by omega)

/-- A completed loop of `rasterize_stroke` completed at each of its points. -/
theorem rasterize_loop_point_ok (points : Int → v2l) :
    ∀ (k : Nat) (i : Int) (ms ms' : MiltonState),
      rasterize_loop points k i ms = .ok ms' →
      ∀ j : Int, i ≤ j → j < i + k → fault_of (rasterize_point ms (points j)) = none := by
  intro k
  induction k with
  | zero =>
    intro i ms ms' _ j hj1 hj2
    exfalso
    push_cast at hj2
    omega
  | succ k ih =>
    intro i ms ms' h j hj1 hj2
    simp only [rasterize_loop] at h
    cases hp : rasterize_point ms (points i) with
    | error f => simp [hp] at h
    | ok ms1 =>
      simp only [hp] at h
      by_cases hji : j = i
      · subst hji
        rw [hp]
        rfl
      · have h2 := ih _ _ _ h j (by omega) (by push_cast at hj2; omega)
        rw [rasterize_point_frame hp, fault_point_frame] at h2
        exact h2

theorem rasterize_history_completes :
    ∀ (k : Nat) (i : Int) (ms : MiltonState),
      (∀ s : Int, i ≤ s → s < i + k → in_array s) →
      (∀ s : Int, i ≤ s → s < i + k → ∀ j : Int, 0 ≤ j → j < (ms.stored_strokes s).num_points →
        fault_of (rasterize_point ms ((ms.stored_strokes s).points j)) = none) →
      fault_of (rasterize_history k i ms) = none := by
  intro k
  induction k with
  | zero => intro i ms _ _; rfl
  | succ k ih =>
    intro i ms hin h
    obtain ⟨ms1, h1⟩ := ok_of_fault_none
      (rasterize_stroke_completes ms (ms.stored_strokes i).points (ms.stored_strokes i).num_points
        (h i (le_refl i) (by push_cast; omega)))
    have hi : in_array i := hin i (le_refl i) (by push_cast; omega)
    simp only [rasterize_history, if_pos hi, h1]
    apply ih
    · intro s hs1 hs2
      exact hin s (by omega) (by push_cast; omega)
    · intro s hs1 hs2 j hj1 hj2
      have hf := rasterize_stroke_frame h1
      have hs : ms1.stored_strokes = ms.stored_strokes := by rw [hf]
      rw [hs] at hj2 ⊢
      rw [hf, fault_point_frame]
      exact h s (by omega) (by push_cast; omega) j hj1 hj2

/-! ## Independence of the previous buffer contents -/

/-- From two states that agree on `S`, the loop body of `rasterize_stroke`
ends at the same `Fault` or completes with states that agree on `S`. -/
theorem agree_on_point {S : Int → Prop} {a b : MiltonState} (h : agree_on S a b) (p : v2l) :
    (∃ f, rasterize_point a p = .error f ∧ rasterize_point b p = .error f) ∨
    (∃ a1 b1, rasterize_point a p = .ok a1 ∧ rasterize_point b p = .ok b1 ∧
      agree_on S a1 b1) := by
  obtain ⟨hf, hS⟩ := h
  have hidx : raster_index b p = raster_index a p :=
    raster_index_congr b a p (by rw [hf]) (by rw [hf]) (by rw [hf])
  have e1 : b.full_width = a.full_width := by rw [hf]
  have e2 : b.full_height = a.full_height := by rw [hf]
  have e3 : b.bytes_per_pixel = a.bytes_per_pixel := by rw [hf]
  have e4 : b.raster_buffer_size = a.raster_buffer_size := by rw [hf]
  have e5 : b.screen_size = a.screen_size := by rw [hf]
  have e6 : b.view_center = a.view_center := by rw [hf]
  have e7 : b.view_scale = a.view_scale := by rw [hf]
  have e8 : b.stroke_points = a.stroke_points := by rw [hf]
  have e9 : b.num_stroke_points = a.num_stroke_points := by rw [hf]
  have e10 : b.stored_strokes = a.stored_strokes := by rw [hf]
  have e11 : b.num_stored_strokes = a.num_stored_strokes := by rw [hf]
  unfold rasterize_point
  rw [hidx]
  cases raster_index a p with
  | none => exact Or.inr ⟨a, b, rfl, rfl, hf, hS⟩
  | some index =>
    simp only [e1, e2, e3, e4, e5, e6, e7, e8, e9, e10, e11]
    by_cases c1 : (a.raster_buffer_size : Int) < 9223372036854775808
    · simp only [if_neg (not_not.mpr c1)]
      by_cases c2 : index < wrap64 (a.raster_buffer_size : Int)
      · simp only [if_neg (not_not.mpr c2)]
        by_cases c3 : pixel_in_buffer a.raster_buffer_size index
        · simp only [if_pos c3]
          refine Or.inr ⟨_, _, rfl, rfl, rfl, ?_⟩
          intro i hi
          show store a.raster_buffer index FOREGROUND i
            = store b.raster_buffer index FOREGROUND i
          simp only [store]
          split_ifs
          · rfl
          · exact hS i hi
        · simp only [if_neg c3]
          exact Or.inl ⟨_, rfl, rfl⟩
      · simp only [if_pos c2]
        exact Or.inl ⟨_, rfl, rfl⟩
    · simp only [if_pos c1]
      exact Or.inl ⟨_, rfl, rfl⟩

theorem agree_on_loop {S : Int → Prop} (points : Int → v2l) :
    ∀ (k : Nat) (i : Int) (a b : MiltonState), agree_on S a b →
      (∃ f, rasterize_loop points k i a = .error f ∧ rasterize_loop points k i b = .error f) ∨
      (∃ a1 b1, rasterize_loop points k i a = .ok a1 ∧ rasterize_loop points k i b = .ok b1 ∧
        agree_on S a1 b1) := by
  intro k
  induction k with
  | zero =>
    intro i a b h
    exact Or.inr ⟨a, b, rfl, rfl, h⟩
  | succ k ih =>
    intro i a b h
    simp only [rasterize_loop]
    rcases agree_on_point h (points i) with ⟨f, ha, hb⟩ | ⟨a1, b1, ha, hb, h1⟩
    · rw [ha, hb]
      exact Or.inl ⟨f, rfl, rfl⟩
    · rw [ha, hb]
      exact ih (i + 1) a1 b1 h1

theorem agree_on_history {S : Int → Prop} :
    ∀ (k : Nat) (i : Int) (a b : MiltonState), agree_on S a b →
      (∃ f, rasterize_history k i a = .error f ∧ rasterize_history k i b = .error f) ∨
      (∃ a1 b1, rasterize_history k i a = .ok a1 ∧ rasterize_history k i b = .ok b1 ∧
        agree_on S a1 b1) := by
  intro k
  induction k with
  | zero =>
    intro i a b h
    exact Or.inr ⟨a, b, rfl, rfl, h⟩
  | succ k ih =>
    intro i a b h
    have hst : b.stored_strokes = a.stored_strokes := by rw [h.1]
    simp only [rasterize_history, rasterize_stroke, hst]
    by_cases hin : in_array i
    · simp only [if_pos hin]
      rcases agree_on_loop (a.stored_strokes i).points
          (a.stored_strokes i).num_points.toNat 0 a b h with ⟨f, ha, hb⟩ | ⟨a1, b1, ha, hb, h1⟩
      · rw [ha, hb]
        exact Or.inl ⟨f, rfl, rfl⟩
      · rw [ha, hb]
        exact ih (i + 1) a1 b1 h1
    · simp only [if_neg hin]
      exact Or.inl ⟨_, rfl, rfl⟩

/-- From two states that agree on `S`, the stroke branch of `milton_update`
ends at the same `Fault` or completes with the same value of `updated` and
states that agree on `S`. -/
theorem agree_on_stroke {S : Int → Prop} {a b : MiltonState} (h : agree_on S a b)
    (input : MiltonInput) :
    (∃ f, milton_update_stroke a input 1 = .error f ∧
      milton_update_stroke b input 1 = .error f) ∨
    (∃ a1 b1 r, milton_update_stroke a input 1 = .ok (a1, r) ∧
      milton_update_stroke b input 1 = .ok (b1, r) ∧ agree_on S a1 b1) := by
  obtain ⟨fr, br⟩ := input
  obtain ⟨hf, hS⟩ := h
  have e4 : b.raster_buffer_size = a.raster_buffer_size := by rw [hf]
  have e5 : b.screen_size = a.screen_size := by rw [hf]
  have e6 : b.view_center = a.view_center := by rw [hf]
  have e7 : b.view_scale = a.view_scale := by rw [hf]
  have e8 : b.stroke_points = a.stroke_points := by rw [hf]
  have e9 : b.num_stroke_points = a.num_stroke_points := by rw [hf]
  have e10 : b.stored_strokes = a.stored_strokes := by rw [hf]
  have e11 : b.num_stored_strokes = a.num_stored_strokes := by rw [hf]
  cases br with
  | some p =>
    have hc : raster_to_canvas b p = raster_to_canvas a p := by
      simp only [raster_to_canvas, e6, e7]
    simp only [milton_update_stroke, push_stroke_point, hc, e8, e9]
    by_cases hin : in_array a.num_stroke_points
    · simp only [if_pos hin]
      have hpush : agree_on S
          { a with
            stroke_points := store a.stroke_points a.num_stroke_points (raster_to_canvas a p)
            num_stroke_points := a.num_stroke_points + 1 }
          { b with
            stroke_points := store a.stroke_points a.num_stroke_points (raster_to_canvas a p)
            num_stroke_points := a.num_stroke_points + 1 } := by
        refine ⟨?_, hS⟩
        rw [hf]
      simp only [rasterize_stroke]
      rcases agree_on_loop
        (store a.stroke_points a.num_stroke_points (raster_to_canvas a p))
        (a.num_stroke_points + 1).toNat 0 _ _ hpush
        with ⟨f, ha, hb⟩ | ⟨a1, b1, ha, hb, h1⟩
      · rw [ha, hb]
        exact Or.inl ⟨f, rfl, rfl⟩
      · rw [ha, hb]
        exact Or.inr ⟨a1, b1, 1, rfl, rfl, h1⟩
    · simp only [if_neg hin]
      exact Or.inl ⟨_, rfl, rfl⟩
  | none =>
    simp only [milton_update_stroke, push_stroke_to_history, e8, e9, e10, e11]
    by_cases c : a.num_stroke_points > 0
    · simp only [if_pos c]
      by_cases hin : a.num_stroke_points ≤ MAX_STROKE_POINTS ∧ in_array a.num_stored_strokes
      · simp only [if_pos hin]
        refine Or.inr ⟨_, _, 1, rfl, rfl, ?_, hS⟩
        rw [hf]
      · simp only [if_neg hin]
        exact Or.inl ⟨_, rfl, rfl⟩
    · simp only [if_neg c]
      exact Or.inr ⟨_, _, 1, rfl, rfl, hf, hS⟩

/-- From two states that agree on `S`, the stages of `milton_update` after
the clear end at the same `Fault` or complete with the same returned value and
states that agree on `S`. -/
theorem agree_on_repaint {S : Int → Prop} {a b : MiltonState} (h : agree_on S a b)
    (input : MiltonInput) :
    (∃ f, milton_update_repaint a input = .error f ∧
      milton_update_repaint b input = .error f) ∨
    (∃ a1 b1 r, milton_update_repaint a input = .ok (a1, r) ∧
      milton_update_repaint b input = .ok (b1, r) ∧ agree_on S a1 b1) := by
  unfold milton_update_repaint
  rcases agree_on_stroke h input with ⟨f, ha, hb⟩ | ⟨a3, b3, r, ha, hb, h3⟩
  · rw [ha, hb]
    exact Or.inl ⟨f, rfl, rfl⟩
  · rw [ha, hb]
    have hcount : b3.num_stored_strokes = a3.num_stored_strokes := by rw [h3.1]
    simp only [hcount]
    rcases agree_on_history a3.num_stored_strokes.toNat 0 a3 b3 h3
      with ⟨f, ha4, hb4⟩ | ⟨a4, b4, ha4, hb4, h4⟩
    · rw [ha4, hb4]
      exact Or.inl ⟨f, rfl, rfl⟩
    · rw [ha4, hb4]
      exact Or.inr ⟨a4, b4, r, rfl, rfl, h4⟩

/-- Two updates from states that differ in the buffer contents only end at
the same `Fault`, or complete with the same returned value and states that agree
on every set of pixels the clear covers. -/
theorem agree_on_update {S : Int → Prop} (a : MiltonState) (buf : Int → Nat)
    (input : MiltonInput)
    (hS : ∀ i, S i →
      0 ≤ i ∧ i < (a.screen_size.h.toNat : Int) * (a.screen_size.w.toNat : Int)) :
    (∃ f, milton_update a input = .error f ∧
      milton_update { a with raster_buffer := buf } input = .error f) ∨
    (∃ a1 b1 r, milton_update a input = .ok (a1, r) ∧
      milton_update { a with raster_buffer := buf } input = .ok (b1, r) ∧
      agree_on S a1 b1) := by
  rw [milton_update_eq, milton_update_eq]
  have hf := clear_raster_fault a buf
  cases h1 : clear_raster a with
  | error f =>
    cases h2 : clear_raster { a with raster_buffer := buf } with
    | error g =>
      rw [h1, h2] at hf
      simp only [fault_of, Option.some.injEq] at hf
      subst hf
      exact Or.inl ⟨_, rfl, rfl⟩
    | ok c2 =>
      rw [h1, h2] at hf
      simp [fault_of] at hf
  | ok c1 =>
    cases h2 : clear_raster { a with raster_buffer := buf } with
    | error g =>
      rw [h1, h2] at hf
      simp [fault_of] at hf
    | ok c2 =>
      simp only
      obtain ⟨e1, -⟩ := clear_raster_ok h1
      obtain ⟨e2, -⟩ := clear_raster_ok h2
      have hag : agree_on S c1 c2 := by
        refine ⟨?_, ?_⟩
        · rw [e2, e1]
        · intro i hi
          rw [e1, e2]
          simp only [if_pos (hS i hi)]
      exact agree_on_repaint hag input


/-- The stages after the clear leave the screen size, the view and
`raster_buffer_size` alone. -/
theorem milton_update_repaint_fields {ms ms' : MiltonState} {input : MiltonInput} {r : Int}
    (h : milton_update_repaint ms input = .ok (ms', r)) :
    ms'.screen_size = ms.screen_size ∧ ms'.raster_buffer_size = ms.raster_buffer_size ∧
    ms'.view_center = ms.view_center ∧ ms'.view_scale = ms.view_scale := by
  obtain ⟨fr, br⟩ := input
  cases br with
  | some b =>
    obtain ⟨-, -, h2⟩ := milton_update_repaint_brush h
    refine ⟨?_, ?_, ?_, ?_⟩ <;> rw [h2]
  | none =>
    by_cases hn : 0 < ms.num_stroke_points
    · obtain ⟨-, -, -, h2⟩ := milton_update_repaint_release hn h
      refine ⟨?_, ?_, ?_, ?_⟩ <;> rw [h2]
    · obtain ⟨-, h2⟩ := milton_update_repaint_idle hn h
      refine ⟨?_, ?_, ?_, ?_⟩ <;> rw [h2]

/-- An update completes when the screen fits the raster buffer and the stages
after the clear complete; whether these complete does not depend on the
contents of the buffer. -/
theorem milton_update_completes {ms : MiltonState} {input : MiltonInput}
    (hfit : screen_fits ms) (h : fault_of (milton_update_repaint ms input) = none) :
    fault_of (milton_update ms input) = none := by
  obtain ⟨c, hc⟩ := clear_raster_completes hfit
  obtain ⟨e, -⟩ := clear_raster_ok hc
  rw [milton_update_eq, hc]
  have hag : agree_on (fun _ => False) ms c := ⟨by rw [e], fun _ hF => hF.elim⟩
  rcases agree_on_repaint hag input with ⟨f, ha, -⟩ | ⟨a1, b1, r, -, hb, -⟩
  · rw [ha] at h
    cases h
  · simp only [hb]
    rfl

/-- A run from a state that differs from `a` in the buffer contents only
completes when the screen fits the raster buffer and the stages after the
clear complete in turn from `a`. -/
theorem milton_run_simulation :
    ∀ (ticks : List MiltonInput) (a b : MiltonState),
      agree_on (fun _ => False) a b → screen_fits b →
      fault_of (milton_run_repaint a ticks) = none →
      fault_of (milton_run b ticks) = none := by
  intro ticks
  induction ticks with
  | nil => intro a b _ _ _; rfl
  | cons input rest ih =>
    intro a b hab hfit h
    obtain ⟨c, hc⟩ := clear_raster_completes hfit
    obtain ⟨e, -⟩ := clear_raster_ok hc
    have hac : agree_on (fun _ => False) a c := by
      refine ⟨?_, fun _ hF => hF.elim⟩
      rw [e, hab.1]
    simp only [milton_run, milton_update_eq, hc]
    simp only [milton_run_repaint] at h
    rcases agree_on_repaint hac input with ⟨f, ha, -⟩ | ⟨a1, b1, r, ha, hb, h1⟩
    · rw [ha] at h
      cases h
    · rw [ha] at h
      simp only [hb]
      apply ih a1 b1 h1 _ h
      obtain ⟨f1, f2, -, -⟩ := milton_update_repaint_fields hb
      have g1 : c.screen_size = b.screen_size := by rw [e]
      have g2 : c.raster_buffer_size = b.raster_buffer_size := by rw [e]
      unfold screen_fits at hfit ⊢
      rw [f1, f2, g1, g2]
      exact hfit

/-- A run completes when the screen fits the raster buffer and the stages
after the clear complete in turn. -/
theorem milton_run_completes {ms : MiltonState} {ticks : List MiltonInput}
    (hfit : screen_fits ms) (h : fault_of (milton_run_repaint ms ticks) = none) :
    fault_of (milton_run ms ticks) = none :=
  milton_run_simulation ticks ms ms ⟨rfl, fun _ hF => hF.elim⟩ hfit h

/-- A completed history pass read inside `stored_strokes` only. -/
theorem rasterize_history_in_array :
    ∀ (k : Nat) (i : Int) (ms ms' : MiltonState),
      rasterize_history k i ms = .ok ms' → 0 < k → 0 ≤ i ∧ i + k ≤ MAX_STROKE_POINTS := by
  intro k
  induction k with
  | zero => intro i ms ms' _ h0; exact absurd h0 (lt_irrefl 0)
  | succ k ih =>
    intro i ms ms' h _
    obtain ⟨hin, ms1, -, h'⟩ := rasterize_history_succ h
    obtain ⟨h1, h2⟩ := hin
    by_cases hk : 0 < k
    · obtain ⟨-, h3⟩ := ih _ _ _ h' hk
      refine ⟨h1, ?_⟩
      push_cast
      omega
    · have hk0 : k = 0 := by omega
      subst hk0
      refine ⟨h1, ?_⟩
      simp only [MAX_STROKE_POINTS]
      push_cast
      omega

/-- A completed update leaves the history within the capacity of
`stored_strokes`. -/
theorem milton_update_history_bound {ms ms' : MiltonState} {input : MiltonInput} {r : Int}
    (h : milton_update ms input = .ok (ms', r)) :
    ms'.num_stored_strokes ≤ MAX_STROKE_POINTS := by
  obtain ⟨c, mid, -, -, hh⟩ := milton_update_ok h
  have e : ms'.num_stored_strokes = mid.num_stored_strokes := by
    rw [rasterize_history_frame _ _ _ _ hh]
  rw [e]
  by_cases hk : 0 < mid.num_stored_strokes.toNat
  · obtain ⟨-, h2⟩ := rasterize_history_in_array _ _ _ _ hh hk
    have : (mid.num_stored_strokes.toNat : Int) = mid.num_stored_strokes :=
      Int.toNat_of_nonneg (by omega)
    omega
  · have : mid.num_stored_strokes ≤ 0 := by omega
    simp only [MAX_STROKE_POINTS]
    omega


/-! ## Calls that leave their objects -/

/-- When the screen fits the raster buffer, an update ends the way the stages
after the clear end; this does not depend on the contents of the buffer. -/
theorem milton_update_fault {ms : MiltonState} (input : MiltonInput) (hfit : screen_fits ms) :
    fault_of (milton_update ms input) = fault_of (milton_update_repaint ms input) := by
  obtain ⟨c, hc⟩ := clear_raster_completes hfit
  obtain ⟨e, -⟩ := clear_raster_ok hc
  rw [milton_update_eq, hc]
  have hag : agree_on (fun _ => False) ms c := ⟨by rw [e], fun _ hF => hF.elim⟩
  rcases agree_on_repaint hag input with ⟨f, ha, hb⟩ | ⟨a1, b1, r, ha, hb, -⟩
  · simp only [ha, hb]
  · simp only [ha, hb]
    rfl

/-- A brush sample whose canvas coordinate wraps around: on a `100 x 100`
screen at scale `10^9` the sample `(10^10, 5)` has the canvas coordinate
`10^19 - 2^64` in `x`; its raster coordinate is negative in `x`, it is not
skipped, and the pixel index `-8446743573` lies before the raster buffer.
The update does not complete: it ends at that pixel write. -/
theorem wrapped_sample_leaves_buffer :
    raster_index (session ⟨100, 100⟩ ⟨0, 0⟩ 1000000000)
      (raster_to_canvas (session ⟨100, 100⟩ ⟨0, 0⟩ 1000000000) ⟨10000000000, 5⟩)
      = some (-8446743573) ∧
    fault_of (milton_update (session ⟨100, 100⟩ ⟨0, 0⟩ 1000000000)
      ⟨0, some ⟨10000000000, 5⟩⟩) = some Fault.out_of_bounds := by
  refine ⟨by decide, ?_⟩
  rw [milton_update_fault _ (by decide)]
  decide

/-- A release at a full history: with `4096 * 4096` stored strokes the store
`stored_strokes[num_stored_strokes++]` is outside the array, and the update
does not complete. -/
theorem full_history_release_leaves_array :
    fault_of (milton_update { capturing with num_stored_strokes := MAX_STROKE_POINTS }
      ⟨0, none⟩) = some Fault.out_of_bounds := by
  rw [milton_update_fault _ (by decide)]
  decide

/-- An idle tick over a stored point left of the screen: at scale `1` the
stored canvas point `(-10^10, 5)` is not skipped, and its pixel index
`-9999999500` lies before the raster buffer.  The update does not complete:
the history pass ends at that pixel write. -/
theorem stored_point_leaves_buffer :
    raster_index (session ⟨100, 100⟩ ⟨0, 0⟩ 1) ⟨-10000000000, 5⟩ = some (-9999999500) ∧
    fault_of (milton_update
      { session ⟨100, 100⟩ ⟨0, 0⟩ 1 with
        stored_strokes := fun _ => { points := fun _ => ⟨-10000000000, 5⟩, num_points := 1 }
        num_stored_strokes := 1 }
      ⟨0, none⟩) = some Fault.out_of_bounds := by
  refine ⟨by decide, ?_⟩
  rw [milton_update_fault _ (by decide)]
  decide

/-- A screen that does not fit the raster buffer: on a `16384 x 16384` screen
the clear of `2^28` pixels leaves the `2^27` bytes of the buffer, and the
update does not complete. -/
theorem large_screen_leaves_buffer :
    ¬ screen_fits (session ⟨16384, 16384⟩ ⟨0, 0⟩ 1) ∧
    fault_of (milton_update (session ⟨16384, 16384⟩ ⟨0, 0⟩ 1) ⟨0, none⟩) ≠ none := by
  refine ⟨by decide, ?_⟩
  intro h
  obtain ⟨⟨ms', r⟩, h'⟩ := ok_of_fault_none h
  obtain ⟨c, mid, hc, -, -⟩ := milton_update_ok h'
  have hb := (clear_raster_ok hc).2 (by decide) (by decide)
  revert hb
  decide

/-- Witness of C3: three samples captured at scale `2`, center `(3, 4)`. -/
theorem stroke_finalize_round_trip_witness :
    ∃ ms', milton_run (session ⟨100, 100⟩ ⟨3, 4⟩ 2) (three_ticks ++ [⟨0, none⟩]) = .ok ms' ∧
      (three_samples.length : Int) ≤ MAX_STROKE_POINTS ∧
      (0 ≤ (session ⟨100, 100⟩ ⟨3, 4⟩ 2).num_stored_strokes ∧
        (session ⟨100, 100⟩ ⟨3, 4⟩ 2).num_stored_strokes < MAX_STROKE_POINTS) ∧
      ms'.num_stored_strokes = (session ⟨100, 100⟩ ⟨3, 4⟩ 2).num_stored_strokes + 1 ∧
      (∀ i, i ≠ (session ⟨100, 100⟩ ⟨3, 4⟩ 2).num_stored_strokes →
        ms'.stored_strokes i = (session ⟨100, 100⟩ ⟨3, 4⟩ 2).stored_strokes i) ∧
      (ms'.stored_strokes (session ⟨100, 100⟩ ⟨3, 4⟩ 2).num_stored_strokes).num_points
        = three_samples.length ∧
      take_points (ms'.stored_strokes (session ⟨100, 100⟩ ⟨3, 4⟩ 2).num_stored_strokes).points
          three_samples.length
        = three_samples.map (raster_to_canvas (session ⟨100, 100⟩ ⟨3, 4⟩ 2)) ∧
      (∀ b ∈ three_samples,
        in_int64 (b.x * (session ⟨100, 100⟩ ⟨3, 4⟩ 2).view_scale) →
        in_int64 (b.y * (session ⟨100, 100⟩ ⟨3, 4⟩ 2).view_scale) →
        in_int64 (b.x * (session ⟨100, 100⟩ ⟨3, 4⟩ 2).view_scale
          - (session ⟨100, 100⟩ ⟨3, 4⟩ 2).view_center.x) →
        in_int64 (b.y * (session ⟨100, 100⟩ ⟨3, 4⟩ 2).view_scale
          - (session ⟨100, 100⟩ ⟨3, 4⟩ 2).view_center.y) →
        raster_to_canvas (session ⟨100, 100⟩ ⟨3, 4⟩ 2) b
          = ⟨b.x * (session ⟨100, 100⟩ ⟨3, 4⟩ 2).view_scale
              - (session ⟨100, 100⟩ ⟨3, 4⟩ 2).view_center.x,
             b.y * (session ⟨100, 100⟩ ⟨3, 4⟩ 2).view_scale
              - (session ⟨100, 100⟩ ⟨3, 4⟩ 2).view_center.y⟩) ∧
      ms'.num_stroke_points = 0 :=
  stroke_finalize_round_trip (session ⟨100, 100⟩ ⟨3, 4⟩ 2) three_ticks three_samples ⟨0, none⟩
    (by decide) (by decide) (by decide) (by decide)
    (milton_run_completes (by decide) (by decide))

/-- C4. A `StoredStroke` is created exactly when the brush is absent while at
least one point is captured: an update that completes (no assertion fails and
no access leaves its object) increases `num_stored_strokes` by one when
`input.brush` is absent and `num_stroke_points > 0`, and leaves it unchanged
in every other case; the count stays within the capacity of
`stored_strokes`. -/
theorem stored_stroke_created_iff (ms : MiltonState) (input : MiltonInput)
    (hok : fault_of (milton_update ms input) = none) :
    ∃ ms' r, milton_update ms input = .ok (ms', r) ∧
      (input.brush = none ∧ 0 < ms.num_stroke_points →
        ms'.num_stored_strokes = ms.num_stored_strokes + 1) ∧
      (¬ (input.brush = none ∧ 0 < ms.num_stroke_points) →
        ms'.num_stored_strokes = ms.num_stored_strokes) ∧
      ms'.num_stored_strokes ≤ MAX_STROKE_POINTS := by
  obtain ⟨⟨ms', r⟩, h⟩ := ok_of_fault_none hok
  refine ⟨ms', r, h, ?_, ?_, milton_update_history_bound h⟩
  · rintro ⟨hb, hn⟩
    obtain ⟨fr, br⟩ := input
    change br = none at hb
    subst hb
    obtain ⟨-, -, -, h2⟩ := milton_update_release hn h
    rw [h2]
  · intro hnot
    obtain ⟨fr, br⟩ := input
    cases br with
    | some b =>
      obtain ⟨-, -, h2⟩ := milton_update_brush h
      rw [h2]
    | none =>
      have hn : ¬ 0 < ms.num_stroke_points := fun hn => hnot ⟨rfl, hn⟩
      obtain ⟨-, h2⟩ := milton_update_idle hn h
      rw [h2]

/-- Witness of C4: the brush is released after two captured points. -/
theorem stored_stroke_created_iff_witness :
    fault_of (milton_update capturing ⟨0, none⟩) = none ∧
    0 < capturing.num_stroke_points ∧
    ∃ ms' r, milton_update capturing ⟨0, none⟩ = .ok (ms', r) ∧
      ((⟨0, none⟩ : MiltonInput).brush = none ∧ 0 < capturing.num_stroke_points →
        ms'.num_stored_strokes = capturing.num_stored_strokes + 1) ∧
      (¬ ((⟨0, none⟩ : MiltonInput).brush = none ∧ 0 < capturing.num_stroke_points) →
        ms'.num_stored_strokes = capturing.num_stored_strokes) ∧
      ms'.num_stored_strokes ≤ MAX_STROKE_POINTS :=
  ⟨milton_update_completes (by decide) (by decide), by decide,
    stored_stroke_created_iff capturing ⟨0, none⟩
      (milton_update_completes (by decide) (by decide))⟩

/-- C9. Idempotent idle tick: from a state with `num_stroke_points = 0`, an
update without brush sample that completes (no assertion fails and no access
leaves its object) leaves the stroke history (count and every stored stroke)
and the live stroke (count and points) unchanged, and returns `1`. -/
theorem idle_tick_unchanged (ms : MiltonState) (fr : Int)
    (hidle : ms.num_stroke_points = 0)
    (hok : fault_of (milton_update ms ⟨fr, none⟩) = none) :
    ∃ ms', milton_update ms ⟨fr, none⟩ = .ok (ms', 1) ∧
      ms'.num_stored_strokes = ms.num_stored_strokes ∧
      ms'.stored_strokes = ms.stored_strokes ∧
      ms'.num_stroke_points = ms.num_stroke_points ∧
      ms'.stroke_points = ms.stroke_points := by
  obtain ⟨⟨ms', r⟩, h⟩ := ok_of_fault_none hok
  have hn : ¬ 0 < ms.num_stroke_points := by omega
  obtain ⟨hr, h2⟩ := milton_update_idle hn h
  subst hr
  refine ⟨ms', h, ?_, ?_, ?_, ?_⟩ <;> rw [h2]

/-- Witness of C9: an idle session whose history holds one stroke. -/
theorem idle_tick_unchanged_witness :
    with_history.num_stroke_points = 0 ∧
    fault_of (milton_update with_history ⟨0, none⟩) = none ∧
    ∃ ms', milton_update with_history ⟨0, none⟩ = .ok (ms', 1) ∧
      ms'.num_stored_strokes = with_history.num_stored_strokes ∧
      ms'.stored_strokes = with_history.stored_strokes ∧
      ms'.num_stroke_points = with_history.num_stroke_points ∧
      ms'.stroke_points = with_history.stroke_points :=
  ⟨by decide, milton_update_completes (by decide) (by decide),
    idle_tick_unchanged with_history 0 (by decide)
      (milton_update_completes (by decide) (by decide))⟩

/-- The inner loop of the clear ends only at a write outside the buffer or
at the overflow of its counter. -/
theorem clear_row_fault_kind (size : Nat) :
    ∀ (k : Nat) (x : Int) (pixels : Int → Nat) (ptr : Int) (f : Fault),
      clear_row size k x (pixels, ptr) = .error f →
      f = Fault.out_of_bounds ∨ f = Fault.int_overflow := by
  intro k
  induction k with
  | zero =>
    intro x pixels ptr f h
    simp only [clear_row] at h
    cases h
  | succ k ih =>
    intro x pixels ptr f h
    simp only [clear_row] at h
    by_cases hin : pixel_in_buffer size ptr
    · rw [if_pos hin] at h
      by_cases hov : x + 1 > INT_MAX
      · rw [if_pos hov] at h
        cases h
        exact Or.inr rfl
      · rw [if_neg hov] at h
        exact ih _ _ _ _ h
    · rw [if_neg hin] at h
      cases h
      exact Or.inl rfl

/-- The clear ends only at a write outside the buffer or at the overflow of
one of its counters. -/
theorem clear_rows_fault_kind (size : Nat) (w : Nat) :
    ∀ (k : Nat) (y : Int) (pixels : Int → Nat) (ptr : Int) (f : Fault),
      clear_rows size w k y (pixels, ptr) = .error f →
      f = Fault.out_of_bounds ∨ f = Fault.int_overflow := by
  intro k
  induction k with
  | zero =>
    intro y pixels ptr f h
    simp only [clear_rows] at h
    cases h
  | succ k ih =>
    intro y pixels ptr f h
    simp only [clear_rows] at h
    cases hr : clear_row size w 0 (pixels, ptr) with
    | error g =>
      simp only [hr] at h
      cases h
      exact clear_row_fault_kind size w 0 pixels ptr _ hr
    | ok s1 =>
      simp only [hr] at h
      by_cases hov : y + 1 > INT_MAX
      · rw [if_pos hov] at h
        cases h
        exact Or.inr rfl
      · rw [if_neg hov] at h
        obtain ⟨p1, q1⟩ := s1
        exact ih _ _ _ _ h

theorem clear_raster_fault_kind {ms : MiltonState} {f : Fault}
    (h : clear_raster ms = .error f) :
    f = Fault.out_of_bounds ∨ f = Fault.int_overflow := by
  unfold clear_raster at h
  cases hr : clear_rows ms.raster_buffer_size ms.screen_size.w.toNat ms.screen_size.h.toNat 0
      (ms.raster_buffer, 0) with
  | error g =>
    simp only [hr] at h
    cases h
    exact clear_rows_fault_kind _ _ _ _ _ _ _ hr
  | ok s => simp [hr] at h

/-- At capacity the store of the brush sample is outside `stroke_points`:
after a completed clear, `push_stroke_point` and with it the update end at
that access. -/
theorem update_at_capacity (ms : MiltonState) (fr : Int) (b : v2l)
    (hfull : ms.num_stroke_points = MAX_STROKE_POINTS)
    (c : MiltonState) (hc : clear_raster ms = .ok c) :
    push_stroke_point c (raster_to_canvas c b) = .error Fault.out_of_bounds ∧
    milton_update ms ⟨fr, some b⟩ = .error Fault.out_of_bounds := by
  obtain ⟨e, -⟩ := clear_raster_ok hc
  have hn : ¬ in_array c.num_stroke_points := by
    have : c.num_stroke_points = MAX_STROKE_POINTS := by rw [e]; exact hfull
    rw [this]
    decide
  have hp : push_stroke_point c (raster_to_canvas c b) = .error Fault.out_of_bounds := by
    simp only [push_stroke_point, if_neg hn]
  refine ⟨hp, ?_⟩
  rw [milton_update_eq, hc]
  simp only [milton_update_repaint, milton_update_stroke, hp]

/-- Counterexample to C10 as stated: with `4096 * 4096` points in the live
stroke (on a `100 x 100` screen, which fits the raster buffer) an update with
a brush sample clears the buffer and then makes the store
`stroke_points[num_stroke_points++]` at index `4096 * 4096`, outside the
array.  No check precedes the store; the call reports no failure and returns
no state in which the live stroke is left at `4096 * 4096` points: from the
store on its behaviour is undefined. -/
theorem capacity_boundary_counterexample :
    full_live_stroke.num_stroke_points = 4096 * 4096 ∧
    ¬ in_array full_live_stroke.num_stroke_points ∧
    (∃ c, clear_raster full_live_stroke = .ok c ∧
      push_stroke_point c (raster_to_canvas c ⟨5, 5⟩) = .error Fault.out_of_bounds) ∧
    milton_update full_live_stroke ⟨0, some ⟨5, 5⟩⟩ = .error Fault.out_of_bounds ∧
    updated_state (milton_update full_live_stroke ⟨0, some ⟨5, 5⟩⟩) = none := by
  obtain ⟨c, hc⟩ := clear_raster_completes (show screen_fits full_live_stroke by decide)
  obtain ⟨h1, h2⟩ := update_at_capacity full_live_stroke 0 ⟨5, 5⟩ rfl c hc
  refine ⟨rfl, by decide, ⟨c, hc, h1⟩, h2, ?_⟩
  rw [h2]
  rfl

/-- C10, amended. `milton_update` makes no capacity check and reports no
`CapacityExceeded`: from a state whose live stroke holds `4096 * 4096`
points, an update with a brush sample goes on to the store
`stroke_points[num_stroke_points++]` at index `4096 * 4096`, outside the
array, unless the clear before it already left the raster buffer.  The call
ends at an access outside its object (or, for a screen wider or higher than
an `int`, at the overflow of a counter of the clear), which is undefined
behaviour in C: no failure is reported and nothing keeps the live stroke at
`4096 * 4096` points.  When the screen fits the raster buffer the access is
the store into `stroke_points`. -/
theorem live_stroke_capacity_unchecked (ms : MiltonState) (fr : Int) (b : v2l)
    (hfull : ms.num_stroke_points = MAX_STROKE_POINTS) :
    (∃ f, milton_update ms ⟨fr, some b⟩ = .error f ∧
      (f = Fault.out_of_bounds ∨ f = Fault.int_overflow)) ∧
    (screen_fits ms →
      ∃ c, clear_raster ms = .ok c ∧
        push_stroke_point c (raster_to_canvas c b) = .error Fault.out_of_bounds ∧
        milton_update ms ⟨fr, some b⟩ = .error Fault.out_of_bounds) := by
  refine ⟨?_, fun hfit => ?_⟩
  · cases hc : clear_raster ms with
    | error f =>
      refine ⟨f, ?_, clear_raster_fault_kind hc⟩
      rw [milton_update_eq, hc]
    | ok c => exact ⟨_, (update_at_capacity ms fr b hfull c hc).2, Or.inl rfl⟩
  · obtain ⟨c, hc⟩ := clear_raster_completes hfit
    exact ⟨c, hc, update_at_capacity ms fr b hfull c hc⟩

/-- Witness of C10, amended: the session `full_live_stroke`, whose screen of
`100 x 100` pixels fits the raster buffer. -/
theorem live_stroke_capacity_unchecked_witness :
    full_live_stroke.num_stroke_points = MAX_STROKE_POINTS ∧
    (∃ f, milton_update full_live_stroke ⟨0, some ⟨5, 5⟩⟩ = .error f ∧
      (f = Fault.out_of_bounds ∨ f = Fault.int_overflow)) ∧
    (screen_fits full_live_stroke →
      ∃ c, clear_raster full_live_stroke = .ok c ∧
        push_stroke_point c (raster_to_canvas c ⟨5, 5⟩) = .error Fault.out_of_bounds ∧
        milton_update full_live_stroke ⟨0, some ⟨5, 5⟩⟩ = .error Fault.out_of_bounds) :=
  ⟨rfl, live_stroke_capacity_unchecked full_live_stroke 0 ⟨5, 5⟩ rfl⟩


/-! ## Pixels written by the rasterizer -/

/-- The buffer after one point: the foreground value at the index computed
for the point, if it is not skipped, and the previous contents elsewhere. -/
theorem rasterize_point_buffer {ms ms' : MiltonState} {p : v2l}
    (h : rasterize_point ms p = .ok ms') (i : Int) :
    ms'.raster_buffer i
      = if raster_index ms p = some i then FOREGROUND else ms.raster_buffer i := by
  unfold rasterize_point at h
  cases hidx : raster_index ms p with
  | none =>
    simp only [hidx] at h
    cases h
    simp
  | some index =>
    simp only [hidx] at h
    split_ifs at h
    cases h
    by_cases hi : i = index
    · subst hi
      simp [store]
    · have hne : ¬ index = i := fun e => hi e.symm
      simp [store, hi, hne]

/-- A foreground pixel stays a foreground pixel through `rasterize_stroke`. -/
theorem rasterize_loop_keeps (points : Int → v2l) (idx : Int) :
    ∀ (k : Nat) (i : Int) (ms ms' : MiltonState),
      rasterize_loop points k i ms = .ok ms' →
      ms.raster_buffer idx = FOREGROUND → ms'.raster_buffer idx = FOREGROUND := by
  intro k
  induction k with
  | zero =>
    intro i ms ms' h hfg
    simp only [rasterize_loop] at h
    cases h
    exact hfg
  | succ k ih =>
    intro i ms ms' h hfg
    simp only [rasterize_loop] at h
    cases hp : rasterize_point ms (points i) with
    | error f => simp [hp] at h
    | ok ms1 =>
      simp only [hp] at h
      apply ih _ _ _ h
      rw [rasterize_point_buffer hp]
      split_ifs
      · rfl
      · exact hfg

/-- After `rasterize_stroke`, the pixel of every point of the stroke that is
not skipped holds the foreground value. -/
theorem rasterize_loop_paints (points : Int → v2l) (idx : Int) :
    ∀ (k : Nat) (i : Int) (ms ms' : MiltonState),
      rasterize_loop points k i ms = .ok ms' →
      (∃ j : Int, i ≤ j ∧ j < i + k ∧ raster_index ms (points j) = some idx) →
      ms'.raster_buffer idx = FOREGROUND := by
  intro k
  induction k with
  | zero =>
    intro i ms ms' _ hj
    obtain ⟨j, h1, h2, -⟩ := hj
    simp only [Nat.cast_zero, add_zero] at h2
    omega
  | succ k ih =>
    intro i ms ms' h hj
    simp only [rasterize_loop] at h
    cases hp : rasterize_point ms (points i) with
    | error f => simp [hp] at h
    | ok ms1 =>
      simp only [hp] at h
      obtain ⟨j, h1, h2, h3⟩ := hj
      by_cases hji : j = i
      · subst hji
        apply rasterize_loop_keeps points idx _ _ _ _ h
        rw [rasterize_point_buffer hp, if_pos h3]
      · apply ih _ _ _ h
        refine ⟨j, by omega, by push_cast at h2; omega, ?_⟩
        rw [← h3]
        have hf := rasterize_point_frame hp
        exact raster_index_congr ms1 ms _ (by rw [hf]) (by rw [hf]) (by rw [hf])

/-- A foreground pixel stays a foreground pixel through the history pass. -/
theorem rasterize_history_keeps (idx : Int) :
    ∀ (k : Nat) (i : Int) (ms ms' : MiltonState),
      rasterize_history k i ms = .ok ms' →
      ms.raster_buffer idx = FOREGROUND → ms'.raster_buffer idx = FOREGROUND := by
  intro k
  induction k with
  | zero =>
    intro i ms ms' h hfg
    simp only [rasterize_history] at h
    cases h
    exact hfg
  | succ k ih =>
    intro i ms ms' h hfg
    obtain ⟨-, ms1, hp, h'⟩ := rasterize_history_succ h
    exact ih _ _ _ h' (rasterize_loop_keeps _ idx _ _ _ _ hp hfg)

/-- After the history pass, the pixel of every point of every stored stroke
that is not skipped holds the foreground value. -/
theorem rasterize_history_paints (idx : Int) :
    ∀ (k : Nat) (i : Int) (ms ms' : MiltonState),
      rasterize_history k i ms = .ok ms' →
      (∃ s j : Int, i ≤ s ∧ s < i + k ∧ 0 ≤ j ∧ j < (ms.stored_strokes s).num_points ∧
        raster_index ms ((ms.stored_strokes s).points j) = some idx) →
      ms'.raster_buffer idx = FOREGROUND := by
  intro k
  induction k with
  | zero =>
    intro i ms ms' _ hj
    obtain ⟨s, j, h1, h2, -⟩ := hj
    simp only [Nat.cast_zero, add_zero] at h2
    omega
  | succ k ih =>
    intro i ms ms' h hj
    obtain ⟨-, ms1, hp, h'⟩ := rasterize_history_succ h
    obtain ⟨s, j, h1, h2, h3, h4, h5⟩ := hj
    by_cases hsi : s = i
    · subst hsi
      apply rasterize_history_keeps idx _ _ _ _ h'
      apply rasterize_loop_paints _ idx _ _ _ _ hp
      exact ⟨j, h3, by omega, h5⟩
    · apply ih _ _ _ h'
      have hf := rasterize_stroke_frame hp
      have e : ms1.stored_strokes = ms.stored_strokes := by rw [hf]
      refine ⟨s, j, by omega, by push_cast at h2; omega, h3, by rw [e]; exact h4, ?_⟩
      rw [e, ← h5]
      exact raster_index_congr ms1 ms _ (by rw [hf]) (by rw [hf]) (by rw [hf])


/-- The loop body of `rasterize_stroke` completes at a point whose pixel lies
inside the raster buffer, when `raster_buffer_size` is below `2^63`. -/
theorem fault_none_of_index {ms : MiltonState} {p : v2l} {idx : Int}
    (hidx : raster_index ms p = some idx)
    (hsize : (ms.raster_buffer_size : Int) < 9223372036854775808)
    (hin : pixel_in_buffer ms.raster_buffer_size idx) :
    fault_of (rasterize_point ms p) = none := by
  have hw : wrap64 (ms.raster_buffer_size : Int) = (ms.raster_buffer_size : Int) :=
    wrap64_eq_self ⟨by omega, hsize⟩
  have hlt : idx < (ms.raster_buffer_size : Int) := by
    obtain ⟨h1, h2⟩ := hin
    omega
  unfold rasterize_point
  simp only [hidx, hw]
  rw [if_neg (by omega), if_neg (by omega), if_pos hin]
  rfl

/-- A point at which the loop body of `rasterize_stroke` completes is skipped,
or its pixel lies inside the raster buffer. -/
theorem index_of_fault_none {ms : MiltonState} {p : v2l} {idx : Int}
    (hidx : raster_index ms p = some idx)
    (h : fault_of (rasterize_point ms p) = none) :
    pixel_in_buffer ms.raster_buffer_size idx ∧
      (ms.raster_buffer_size : Int) < 9223372036854775808 := by
  unfold rasterize_point at h
  simp only [hidx] at h
  by_cases c1 : (ms.raster_buffer_size : Int) < 9223372036854775808
  · simp only [if_neg (not_not.mpr c1)] at h
    by_cases c2 : idx < wrap64 (ms.raster_buffer_size : Int)
    · simp only [if_neg (not_not.mpr c2)] at h
      by_cases c3 : pixel_in_buffer ms.raster_buffer_size idx
      · exact ⟨c3, c1⟩
      · simp only [if_neg c3] at h
        cases h
    · simp only [if_pos c2] at h
      cases h
  · simp only [if_pos c1] at h
    cases h

/-- The completed stages after the clear with a brush sample: the store was
inside `stroke_points`, the live stroke with the sample was rasterized, then
the history. -/
theorem milton_update_repaint_brush_ok {ms ms' : MiltonState} {fr r : Int} {b : v2l}
    (h : milton_update_repaint ms ⟨fr, some b⟩ = .ok (ms', r)) :
    in_array ms.num_stroke_points ∧ ∃ ms2,
      rasterize_stroke
        { ms with
          stroke_points := store ms.stroke_points ms.num_stroke_points (raster_to_canvas ms b)
          num_stroke_points := ms.num_stroke_points + 1 }
        (store ms.stroke_points ms.num_stroke_points (raster_to_canvas ms b))
        (ms.num_stroke_points + 1) = .ok ms2 ∧
      rasterize_history ms2.num_stored_strokes.toNat 0 ms2 = .ok ms' := by
  obtain ⟨mid, hs, hh⟩ := milton_update_repaint_ok h
  simp only [milton_update_stroke, push_stroke_point] at hs
  by_cases hin : in_array ms.num_stroke_points
  · simp only [if_pos hin] at hs
    cases hr : rasterize_stroke
        { ms with
          stroke_points := store ms.stroke_points ms.num_stroke_points (raster_to_canvas ms b)
          num_stroke_points := ms.num_stroke_points + 1 }
        (store ms.stroke_points ms.num_stroke_points (raster_to_canvas ms b))
        (ms.num_stroke_points + 1) with
    | error f => simp [hr] at hs
    | ok ms2 =>
      simp only [hr] at hs
      cases hs
      exact ⟨hin, _, rfl, hh⟩
  · simp only [if_neg hin] at hs
    cases hs

/-- After the completed stages after the clear, the pixel of every point of
the live stroke that is not skipped holds the foreground value. -/
theorem milton_update_repaint_paints_live {ms ms' : MiltonState} {input : MiltonInput}
    {r idx : Int}
    (h : milton_update_repaint ms input = .ok (ms', r))
    (hpt : ∃ j : Int, 0 ≤ j ∧ j < ms'.num_stroke_points ∧
      raster_index ms' (ms'.stroke_points j) = some idx) :
    ms'.raster_buffer idx = FOREGROUND := by
  obtain ⟨j, hj1, hj2, hj3⟩ := hpt
  obtain ⟨fr, br⟩ := input
  cases br with
  | none =>
    by_cases hn : 0 < ms.num_stroke_points
    · obtain ⟨-, -, -, h2⟩ := milton_update_repaint_release hn h
      have e : ms'.num_stroke_points = 0 := by rw [h2]
      omega
    · obtain ⟨-, h2⟩ := milton_update_repaint_idle hn h
      have e : ms'.num_stroke_points = ms.num_stroke_points := by rw [h2]
      omega
  | some b =>
    obtain ⟨-, ms2, hr, hh⟩ := milton_update_repaint_brush_ok h
    have f1 := rasterize_stroke_frame hr
    have f2 := rasterize_history_frame _ _ _ _ hh
    apply rasterize_history_keeps idx _ _ _ _ hh
    apply rasterize_loop_paints _ idx _ _ _ _ hr
    have e1 : ms'.num_stroke_points = ms.num_stroke_points + 1 := by rw [f2, f1]
    have e2 : ms'.stroke_points
        = store ms.stroke_points ms.num_stroke_points (raster_to_canvas ms b) := by
      rw [f2, f1]
    refine ⟨j, hj1, ?_, ?_⟩
    · rw [← e1]
      omega
    · rw [← e2, ← hj3]
      exact raster_index_congr _ ms' _ (by rw [f2, f1]) (by rw [f2, f1]) (by rw [f2, f1])

/-- After the completed stages after the clear, the pixel of every point of
every stored stroke that is not skipped holds the foreground value. -/
theorem milton_update_repaint_paints_history {ms ms' : MiltonState} {input : MiltonInput}
    {r idx : Int}
    (h : milton_update_repaint ms input = .ok (ms', r))
    (hpt : ∃ s j : Int, 0 ≤ s ∧ s < ms'.num_stored_strokes ∧
      0 ≤ j ∧ j < (ms'.stored_strokes s).num_points ∧
      raster_index ms' ((ms'.stored_strokes s).points j) = some idx) :
    ms'.raster_buffer idx = FOREGROUND := by
  obtain ⟨s, j, hs1, hs2, hj1, hj2, hj3⟩ := hpt
  obtain ⟨mid, -, hh⟩ := milton_update_repaint_ok h
  have f2 := rasterize_history_frame _ _ _ _ hh
  have e1 : ms'.num_stored_strokes = mid.num_stored_strokes := by rw [f2]
  have e2 : ms'.stored_strokes = mid.stored_strokes := by rw [f2]
  apply rasterize_history_paints idx _ _ _ _ hh
  refine ⟨s, j, hs1, ?_, hj1, ?_, ?_⟩
  · rw [← e1]
    omega
  · rw [← e2]
    exact hj2
  · rw [← e2, ← hj3]
    exact raster_index_congr _ ms' _ (by rw [f2]) (by rw [f2]) (by rw [f2])

/-- After an update that completes, the pixel of every point of the live
stroke that is not skipped holds the foreground value. -/
theorem milton_update_paints_live {ms ms' : MiltonState} {input : MiltonInput} {r idx : Int}
    (h : milton_update ms input = .ok (ms', r))
    (hpt : ∃ j : Int, 0 ≤ j ∧ j < ms'.num_stroke_points ∧
      raster_index ms' (ms'.stroke_points j) = some idx) :
    ms'.raster_buffer idx = FOREGROUND := by
  obtain ⟨buf, -, h'⟩ := milton_update_cleared h
  exact milton_update_repaint_paints_live h' hpt

/-- After an update that completes, the pixel of every point of every stored
stroke that is not skipped holds the foreground value. -/
theorem milton_update_paints_history {ms ms' : MiltonState} {input : MiltonInput}
    {r idx : Int}
    (h : milton_update ms input = .ok (ms', r))
    (hpt : ∃ s j : Int, 0 ≤ s ∧ s < ms'.num_stored_strokes ∧
      0 ≤ j ∧ j < (ms'.stored_strokes s).num_points ∧
      raster_index ms' ((ms'.stored_strokes s).points j) = some idx) :
    ms'.raster_buffer idx = FOREGROUND := by
  obtain ⟨buf, -, h'⟩ := milton_update_cleared h
  exact milton_update_repaint_paints_history h' hpt

/-- The index computed for the canvas point of a brush sample on the screen,
when no product or difference overflows: `y * screen_size.w + x`. -/
theorem raster_index_of_brush (ms : MiltonState) (x y : Int)
    (hs : 0 < ms.view_scale)
    (hx : 0 ≤ x ∧ x < ms.screen_size.w) (hy : 0 ≤ y ∧ y < ms.screen_size.h)
    (hxs : in_int64 (x * ms.view_scale)) (hys : in_int64 (y * ms.view_scale))
    (hxc : in_int64 (x * ms.view_scale - ms.view_center.x))
    (hyc : in_int64 (y * ms.view_scale - ms.view_center.y))
    (hidx : y * ms.screen_size.w + x < 9223372036854775808) :
    raster_index ms (raster_to_canvas ms ⟨x, y⟩) = some (y * ms.screen_size.w + x) := by
  have hx64 : in_int64 x := by
    have h1 : 0 ≤ x * (ms.view_scale - 1) := mul_nonneg hx.1 (by omega)
    have h2 : x * (ms.view_scale - 1) = x * ms.view_scale - x := by ring
    unfold in_int64 at hxs ⊢
    omega
  have hy64 : in_int64 y := by
    have h1 : 0 ≤ y * (ms.view_scale - 1) := mul_nonneg hy.1 (by omega)
    have h2 : y * (ms.view_scale - 1) = y * ms.view_scale - y := by ring
    unfold in_int64 at hys ⊢
    omega
  have hyw : 0 ≤ y * ms.screen_size.w := mul_nonneg hy.1 (by unfold v2l.w at *; omega)
  have hyw64 : in_int64 (y * ms.screen_size.w) := by
    unfold in_int64
    omega
  have hsum64 : in_int64 (y * ms.screen_size.w + x) := by
    unfold in_int64
    omega
  have hcx : (canvas_to_raster ms (raster_to_canvas ms ⟨x, y⟩)) = ⟨x, y⟩ := by
    rw [raster_to_canvas_exact ms ⟨x, y⟩ hxs hys hxc hyc]
    simp only [canvas_to_raster, add_v2l, invscale_v2l, sub_add_cancel, wrap64_eq_self hxs,
      wrap64_eq_self hys, Int.mul_tdiv_cancel _ (ne_of_gt hs), wrap64_eq_self hx64,
      wrap64_eq_self hy64]
  unfold raster_index
  simp only [hcx]
  have hcond : ¬ ((⟨x, y⟩ : v2l).w ≥ ms.screen_size.w ∨ (⟨x, y⟩ : v2l).h ≥ ms.screen_size.h) := by
    simp only [v2l.w, v2l.h] at hx hy ⊢
    omega
  rw [if_neg hcond]
  have hw : (ms.screen_size.w) = ms.screen_size.x := rfl
  simp only [hw] at hyw64 hsum64 ⊢
  rw [wrap64_eq_self hyw64, wrap64_eq_self hsum64]



/-! ## Completion of the stages after the clear -/

/-- The stages after the clear complete with a brush sample when the live
stroke is below capacity, the history within capacity, and the loop body of
`rasterize_stroke` completes at every point of the live stroke, the new one
included, and of the history. -/
theorem milton_update_repaint_brush_completes (ms : MiltonState) (fr : Int) (b : v2l)
    (hcap : in_array ms.num_stroke_points)
    (hhcap : ms.num_stored_strokes ≤ MAX_STROKE_POINTS)
    (hlive : ∀ j : Int, 0 ≤ j → j < ms.num_stroke_points + 1 →
      fault_of (rasterize_point ms
        (store ms.stroke_points ms.num_stroke_points (raster_to_canvas ms b) j)) = none)
    (hhist : ∀ s : Int, 0 ≤ s → s < ms.num_stored_strokes →
      ∀ j : Int, 0 ≤ j → j < (ms.stored_strokes s).num_points →
        fault_of (rasterize_point ms ((ms.stored_strokes s).points j)) = none) :
    fault_of (milton_update_repaint ms ⟨fr, some b⟩) = none := by
  simp only [milton_update_repaint, milton_update_stroke, push_stroke_point, if_pos hcap]
  obtain ⟨ms2, h2⟩ := ok_of_fault_none
    (rasterize_stroke_completes
      { ms with
        stroke_points := store ms.stroke_points ms.num_stroke_points (raster_to_canvas ms b)
        num_stroke_points := ms.num_stroke_points + 1 }
      (store ms.stroke_points ms.num_stroke_points (raster_to_canvas ms b))
      (ms.num_stroke_points + 1)
      (fun j hj1 hj2 => Eq.trans
        (fault_point_congr
          { ms with
            stroke_points := store ms.stroke_points ms.num_stroke_points (raster_to_canvas ms b)
            num_stroke_points := ms.num_stroke_points + 1 } ms
          (store ms.stroke_points ms.num_stroke_points (raster_to_canvas ms b) j)
          rfl rfl rfl rfl)
        (hlive j hj1 hj2)))
  simp only [h2]
  have hf := rasterize_stroke_frame h2
  have e1 : ms2.stored_strokes = ms.stored_strokes := by rw [hf]
  have e2 : ms2.num_stored_strokes = ms.num_stored_strokes := by rw [hf]
  obtain ⟨ms4, h4⟩ := ok_of_fault_none
    (rasterize_history_completes ms2.num_stored_strokes.toNat 0 ms2 (by
      intro s hs1 hs2
      rw [e2] at hs2
      simp only [MAX_STROKE_POINTS] at hhcap
      exact ⟨hs1, by omega⟩) (by
      intro s hs1 hs2 j hj1 hj2
      rw [e1] at hj2 ⊢
      rw [e2] at hs2
      have hs3 : s < ms.num_stored_strokes := by omega
      exact Eq.trans
        (fault_point_congr ms2 ms ((ms.stored_strokes s).points j)
          (by rw [hf]) (by rw [hf]) (by rw [hf]) (by rw [hf]))
        (hhist s hs1 hs3 j hj1 hj2)))
  simp only [h4]
  rfl

/-- The stages after the clear complete without a brush sample when the
history is within capacity (below it, and the live stroke within capacity, if
a stroke is being finalized) and the loop body of `rasterize_stroke`
completes at every point of the history and, if a stroke is being finalized,
of the live stroke. -/
theorem milton_update_repaint_none_completes (ms : MiltonState) (fr : Int)
    (hcap : 0 < ms.num_stroke_points →
      ms.num_stroke_points ≤ MAX_STROKE_POINTS ∧ in_array ms.num_stored_strokes)
    (hhcap : ms.num_stored_strokes ≤ MAX_STROKE_POINTS)
    (hlive : ∀ j : Int, 0 ≤ j → j < ms.num_stroke_points →
      fault_of (rasterize_point ms (ms.stroke_points j)) = none)
    (hhist : ∀ s : Int, 0 ≤ s → s < ms.num_stored_strokes →
      ∀ j : Int, 0 ≤ j → j < (ms.stored_strokes s).num_points →
        fault_of (rasterize_point ms ((ms.stored_strokes s).points j)) = none) :
    fault_of (milton_update_repaint ms ⟨fr, none⟩) = none := by
  simp only [milton_update_repaint, milton_update_stroke]
  by_cases hn : ms.num_stroke_points > 0
  · have hc := hcap hn
    simp only [if_pos hn, push_stroke_to_history, if_pos hc]
    obtain ⟨ms4, h4⟩ := ok_of_fault_none
      (rasterize_history_completes (ms.num_stored_strokes + 1).toNat 0
        { ms with
          stored_strokes := store ms.stored_strokes ms.num_stored_strokes
            { points := memcpy (arena_alloc_array ⟨0, 0⟩) ms.stroke_points
                ms.num_stroke_points
              num_points := ms.num_stroke_points }
          num_stored_strokes := ms.num_stored_strokes + 1
          num_stroke_points := 0 } (by
          intro s hs1 hs2
          obtain ⟨-, h5, h6⟩ := hc
          exact ⟨hs1, by omega⟩) (by
          intro s hs1 hs2 j hj1 hj2
          have hs3 : s < ms.num_stored_strokes + 1 := by omega
          refine Eq.trans (fault_point_congr _ ms _ rfl rfl rfl rfl) ?_
          by_cases hsn : s = ms.num_stored_strokes
          · subst hsn
            simp only [store, if_true] at hj2 ⊢
            have hj : 0 ≤ j ∧ j < ms.num_stroke_points := ⟨hj1, hj2⟩
            simp only [memcpy, if_pos hj]
            exact hlive j hj1 hj2
          · simp only [store, if_neg hsn] at hj2 ⊢
            exact hhist s hs1 (by omega) j hj1 hj2))
    simp only [h4]
    rfl
  · simp only [if_neg hn]
    obtain ⟨ms4, h4⟩ := ok_of_fault_none
      (rasterize_history_completes ms.num_stored_strokes.toNat 0 ms (by
          intro s hs1 hs2
          simp only [MAX_STROKE_POINTS] at hhcap
          exact ⟨hs1, by omega⟩) (by
          intro s hs1 hs2 j hj1 hj2
          exact hhist s hs1 (by omega) j hj1 hj2))
    simp only [h4]
    rfl

/-! ## Rasterizer: theorems -/

/-- C5, the code at the failing input.  On a `100 x 100` screen with center
`(0, 0)` and scale `1` the canvas point `(-1, 1)` has the raster coordinate
`(-1, 1)`, left of the screen; it is not skipped: the index is
`1 * 100 + (-1) = 99` and `rasterize_stroke` writes the foreground value
there, which is the pixel `(99, 0)`. -/
theorem negative_coordinate_wraps :
    canvas_to_raster (session ⟨100, 100⟩ ⟨0, 0⟩ 1) ⟨-1, 1⟩ = ⟨-1, 1⟩ ∧
    raster_index (session ⟨100, 100⟩ ⟨0, 0⟩ 1) ⟨-1, 1⟩ = some 99 ∧
    (session ⟨100, 100⟩ ⟨0, 0⟩ 1).raster_buffer 99 = 0 ∧
    (state_of (rasterize_stroke (session ⟨100, 100⟩ ⟨0, 0⟩ 1) (points_of [⟨-1, 1⟩]) 1)).map
        (fun ms => ms.raster_buffer 99) = some FOREGROUND := by
  decide

/-- C6. A stroke point whose raster coordinate has `x >= screen_size.w` or
`y >= screen_size.h` is skipped before the index is computed: neither
assertion is reached, whatever `raster_buffer_size` is, and the state, the
buffer included, is returned unchanged, by the loop body and by
`rasterize_stroke` on the stroke made of that point. -/
theorem rasterize_skips_beyond_screen (ms : MiltonState) (p : v2l)
    (h : (canvas_to_raster ms p).x ≥ ms.screen_size.w ∨
      (canvas_to_raster ms p).y ≥ ms.screen_size.h) :
    raster_index ms p = none ∧ rasterize_point ms p = .ok ms ∧
      rasterize_stroke ms (fun _ => p) 1 = .ok ms := by
  have hidx : raster_index ms p = none := by
    unfold raster_index
    exact if_pos h
  have hpt : rasterize_point ms p = .ok ms := by
    unfold rasterize_point
    simp only [hidx]
  refine ⟨hidx, hpt, ?_⟩
  have h1 : (1 : Int).toNat = 0 + 1 := rfl
  simp only [rasterize_stroke, h1, rasterize_loop, hpt]

/-- Witness of C6: on a `100 x 100` screen the canvas point `(100, 0)` maps to
the raster coordinate `(screen_width, 0)`.  The second state has
`raster_buffer_size = 0`, for which the assertion on the index fails whenever
it is reached. -/
theorem rasterize_skips_beyond_screen_witness :
    canvas_to_raster (session ⟨100, 100⟩ ⟨0, 0⟩ 1) ⟨100, 0⟩ = ⟨100, 0⟩ ∧
    (raster_index (session ⟨100, 100⟩ ⟨0, 0⟩ 1) ⟨100, 0⟩ = none ∧
      rasterize_point (session ⟨100, 100⟩ ⟨0, 0⟩ 1) ⟨100, 0⟩
        = .ok (session ⟨100, 100⟩ ⟨0, 0⟩ 1) ∧
      rasterize_stroke (session ⟨100, 100⟩ ⟨0, 0⟩ 1) (fun _ => ⟨100, 0⟩) 1
        = .ok (session ⟨100, 100⟩ ⟨0, 0⟩ 1)) ∧
    fault_of (rasterize_point { session ⟨100, 100⟩ ⟨0, 0⟩ 1 with raster_buffer_size := 0 }
      ⟨99, 0⟩) = some Fault.assert_index ∧
    (raster_index { session ⟨100, 100⟩ ⟨0, 0⟩ 1 with raster_buffer_size := 0 } ⟨100, 0⟩
        = none ∧
      rasterize_point { session ⟨100, 100⟩ ⟨0, 0⟩ 1 with raster_buffer_size := 0 } ⟨100, 0⟩
        = .ok { session ⟨100, 100⟩ ⟨0, 0⟩ 1 with raster_buffer_size := 0 } ∧
      rasterize_stroke { session ⟨100, 100⟩ ⟨0, 0⟩ 1 with raster_buffer_size := 0 }
          (fun _ => ⟨100, 0⟩) 1
        = .ok { session ⟨100, 100⟩ ⟨0, 0⟩ 1 with raster_buffer_size := 0 }) :=
  ⟨by decide,
    rasterize_skips_beyond_screen (session ⟨100, 100⟩ ⟨0, 0⟩ 1) ⟨100, 0⟩ (Or.inl (by decide)),
    by decide,
    rasterize_skips_beyond_screen { session ⟨100, 100⟩ ⟨0, 0⟩ 1 with raster_buffer_size := 0 }
      ⟨100, 0⟩ (Or.inl (by decide))⟩

/-- The pixel index of a point on a screen that fits the raster buffer lies
inside the buffer. -/
theorem pixel_in_buffer_of_fit (ms : MiltonState) (x y : Int) (hfit : screen_fits ms)
    (hx : 0 ≤ x ∧ x < ms.screen_size.w) (hy : 0 ≤ y ∧ y < ms.screen_size.h) :
    pixel_in_buffer ms.raster_buffer_size (y * ms.screen_size.w + x) := by
  obtain ⟨-, -, h3⟩ := hfit
  have e1 : (ms.screen_size.h.toNat : Int) = ms.screen_size.h :=
    Int.toNat_of_nonneg (by omega)
  have e2 : (ms.screen_size.w.toNat : Int) = ms.screen_size.w :=
    Int.toNat_of_nonneg (by omega)
  rw [e1, e2] at h3
  have h4 : 0 ≤ y * ms.screen_size.w := mul_nonneg hy.1 (by omega)
  have h5 : (y + 1) * ms.screen_size.w ≤ ms.screen_size.h * ms.screen_size.w :=
    mul_le_mul_of_nonneg_right (by omega) (by omega)
  have h6 : (y + 1) * ms.screen_size.w = y * ms.screen_size.w + ms.screen_size.w := by ring
  refine ⟨by omega, ?_⟩
  omega

/-- C7. End-to-end brush echo: for a screen `w, h > 0` that fits the raster
buffer (`4 * w * h <= raster_buffer_size < 2^63`, as every screen of up to
`7680 x 4320` pixels does after `milton_init`), scale `s > 0`, any center and
a brush sample `(x, y)` on the screen, without 64-bit overflow, an update
with that brush from an idle state with empty history completes, returns `1`,
makes the live stroke the single canvas point `(x * s - c.x, y * s - c.y)`
and leaves pixel `y * w + x` at the foreground value; a following update
without brush completes, returns `1`, leaves the history with exactly one
stroke of exactly that one point, the live stroke empty and pixel `y * w + x`
at the foreground value again. -/
theorem brush_echo (ms : MiltonState) (x y fr1 fr2 : Int)
    (hidle : ms.num_stroke_points = 0) (hempty : ms.num_stored_strokes = 0)
    (_hw : 0 < ms.screen_size.w) (_hh : 0 < ms.screen_size.h) (hs : 0 < ms.view_scale)
    (hx : 0 ≤ x ∧ x < ms.screen_size.w) (hy : 0 ≤ y ∧ y < ms.screen_size.h)
    (hxs : in_int64 (x * ms.view_scale)) (hys : in_int64 (y * ms.view_scale))
    (hxc : in_int64 (x * ms.view_scale - ms.view_center.x))
    (hyc : in_int64 (y * ms.view_scale - ms.view_center.y))
    (hfit : screen_fits ms)
    (hsize : (ms.raster_buffer_size : Int) < 9223372036854775808) :
    ∃ ms1, milton_update ms ⟨fr1, some ⟨x, y⟩⟩ = .ok (ms1, 1) ∧
      ms1.num_stroke_points = 1 ∧
      ms1.stroke_points 0
        = ⟨x * ms.view_scale - ms.view_center.x, y * ms.view_scale - ms.view_center.y⟩ ∧
      ms1.raster_buffer (y * ms.screen_size.w + x) = FOREGROUND ∧
      ∃ ms2, milton_update ms1 ⟨fr2, none⟩ = .ok (ms2, 1) ∧
        ms2.num_stored_strokes = 1 ∧
        (ms2.stored_strokes 0).num_points = 1 ∧
        (ms2.stored_strokes 0).points 0
          = ⟨x * ms.view_scale - ms.view_center.x, y * ms.view_scale - ms.view_center.y⟩ ∧
        ms2.num_stroke_points = 0 ∧
        ms2.raster_buffer (y * ms.screen_size.w + x) = FOREGROUND := by
  have hin := pixel_in_buffer_of_fit ms x y hfit hx hy
  have hidx := raster_index_of_brush ms x y hs hx hy hxs hys hxc hyc (by
    obtain ⟨-, h2⟩ := hin
    omega)
  have hcp := raster_to_canvas_exact ms ⟨x, y⟩ hxs hys hxc hyc
  have hfault : fault_of (rasterize_point ms (raster_to_canvas ms ⟨x, y⟩)) = none :=
    fault_none_of_index hidx hsize hin
  -- first tick
  have hok1 : fault_of (milton_update ms ⟨fr1, some ⟨x, y⟩⟩) = none := by
    apply milton_update_completes hfit
    apply milton_update_repaint_brush_completes
    · rw [hidle]
      decide
    · rw [hempty]
      decide
    · intro j hj1 hj2
      have hj : j = ms.num_stroke_points := by omega
      subst hj
      simp only [store, if_true]
      exact hfault
    · intro s hs1 hs2
      omega
  obtain ⟨⟨ms1, r1⟩, h1⟩ := ok_of_fault_none hok1
  obtain ⟨hr1, -, f1⟩ := milton_update_brush h1
  subst hr1
  have a1 : ms1.num_stroke_points = 1 := by
    rw [f1]
    show ms.num_stroke_points + 1 = 1
    omega
  have a2 : ms1.stroke_points 0 = raster_to_canvas ms ⟨x, y⟩ := by
    rw [f1]
    show store ms.stroke_points ms.num_stroke_points (raster_to_canvas ms ⟨x, y⟩) 0 = _
    simp [store, hidle]
  have a3 : ms1.num_stored_strokes = 0 := by rw [f1]; exact hempty
  have a4 : ms1.screen_size = ms.screen_size := by rw [f1]
  have a5 : ms1.raster_buffer_size = ms.raster_buffer_size := by rw [f1]
  have c1 : ∀ p, raster_index ms1 p = raster_index ms p := fun p =>
    raster_index_congr ms1 ms p (by rw [f1]) (by rw [f1]) (by rw [f1])
  have d1 : ∀ p, fault_of (rasterize_point ms1 p) = fault_of (rasterize_point ms p) := fun p =>
    fault_point_congr ms1 ms p (by rw [f1]) (by rw [f1]) (by rw [f1]) (by rw [f1])
  have p1 : ms1.raster_buffer (y * ms.screen_size.w + x) = FOREGROUND :=
    milton_update_paints_live h1 ⟨0, le_refl 0, by omega, by rw [a2, c1]; exact hidx⟩
  -- second tick
  have hfit1 : screen_fits ms1 := by
    unfold screen_fits at hfit ⊢
    rw [a4, a5]
    exact hfit
  have hok2 : fault_of (milton_update ms1 ⟨fr2, none⟩) = none := by
    apply milton_update_completes hfit1
    apply milton_update_repaint_none_completes
    · intro _
      rw [a1, a3]
      decide
    · rw [a3]
      decide
    · intro j hj1 hj2
      have hj : j = 0 := by omega
      subst hj
      rw [a2, d1]
      exact hfault
    · intro s hs1 hs2
      omega
  obtain ⟨⟨ms2, r2⟩, h2⟩ := ok_of_fault_none hok2
  obtain ⟨hr2, -, -, f2⟩ := milton_update_release (by omega) h2
  subst hr2
  have b1 : ms2.num_stored_strokes = 1 := by
    rw [f2]
    show ms1.num_stored_strokes + 1 = 1
    omega
  have b2 : ms2.stored_strokes 0
      = { points := memcpy (arena_alloc_array ⟨0, 0⟩) ms1.stroke_points ms1.num_stroke_points
          num_points := ms1.num_stroke_points } := by
    rw [f2]
    show store ms1.stored_strokes ms1.num_stored_strokes _ 0 = _
    simp [store, a3]
  have b3 : (ms2.stored_strokes 0).num_points = 1 := by rw [b2]; exact a1
  have b4 : (ms2.stored_strokes 0).points 0 = raster_to_canvas ms ⟨x, y⟩ := by
    rw [b2]
    simp [memcpy, a1, a2]
  have b5 : ms2.num_stroke_points = 0 := by rw [f2]
  have c2 : ∀ p, raster_index ms2 p = raster_index ms p := fun p =>
    (raster_index_congr ms2 ms1 p (by rw [f2]) (by rw [f2]) (by rw [f2])).trans
      (c1 p)
  have p2 : ms2.raster_buffer (y * ms.screen_size.w + x) = FOREGROUND :=
    milton_update_paints_history h2
      ⟨0, 0, le_refl 0, by omega, le_refl 0, by omega, by rw [b4, c2]; exact hidx⟩
  exact ⟨ms1, h1, a1, a2.trans hcp, p1, ms2, h2, b1, b3, b4.trans hcp, b5, p2⟩

/-- Witness of C7: `w = h = 100`, `s = 1`, `c = (0, 0)`, brush `(10, 10)`,
after `milton_init`. -/
theorem brush_echo_witness :
    ∃ ms1, milton_update (session ⟨100, 100⟩ ⟨0, 0⟩ 1) ⟨0, some ⟨10, 10⟩⟩ = .ok (ms1, 1) ∧
      ms1.num_stroke_points = 1 ∧
      ms1.stroke_points 0
        = ⟨10 * (session ⟨100, 100⟩ ⟨0, 0⟩ 1).view_scale
              - (session ⟨100, 100⟩ ⟨0, 0⟩ 1).view_center.x,
            10 * (session ⟨100, 100⟩ ⟨0, 0⟩ 1).view_scale
              - (session ⟨100, 100⟩ ⟨0, 0⟩ 1).view_center.y⟩ ∧
      ms1.raster_buffer (10 * (session ⟨100, 100⟩ ⟨0, 0⟩ 1).screen_size.w + 10) = FOREGROUND ∧
      ∃ ms2, milton_update ms1 ⟨0, none⟩ = .ok (ms2, 1) ∧
        ms2.num_stored_strokes = 1 ∧
        (ms2.stored_strokes 0).num_points = 1 ∧
        (ms2.stored_strokes 0).points 0
          = ⟨10 * (session ⟨100, 100⟩ ⟨0, 0⟩ 1).view_scale
                - (session ⟨100, 100⟩ ⟨0, 0⟩ 1).view_center.x,
              10 * (session ⟨100, 100⟩ ⟨0, 0⟩ 1).view_scale
                - (session ⟨100, 100⟩ ⟨0, 0⟩ 1).view_center.y⟩ ∧
        ms2.num_stroke_points = 0 ∧
        ms2.raster_buffer (10 * (session ⟨100, 100⟩ ⟨0, 0⟩ 1).screen_size.w + 10)
          = FOREGROUND :=
  brush_echo (session ⟨100, 100⟩ ⟨0, 0⟩ 1) 10 10 0 0 (by decide) (by decide) (by decide)
    (by decide) (by decide) (by decide) (by decide) (by decide) (by decide) (by decide)
    (by decide) (by decide) (by decide)

/-! ## Bounding rectangle: theorems -/

/-- C8, the code at two failing inputs.  For the points `(0, 0), (5, 1)` the
second comparison of the loop body fires (`1 > 0`) and overwrites
`top_left.x` with `5`; the minimum `x` is `0`.  For the points
`(0, 5), (3, 1)` no branch lowers `top_left.y`, which stays `5`; the minimum
`y` is `1`. -/
theorem bounding_rect_top_left_wrong :
    bounding_rect_for_stroke (points_of [⟨0, 0⟩, ⟨5, 1⟩]) 2
      = .ok { top_left := ⟨5, 0⟩, bot_right := ⟨5, 1⟩ } ∧
    bounding_rect_for_stroke (points_of [⟨0, 5⟩, ⟨3, 1⟩]) 2
      = .ok { top_left := ⟨0, 5⟩, bot_right := ⟨3, 5⟩ } :=
  ⟨rfl, rfl⟩


/-! ## Stroke lifecycle: further theorems -/

/-- The first `n + 1` elements of an array are the first `n` followed by the
element at index `n`. -/
theorem take_points_succ (a : Int → v2l) (n : Int) (hn : 0 ≤ n) :
    take_points a (n + 1) = take_points a n ++ [a n] := by
  have h1 : (n + 1).toNat = n.toNat + 1 := by omega
  have h2 : (Int.ofNat n.toNat) = n := by
    simp only [Int.ofNat_eq_coe]
    omega
  simp only [take_points, h1, List.range_succ, List.map_append, List.map_cons, List.map_nil, h2]

/-- The first `n` elements of an array do not change when an element at an
index `m >= n` is stored. -/
theorem take_points_store (a : Int → v2l) (n m : Int) (v : v2l) (hm : n ≤ m) :
    take_points (store a m v) n = take_points a n := by
  simp only [take_points]
  apply List.map_congr_left
  intro k hk
  have hk' : k < n.toNat := List.mem_range.mp hk
  have hne : ¬ (Int.ofNat k = m) := by
    simp only [Int.ofNat_eq_coe]
    omega
  simp only [store, if_neg hne]

/-- After the completed stages after the clear with a brush sample, the pixel
of the sample, if it is not skipped, was written inside the raster buffer. -/
theorem milton_update_repaint_brush_in_buffer {ms ms' : MiltonState} {fr r : Int} {b : v2l}
    (h : milton_update_repaint ms ⟨fr, some b⟩ = .ok (ms', r)) (idx : Int)
    (hidx : raster_index ms (raster_to_canvas ms b) = some idx) :
    pixel_in_buffer ms.raster_buffer_size idx := by
  obtain ⟨hin, ms2, hr, -⟩ := milton_update_repaint_brush_ok h
  have h0 : 0 ≤ ms.num_stroke_points := hin.1
  have e : ((ms.num_stroke_points + 1).toNat : Int) = ms.num_stroke_points + 1 :=
    Int.toNat_of_nonneg (by omega)
  have hp := rasterize_loop_point_ok _ _ _ _ _ hr ms.num_stroke_points h0 (by omega)
  have hs : store ms.stroke_points ms.num_stroke_points (raster_to_canvas ms b)
      ms.num_stroke_points = raster_to_canvas ms b := by
    simp [store]
  rw [hs] at hp
  have hp2 : fault_of (rasterize_point ms (raster_to_canvas ms b)) = none :=
    Eq.trans
      (fault_point_congr ms
        { ms with
          stroke_points := store ms.stroke_points ms.num_stroke_points (raster_to_canvas ms b)
          num_stroke_points := ms.num_stroke_points + 1 }
        (raster_to_canvas ms b) rfl rfl rfl rfl) hp
  exact (index_of_fault_none hidx hp2).1

/-- A completed update with a brush sample wrote the pixel of the sample, if
it is not skipped, inside the raster buffer. -/
theorem milton_update_brush_in_buffer {ms ms' : MiltonState} {fr r : Int} {b : v2l}
    (h : milton_update ms ⟨fr, some b⟩ = .ok (ms', r)) (idx : Int)
    (hidx : raster_index ms (raster_to_canvas ms b) = some idx) :
    pixel_in_buffer ms.raster_buffer_size idx := by
  obtain ⟨buf, -, h'⟩ := milton_update_cleared h
  have h2 := @milton_update_repaint_brush_in_buffer { ms with raster_buffer := buf } ms' fr r b
    h' idx hidx
  exact h2

/-- C11. Brush-present transition: an update with a brush sample `b` that
completes (no assertion fails and no access leaves its object) started from a
live stroke of `0 <= n < 4096 * 4096` points, below capacity, and wrote the
pixel of `b`, if `b` is not skipped, inside the raster buffer; it makes the
live stroke the previous live points followed by the canvas point of `b`
(which is `(b.x * view_scale - view_center.x, b.y * view_scale -
view_center.y)` when that does not overflow); `num_stroke_points` grows by
exactly one and ends `>= 1`; the stroke history is unchanged. -/
theorem brush_appends_point (ms : MiltonState) (fr : Int) (b : v2l)
    (hok : fault_of (milton_update ms ⟨fr, some b⟩) = none) :
    ∃ ms', milton_update ms ⟨fr, some b⟩ = .ok (ms', 1) ∧
      (0 ≤ ms.num_stroke_points ∧ ms.num_stroke_points < MAX_STROKE_POINTS) ∧
      (∀ idx, raster_index ms (raster_to_canvas ms b) = some idx →
        pixel_in_buffer ms.raster_buffer_size idx) ∧
      ms'.num_stroke_points = ms.num_stroke_points + 1 ∧
      1 ≤ ms'.num_stroke_points ∧
      take_points ms'.stroke_points ms'.num_stroke_points
        = take_points ms.stroke_points ms.num_stroke_points ++ [raster_to_canvas ms b] ∧
      (in_int64 (b.x * ms.view_scale) → in_int64 (b.y * ms.view_scale) →
        in_int64 (b.x * ms.view_scale - ms.view_center.x) →
        in_int64 (b.y * ms.view_scale - ms.view_center.y) →
        raster_to_canvas ms b
          = ⟨b.x * ms.view_scale - ms.view_center.x, b.y * ms.view_scale - ms.view_center.y⟩) ∧
      ms'.num_stored_strokes = ms.num_stored_strokes ∧
      ms'.stored_strokes = ms.stored_strokes := by
  obtain ⟨⟨ms', r⟩, h⟩ := ok_of_fault_none hok
  obtain ⟨hr, hin, h2⟩ := milton_update_brush h
  subst hr
  have h0 : 0 ≤ ms.num_stroke_points := hin.1
  have e1 : ms'.num_stroke_points = ms.num_stroke_points + 1 := by rw [h2]
  have e2 : ms'.stroke_points
      = store ms.stroke_points ms.num_stroke_points (raster_to_canvas ms b) := by
    rw [h2]
  refine ⟨ms', h, hin, milton_update_brush_in_buffer h, e1, by omega, ?_,
    raster_to_canvas_exact ms b, by rw [h2], by rw [h2]⟩
  rw [e1, take_points_succ _ _ h0, e2, take_points_store _ _ _ _ (le_refl _)]
  simp [store]

/-- Witness of C11: a third point is captured after two. -/
theorem brush_appends_point_witness :
    take_points capturing.stroke_points capturing.num_stroke_points = [⟨10, 10⟩, ⟨11, 10⟩] ∧
    raster_to_canvas capturing ⟨12, 11⟩ = ⟨12, 11⟩ ∧
    ∃ ms', milton_update capturing ⟨0, some ⟨12, 11⟩⟩ = .ok (ms', 1) ∧
      (0 ≤ capturing.num_stroke_points ∧ capturing.num_stroke_points < MAX_STROKE_POINTS) ∧
      (∀ idx, raster_index capturing (raster_to_canvas capturing ⟨12, 11⟩) = some idx →
        pixel_in_buffer capturing.raster_buffer_size idx) ∧
      ms'.num_stroke_points = capturing.num_stroke_points + 1 ∧
      1 ≤ ms'.num_stroke_points ∧
      take_points ms'.stroke_points ms'.num_stroke_points
        = take_points capturing.stroke_points capturing.num_stroke_points
            ++ [raster_to_canvas capturing ⟨12, 11⟩] ∧
      (in_int64 ((⟨12, 11⟩ : v2l).x * capturing.view_scale) →
        in_int64 ((⟨12, 11⟩ : v2l).y * capturing.view_scale) →
        in_int64 ((⟨12, 11⟩ : v2l).x * capturing.view_scale - capturing.view_center.x) →
        in_int64 ((⟨12, 11⟩ : v2l).y * capturing.view_scale - capturing.view_center.y) →
        raster_to_canvas capturing ⟨12, 11⟩
          = ⟨(⟨12, 11⟩ : v2l).x * capturing.view_scale - capturing.view_center.x,
             (⟨12, 11⟩ : v2l).y * capturing.view_scale - capturing.view_center.y⟩) ∧
      ms'.num_stored_strokes = capturing.num_stored_strokes ∧
      ms'.stored_strokes = capturing.stored_strokes :=
  ⟨by decide, by decide,
    brush_appends_point capturing 0 ⟨12, 11⟩
      (milton_update_completes (by decide) (by decide))⟩

/-- C12. `milton_update` reports `updated = true` on every tick: for every
state and every input, brush present or absent, `full_refresh` zero or not,
an update that completes (no assertion fails and no access leaves its
object) returns `1`, which is not zero. -/
theorem update_reports_updated (ms : MiltonState) (input : MiltonInput)
    (hok : fault_of (milton_update ms input) = none) :
    ∃ ms' r, milton_update ms input = .ok (ms', r) ∧ r = 1 ∧ r ≠ 0 := by
  obtain ⟨⟨ms', r⟩, h⟩ := ok_of_fault_none hok
  refine ⟨ms', r, h, ?_⟩
  have hr : r = 1 := by
    obtain ⟨fr, br⟩ := input
    cases br with
    | some b => exact (milton_update_brush h).1
    | none =>
      by_cases hn : 0 < ms.num_stroke_points
      · exact (milton_update_release hn h).1
      · exact (milton_update_idle hn h).1
  subst hr
  exact ⟨rfl, by decide⟩

/-- Witness of C12: the four kinds of tick, with `full_refresh` zero and
nonzero. -/
theorem update_reports_updated_witness :
    fault_of (milton_update with_history ⟨0, none⟩) = none ∧
    (∃ ms' r, milton_update with_history ⟨0, none⟩ = .ok (ms', r) ∧ r = 1 ∧ r ≠ 0) ∧
    (∃ ms' r, milton_update capturing ⟨7, none⟩ = .ok (ms', r) ∧ r = 1 ∧ r ≠ 0) ∧
    (∃ ms' r, milton_update capturing ⟨0, some ⟨12, 11⟩⟩ = .ok (ms', r) ∧ r = 1 ∧ r ≠ 0) ∧
    (∃ ms' r, milton_update with_history ⟨1, some ⟨12, 11⟩⟩ = .ok (ms', r) ∧ r = 1 ∧ r ≠ 0) :=
  ⟨milton_update_completes (by decide) (by decide),
    update_reports_updated with_history ⟨0, none⟩
      (milton_update_completes (by decide) (by decide)),
    update_reports_updated capturing ⟨7, none⟩
      (milton_update_completes (by decide) (by decide)),
    update_reports_updated capturing ⟨0, some ⟨12, 11⟩⟩
      (milton_update_completes (by decide) (by decide)),
    update_reports_updated with_history ⟨1, some ⟨12, 11⟩⟩
      (milton_update_completes (by decide) (by decide))⟩

/-- C13. The `full_refresh` flag has no effect: for every state and every two
inputs that differ only in `full_refresh`, `milton_update` gives the same
outcome, that is the same fault or the same resulting state (live stroke,
stroke history, raster buffer) and the same returned value. -/
theorem full_refresh_ignored (ms : MiltonState) (fr1 fr2 : Int) (brush : Option v2l) :
    milton_update ms ⟨fr1, brush⟩ = milton_update ms ⟨fr2, brush⟩ := by
  rw [milton_update_eq, milton_update_eq]
  cases clear_raster ms <;> cases brush <;> rfl

/-- C18. Stroke history is append-only and order-preserving: after an update
that completes (no assertion fails and no access leaves its object),
`num_stored_strokes` is not smaller than before and within the capacity of
`stored_strokes`, every stored stroke at an index below the old count is the
same (same `num_points`, same points), and the only index at which
`stored_strokes` can differ is the old count, where a newly finalized stroke
is placed. -/
theorem history_append_only (ms : MiltonState) (input : MiltonInput)
    (hok : fault_of (milton_update ms input) = none) :
    ∃ ms' r, milton_update ms input = .ok (ms', r) ∧
      ms.num_stored_strokes ≤ ms'.num_stored_strokes ∧
      ms'.num_stored_strokes ≤ ms.num_stored_strokes + 1 ∧
      ms'.num_stored_strokes ≤ MAX_STROKE_POINTS ∧
      (∀ i : Int, i < ms.num_stored_strokes →
        (ms'.stored_strokes i).num_points = (ms.stored_strokes i).num_points ∧
        (ms'.stored_strokes i).points = (ms.stored_strokes i).points) ∧
      (∀ i : Int, i ≠ ms.num_stored_strokes → ms'.stored_strokes i = ms.stored_strokes i) := by
  obtain ⟨⟨ms', r⟩, h⟩ := ok_of_fault_none hok
  refine ⟨ms', r, h, ?_⟩
  obtain ⟨fr, br⟩ := input
  have key : ms.num_stored_strokes ≤ ms'.num_stored_strokes ∧
      ms'.num_stored_strokes ≤ ms.num_stored_strokes + 1 ∧
      (∀ i : Int, i ≠ ms.num_stored_strokes → ms'.stored_strokes i = ms.stored_strokes i) := by
    cases br with
    | some b =>
      obtain ⟨-, -, h2⟩ := milton_update_brush h
      have e1 : ms'.num_stored_strokes = ms.num_stored_strokes := by rw [h2]
      have e2 : ms'.stored_strokes = ms.stored_strokes := by rw [h2]
      exact ⟨by omega, by omega, fun i _ => by rw [e2]⟩
    | none =>
      by_cases hn : 0 < ms.num_stroke_points
      · obtain ⟨-, -, -, h2⟩ := milton_update_release hn h
        have e1 : ms'.num_stored_strokes = ms.num_stored_strokes + 1 := by rw [h2]
        have e2 : ms'.stored_strokes = store ms.stored_strokes ms.num_stored_strokes
            { points := memcpy (arena_alloc_array ⟨0, 0⟩) ms.stroke_points
                ms.num_stroke_points
              num_points := ms.num_stroke_points } := by rw [h2]
        refine ⟨by omega, by omega, fun i hi => ?_⟩
        rw [e2]
        simp only [store, if_neg hi]
      · obtain ⟨-, h2⟩ := milton_update_idle hn h
        have e1 : ms'.num_stored_strokes = ms.num_stored_strokes := by rw [h2]
        have e2 : ms'.stored_strokes = ms.stored_strokes := by rw [h2]
        exact ⟨by omega, by omega, fun i _ => by rw [e2]⟩
  obtain ⟨k1, k2, k3⟩ := key
  refine ⟨k1, k2, milton_update_history_bound h, fun i hi => ?_, k3⟩
  rw [k3 i (by omega)]
  exact ⟨rfl, rfl⟩

/-- Witness of C18: a second stroke is finalized behind the first. -/
theorem history_append_only_witness :
    drawing.num_stored_strokes = 1 ∧ 0 < drawing.num_stroke_points ∧
    ∃ ms' r, milton_update drawing ⟨0, none⟩ = .ok (ms', r) ∧
      drawing.num_stored_strokes ≤ ms'.num_stored_strokes ∧
      ms'.num_stored_strokes ≤ drawing.num_stored_strokes + 1 ∧
      ms'.num_stored_strokes ≤ MAX_STROKE_POINTS ∧
      (∀ i : Int, i < drawing.num_stored_strokes →
        (ms'.stored_strokes i).num_points = (drawing.stored_strokes i).num_points ∧
        (ms'.stored_strokes i).points = (drawing.stored_strokes i).points) ∧
      (∀ i : Int, i ≠ drawing.num_stored_strokes →
        ms'.stored_strokes i = drawing.stored_strokes i) :=
  ⟨by decide, by decide,
    history_append_only drawing ⟨0, none⟩ (milton_update_completes (by decide) (by decide))⟩


/-- The history of a state with `num_stored_strokes <= 0` holds no stroke. -/
theorem no_empty_stroke_of_empty (ms : MiltonState) (h : ms.num_stored_strokes ≤ 0) :
    no_empty_stroke ms := by
  intro i h1 h2
  omega

/-- An update that completes preserves `no_empty_stroke`. -/
theorem no_empty_stroke_step {ms ms' : MiltonState} {input : MiltonInput} {r : Int}
    (hinv : no_empty_stroke ms) (h : milton_update ms input = .ok (ms', r)) :
    no_empty_stroke ms' := by
  obtain ⟨fr, br⟩ := input
  cases br with
  | some b =>
    obtain ⟨-, -, h2⟩ := milton_update_brush h
    have e1 : ms'.num_stored_strokes = ms.num_stored_strokes := by rw [h2]
    have e2 : ms'.stored_strokes = ms.stored_strokes := by rw [h2]
    intro i h1 h3
    rw [e2]
    exact hinv i h1 (by omega)
  | none =>
    by_cases hn : 0 < ms.num_stroke_points
    · obtain ⟨-, -, -, h2⟩ := milton_update_release hn h
      have e1 : ms'.num_stored_strokes = ms.num_stored_strokes + 1 := by rw [h2]
      have e2 : ms'.stored_strokes = store ms.stored_strokes ms.num_stored_strokes
          { points := memcpy (arena_alloc_array ⟨0, 0⟩) ms.stroke_points
              ms.num_stroke_points
            num_points := ms.num_stroke_points } := by rw [h2]
      intro i h1 h3
      rw [e2]
      by_cases hi : i = ms.num_stored_strokes
      · simp only [store, if_pos hi]
        omega
      · simp only [store, if_neg hi]
        exact hinv i h1 (by omega)
    · obtain ⟨-, h2⟩ := milton_update_idle hn h
      have e1 : ms'.num_stored_strokes = ms.num_stored_strokes := by rw [h2]
      have e2 : ms'.stored_strokes = ms.stored_strokes := by rw [h2]
      intro i h1 h3
      rw [e2]
      exact hinv i h1 (by omega)

/-- A run of updates that completes preserves `no_empty_stroke`. -/
theorem no_empty_stroke_run :
    ∀ (inputs : List MiltonInput) (ms ms' : MiltonState),
      no_empty_stroke ms → milton_run ms inputs = .ok ms' → no_empty_stroke ms' := by
  intro inputs
  induction inputs with
  | nil =>
    intro ms ms' hinv h
    simp only [milton_run] at h
    cases h
    exact hinv
  | cons x xs ih =>
    intro ms ms' hinv h
    simp only [milton_run] at h
    cases hu : milton_update ms x with
    | error f => simp [hu] at h
    | ok out =>
      obtain ⟨ms1, r⟩ := out
      simp only [hu] at h
      exact ih ms1 ms' (no_empty_stroke_step hinv hu) h

/-- C20. No empty stroke is ever stored: `no_empty_stroke` (every stored
stroke of the history has `num_points >= 1`) is preserved by every update
that completes (no assertion fails and no access leaves its object), for
every input; it holds after every run of such updates that starts from an
empty history; and where it holds, the assertion
`num_points > 0` of `bounding_rect_for_stroke` holds for every stored
stroke. -/
theorem no_empty_stroke_invariant :
    (∀ (ms : MiltonState) (input : MiltonInput), no_empty_stroke ms →
      fault_of (milton_update ms input) = none →
      ∃ ms' r, milton_update ms input = .ok (ms', r) ∧ no_empty_stroke ms') ∧
    (∀ (ms : MiltonState) (inputs : List MiltonInput), ms.num_stored_strokes = 0 →
      fault_of (milton_run ms inputs) = none →
      ∃ ms', milton_run ms inputs = .ok ms' ∧ no_empty_stroke ms') ∧
    (∀ (ms : MiltonState) (i : Int), no_empty_stroke ms →
      0 ≤ i → i < ms.num_stored_strokes →
      (ms.stored_strokes i).num_points > 0 ∧
      ∃ rect, bounding_rect_for_stroke (ms.stored_strokes i).points
        (ms.stored_strokes i).num_points = .ok rect) := by
  refine ⟨?_, ?_, ?_⟩
  · intro ms input hinv hok
    obtain ⟨⟨ms', r⟩, h⟩ := ok_of_fault_none hok
    exact ⟨ms', r, h, no_empty_stroke_step hinv h⟩
  · intro ms inputs hempty hok
    obtain ⟨ms', h⟩ := ok_of_fault_none hok
    exact ⟨ms', h, no_empty_stroke_run inputs ms ms'
      (no_empty_stroke_of_empty ms (by omega)) h⟩
  · intro ms i hinv h1 h2
    have hpos : (ms.stored_strokes i).num_points > 0 := by
      have := hinv i h1 h2
      omega
    refine ⟨hpos, ?_⟩
    unfold bounding_rect_for_stroke
    rw [if_pos hpos]
    exact ⟨_, rfl⟩

/-- Witness of C20: the stroke being captured in `drawing` is finalized; three
samples are captured and finalized from an empty history; the stored stroke
of `with_history` passes the assertion of `bounding_rect_for_stroke`. -/
theorem no_empty_stroke_invariant_witness :
    (∃ ms' r, milton_update drawing ⟨0, none⟩ = .ok (ms', r) ∧ no_empty_stroke ms') ∧
    (∃ ms', milton_run (session ⟨100, 100⟩ ⟨3, 4⟩ 2) (three_ticks ++ [⟨0, none⟩]) = .ok ms' ∧
      no_empty_stroke ms') ∧
    ((with_history.stored_strokes 0).num_points > 0 ∧
      ∃ rect, bounding_rect_for_stroke (with_history.stored_strokes 0).points
        (with_history.stored_strokes 0).num_points = .ok rect) :=
  ⟨no_empty_stroke_invariant.1 drawing ⟨0, none⟩
      (fun i h1 h2 => by
        have hi : i = 0 := by
          have : drawing.num_stored_strokes = 1 := rfl
          omega
        subst hi
        decide)
      (milton_update_completes (by decide) (by decide)),
    no_empty_stroke_invariant.2.1 _ _ (by decide)
      (milton_run_completes (by decide) (by decide)),
    no_empty_stroke_invariant.2.2 with_history 0
      (fun i h1 h2 => by
        have hi : i = 0 := by
          have : with_history.num_stored_strokes = 1 := rfl
          omega
        subst hi
        decide)
      (by decide) (by decide)⟩


/-! ## Bounding rectangle: further theorems -/

/-- C14. `bounding_rect_for_stroke` rejects an empty sequence: it fails, at
the assertion `num_points > 0`, exactly when `num_points <= 0`, and returns a
rectangle for every `num_points >= 1`. -/
theorem bounding_rect_rejects_empty (points : Int → StrokePoint) (num_points : Int) :
    (num_points ≤ 0 →
      bounding_rect_for_stroke points num_points = .error Fault.assert_num_points) ∧
    (1 ≤ num_points → ∃ rect, bounding_rect_for_stroke points num_points = .ok rect) ∧
    (fault_of (bounding_rect_for_stroke points num_points) = some Fault.assert_num_points
      ↔ num_points ≤ 0) := by
  unfold bounding_rect_for_stroke
  by_cases h : num_points > 0
  · rw [if_pos h]
    refine ⟨fun h' => by omega, fun _ => ⟨_, rfl⟩, ?_⟩
    show (none : Option Fault) = some Fault.assert_num_points ↔ num_points ≤ 0
    exact ⟨fun h' => (by cases h'), fun h' => (by omega)⟩
  · rw [if_neg h]
    refine ⟨fun _ => rfl, fun h' => by omega, ?_⟩
    show some Fault.assert_num_points = some Fault.assert_num_points ↔ num_points ≤ 0
    exact ⟨fun _ => by omega, fun _ => rfl⟩

/-- Witness of C14: no point, a negative count, one point, two points. -/
theorem bounding_rect_rejects_empty_witness :
    bounding_rect_for_stroke (points_of []) 0 = .error Fault.assert_num_points ∧
    bounding_rect_for_stroke (points_of []) (-3) = .error Fault.assert_num_points ∧
    (∃ rect, bounding_rect_for_stroke (points_of [⟨4, 7⟩]) 1 = .ok rect) ∧
    bounding_rect_for_stroke (points_of [⟨4, 7⟩]) 1
      = .ok { top_left := ⟨4, 7⟩, bot_right := ⟨4, 7⟩ } ∧
    (∃ rect, bounding_rect_for_stroke (points_of [⟨4, 7⟩, ⟨5, 2⟩]) 2 = .ok rect) :=
  ⟨(bounding_rect_rejects_empty (points_of []) 0).1 (by decide),
    (bounding_rect_rejects_empty (points_of []) (-3)).1 (by decide),
    (bounding_rect_rejects_empty (points_of [⟨4, 7⟩]) 1).2.1 (by decide),
    rfl,
    (bounding_rect_rejects_empty (points_of [⟨4, 7⟩, ⟨5, 2⟩]) 2).2.1 (by decide)⟩

/-- The `bot_right` corner after the loop of `bounding_rect_for_stroke`: not
below the corner before, not below any point visited, and equal to the corner
before or to a point visited, in each component. -/
theorem bounding_rect_loop_bot_right (points : Int → StrokePoint) :
    ∀ (k : Nat) (i : Int) (r : Rectl),
      (r.bot_right.x ≤ (bounding_rect_loop points k i r).bot_right.x ∧
        (∀ j : Int, i ≤ j → j < i + k →
          (points j).x ≤ (bounding_rect_loop points k i r).bot_right.x) ∧
        ((bounding_rect_loop points k i r).bot_right.x = r.bot_right.x ∨
          ∃ j : Int, i ≤ j ∧ j < i + k ∧
            (points j).x = (bounding_rect_loop points k i r).bot_right.x)) ∧
      (r.bot_right.y ≤ (bounding_rect_loop points k i r).bot_right.y ∧
        (∀ j : Int, i ≤ j → j < i + k →
          (points j).y ≤ (bounding_rect_loop points k i r).bot_right.y) ∧
        ((bounding_rect_loop points k i r).bot_right.y = r.bot_right.y ∨
          ∃ j : Int, i ≤ j ∧ j < i + k ∧
            (points j).y = (bounding_rect_loop points k i r).bot_right.y)) := by
  intro k
  induction k with
  | zero =>
    intro i r
    have hz : ∀ j : Int, i ≤ j → ¬ j < i + ((0 : Nat) : Int) := fun j h1 h2 => by
      push_cast at h2
      omega
    exact ⟨⟨le_refl _, fun j h1 h2 => absurd h2 (hz j h1), Or.inl rfl⟩,
      ⟨le_refl _, fun j h1 h2 => absurd h2 (hz j h1), Or.inl rfl⟩⟩
  | succ k ih =>
    intro i r
    simp only [bounding_rect_loop]
    obtain ⟨⟨x1, x2, x3⟩, ⟨y1, y2, y3⟩⟩ := ih (i + 1) (bounding_rect_step r (points i))
    have sx : (bounding_rect_step r (points i)).bot_right.x
        = if (points i).x > r.bot_right.x then (points i).x else r.bot_right.x := by
      simp only [bounding_rect_step]
      split_ifs <;> rfl
    have sy : (bounding_rect_step r (points i)).bot_right.y
        = if (points i).y > r.bot_right.y then (points i).y else r.bot_right.y := by
      simp only [bounding_rect_step]
      split_ifs <;> rfl
    rw [sx] at x1 x3
    rw [sy] at y1 y3
    refine ⟨⟨?_, ?_, ?_⟩, ⟨?_, ?_, ?_⟩⟩
    · split_ifs at x1 <;> omega
    · intro j h1 h2
      by_cases hj : j = i
      · subst hj
        split_ifs at x1 <;> omega
      · exact x2 j (by omega) (by push_cast at h2 ⊢; omega)
    · rcases x3 with h | ⟨j, h1, h2, h3⟩
      · split_ifs at h with hc
        · exact Or.inr ⟨i, le_refl _, by push_cast; omega, h.symm⟩
        · exact Or.inl h
      · exact Or.inr ⟨j, by omega, by push_cast at h2 ⊢; omega, h3⟩
    · split_ifs at y1 <;> omega
    · intro j h1 h2
      by_cases hj : j = i
      · subst hj
        split_ifs at y1 <;> omega
      · exact y2 j (by omega) (by push_cast at h2 ⊢; omega)
    · rcases y3 with h | ⟨j, h1, h2, h3⟩
      · split_ifs at h with hc
        · exact Or.inr ⟨i, le_refl _, by push_cast; omega, h.symm⟩
        · exact Or.inl h
      · exact Or.inr ⟨j, by omega, by push_cast at h2 ⊢; omega, h3⟩

/-- C19. For a sequence of `num_points >= 1` points, the `bot_right` corner
returned by `bounding_rect_for_stroke` is the component-wise maximum of the
points: no point has a larger `x` or a larger `y`, and `bot_right.x` is the
`x` of one of the points, `bot_right.y` the `y` of one of the points. -/
theorem bounding_rect_bot_right_max (points : Int → StrokePoint) (num_points : Int)
    (hn : 1 ≤ num_points) :
    ∃ rect, bounding_rect_for_stroke points num_points = .ok rect ∧
      (∀ j : Int, 0 ≤ j → j < num_points →
        (points j).x ≤ rect.bot_right.x ∧ (points j).y ≤ rect.bot_right.y) ∧
      (∃ j : Int, 0 ≤ j ∧ j < num_points ∧ (points j).x = rect.bot_right.x) ∧
      (∃ j : Int, 0 ≤ j ∧ j < num_points ∧ (points j).y = rect.bot_right.y) := by
  have hpos : num_points > 0 := by omega
  unfold bounding_rect_for_stroke
  rw [if_pos hpos]
  refine ⟨_, rfl, ?_, ?_, ?_⟩
  all_goals
    obtain ⟨⟨x1, x2, x3⟩, ⟨y1, y2, y3⟩⟩ := bounding_rect_loop_bot_right points
      (num_points - 1).toNat 1 { top_left := points 0, bot_right := points 0 }
  · intro j h1 h2
    by_cases hj : j = 0
    · subst hj
      exact ⟨x1, y1⟩
    · exact ⟨x2 j (by omega) (by omega), y2 j (by omega) (by omega)⟩
  · rcases x3 with h | ⟨j, h1, h2, h3⟩
    · exact ⟨0, le_refl _, by omega, h.symm⟩
    · exact ⟨j, by omega, by omega, h3⟩
  · rcases y3 with h | ⟨j, h1, h2, h3⟩
    · exact ⟨0, le_refl _, by omega, h.symm⟩
    · exact ⟨j, by omega, by omega, h3⟩

/-- Witness of C19: the points `(0, 5), (3, 1), (2, 9)` have the maximum
`(3, 9)`. -/
theorem bounding_rect_bot_right_max_witness :
    bounding_rect_for_stroke (points_of [⟨0, 5⟩, ⟨3, 1⟩, ⟨2, 9⟩]) 3
      = .ok { top_left := ⟨2, 5⟩, bot_right := ⟨3, 9⟩ } ∧
    ∃ rect, bounding_rect_for_stroke (points_of [⟨0, 5⟩, ⟨3, 1⟩, ⟨2, 9⟩]) 3 = .ok rect ∧
      (∀ j : Int, 0 ≤ j → j < 3 →
        (points_of [⟨0, 5⟩, ⟨3, 1⟩, ⟨2, 9⟩] j).x ≤ rect.bot_right.x ∧
        (points_of [⟨0, 5⟩, ⟨3, 1⟩, ⟨2, 9⟩] j).y ≤ rect.bot_right.y) ∧
      (∃ j : Int, 0 ≤ j ∧ j < 3 ∧
        (points_of [⟨0, 5⟩, ⟨3, 1⟩, ⟨2, 9⟩] j).x = rect.bot_right.x) ∧
      (∃ j : Int, 0 ≤ j ∧ j < 3 ∧
        (points_of [⟨0, 5⟩, ⟨3, 1⟩, ⟨2, 9⟩] j).y = rect.bot_right.y) :=
  ⟨rfl, bounding_rect_bot_right_max (points_of [⟨0, 5⟩, ⟨3, 1⟩, ⟨2, 9⟩]) 3 (by decide)⟩

/-! ## Rasterizer: the pixel index -/

/-- C16. Pixel index stays inside the buffer: in a state with
`0 < screen_size.w <= 7680`, `0 < screen_size.h <= 4320`,
`bytes_per_pixel = 4` and `raster_buffer_size = 2^27` (the values of
`milton_init`), a point whose raster coordinate `(x, y)` has `0 <= x < w` and
`0 <= y < h` is not skipped; its index is `y * w + x`, with
`0 <= index < w * h` and `4 * (index + 1) <= 7680 * 4320 * 4 <= 2^27`, so both
assertions of `rasterize_stroke` hold and the four bytes of the pixel lie
within the `raster_buffer_size` bytes of the buffer. -/
theorem pixel_index_in_buffer (ms : MiltonState) (p : v2l)
    (hw : 0 < ms.screen_size.w ∧ ms.screen_size.w ≤ 7680)
    (hh : 0 < ms.screen_size.h ∧ ms.screen_size.h ≤ 4320)
    (hbpp : ms.bytes_per_pixel = 4) (hsize : ms.raster_buffer_size = 2 ^ 27)
    (hx : 0 ≤ (canvas_to_raster ms p).x ∧ (canvas_to_raster ms p).x < ms.screen_size.w)
    (hy : 0 ≤ (canvas_to_raster ms p).y ∧ (canvas_to_raster ms p).y < ms.screen_size.h) :
    raster_index ms p
      = some ((canvas_to_raster ms p).y * ms.screen_size.w + (canvas_to_raster ms p).x) ∧
    0 ≤ (canvas_to_raster ms p).y * ms.screen_size.w + (canvas_to_raster ms p).x ∧
    (canvas_to_raster ms p).y * ms.screen_size.w + (canvas_to_raster ms p).x
      < ms.screen_size.w * ms.screen_size.h ∧
    4 * ((canvas_to_raster ms p).y * ms.screen_size.w + (canvas_to_raster ms p).x + 1)
      ≤ 7680 * 4320 * 4 ∧
    (7680 * 4320 * 4 : Int) ≤ 2 ^ 27 ∧
    (ms.bytes_per_pixel : Int)
        * ((canvas_to_raster ms p).y * ms.screen_size.w + (canvas_to_raster ms p).x + 1)
      ≤ (ms.raster_buffer_size : Int) ∧
    (ms.raster_buffer_size : Int) < 2 ^ 63 ∧
    (canvas_to_raster ms p).y * ms.screen_size.w + (canvas_to_raster ms p).x
      < (ms.raster_buffer_size : Int) ∧
    fault_of (rasterize_point ms p) = none := by
  have ew : ms.screen_size.w = ms.screen_size.x := rfl
  have eh : ms.screen_size.h = ms.screen_size.y := rfl
  rw [ew] at hw hx ⊢
  rw [eh] at hh hy ⊢
  have t0 : 0 ≤ (canvas_to_raster ms p).y * ms.screen_size.x := mul_nonneg hy.1 (by omega)
  have t1 : (canvas_to_raster ms p).y * ms.screen_size.x
      ≤ (ms.screen_size.y - 1) * ms.screen_size.x :=
    mul_le_mul_of_nonneg_right (by omega) (by omega)
  have t2 : (ms.screen_size.y - 1) * ms.screen_size.x
      = ms.screen_size.x * ms.screen_size.y - ms.screen_size.x := by ring
  have t3 : ms.screen_size.x * ms.screen_size.y ≤ 7680 * 4320 :=
    mul_le_mul hw.2 hh.2 (by omega) (by omega)
  have hsz : (ms.raster_buffer_size : Int) = 134217728 := by
    rw [hsize]
    norm_num
  have hidx : raster_index ms p
      = some ((canvas_to_raster ms p).y * ms.screen_size.x + (canvas_to_raster ms p).x) := by
    unfold raster_index
    have hcond : ¬ ((canvas_to_raster ms p).w ≥ ms.screen_size.w ∨
        (canvas_to_raster ms p).h ≥ ms.screen_size.h) := by
      simp only [v2l.w, v2l.h]
      omega
    simp only [if_neg hcond]
    have r1 : in_int64 ((canvas_to_raster ms p).y * ms.screen_size.x) := by
      unfold in_int64
      omega
    have r2 : in_int64 ((canvas_to_raster ms p).y * ms.screen_size.x
        + (canvas_to_raster ms p).x) := by
      unfold in_int64
      omega
    rw [ew, wrap64_eq_self r1, wrap64_eq_self r2]
  have hb : ((ms.bytes_per_pixel : Nat) : Int) = 4 := by
    rw [hbpp]
    rfl
  refine ⟨hidx, by omega, by omega, by omega, by norm_num, ?_, by omega, by omega, ?_⟩
  · rw [hb, hsz]
    omega
  · exact fault_none_of_index hidx (by omega) ⟨by omega, by rw [hsz]; omega⟩

/-- Witness of C16: the canvas point `(10, 10)` on a `100 x 100` screen after
`milton_init`, and the last pixel `(7679, 4319)` of the largest screen. -/
theorem pixel_index_in_buffer_witness :
    raster_index (session ⟨100, 100⟩ ⟨0, 0⟩ 1) ⟨10, 10⟩ = some 1010 ∧
    raster_index (session ⟨7680, 4320⟩ ⟨0, 0⟩ 1) ⟨7679, 4319⟩ = some 33177599 ∧
    fault_of (rasterize_point (session ⟨7680, 4320⟩ ⟨0, 0⟩ 1) ⟨7679, 4319⟩) = none ∧
    (4 : Int) * (33177599 + 1)
      ≤ ((session ⟨7680, 4320⟩ ⟨0, 0⟩ 1).raster_buffer_size : Int) ∧
    fault_of (rasterize_point (session ⟨100, 100⟩ ⟨0, 0⟩ 1) ⟨10, 10⟩) = none :=
  ⟨by decide, by decide, by decide, by decide,
    (pixel_index_in_buffer (session ⟨100, 100⟩ ⟨0, 0⟩ 1) ⟨10, 10⟩ (by decide) (by decide)
      (by decide) (by decide) (by decide) (by decide)).2.2.2.2.2.2.2.2⟩


/-! ## The clear and the buffer -/

/-- With a screen size that is not negative, a completed clear wrote the
background value at every index of `[0, screen_size.w * screen_size.h)`. -/
theorem clear_raster_screen {ms c : MiltonState} (hc : clear_raster ms = .ok c) (i : Int)
    (hw : 0 ≤ ms.screen_size.w) (hh : 0 ≤ ms.screen_size.h)
    (h0 : 0 ≤ i) (h1 : i < ms.screen_size.w * ms.screen_size.h) :
    c.raster_buffer i = BACKGROUND := by
  obtain ⟨e, -⟩ := clear_raster_ok hc
  have e1 : (ms.screen_size.w.toNat : Int) = ms.screen_size.w := Int.toNat_of_nonneg hw
  have e2 : (ms.screen_size.h.toNat : Int) = ms.screen_size.h := Int.toNat_of_nonneg hh
  rw [e]
  simp only [e1, e2]
  rw [if_pos ⟨h0, by rw [mul_comm]; exact h1⟩]

/-- C17. The raster buffer is fully recomputed each tick: for two states that
are equal except for the contents of the raster buffer, with a screen size
that is not negative, and the same input, when the update of the first
completes (no assertion fails and no access leaves its object) so does the
update of the second; they return the same value and the two resulting
states, again equal except for the buffer, hold the same value at every pixel
index in `[0, screen_size.w * screen_size.h)`. -/
theorem buffer_fully_recomputed (ms : MiltonState) (buf : Int → Nat) (input : MiltonInput)
    (hw : 0 ≤ ms.screen_size.w) (hh : 0 ≤ ms.screen_size.h)
    (hok : fault_of (milton_update ms input) = none) :
    fault_of (milton_update { ms with raster_buffer := buf } input) = none ∧
    ∃ m1 m2 r, milton_update ms input = .ok (m1, r) ∧
      milton_update { ms with raster_buffer := buf } input = .ok (m2, r) ∧
      m2 = { m1 with raster_buffer := m2.raster_buffer } ∧
      ∀ i : Int, 0 ≤ i → i < ms.screen_size.w * ms.screen_size.h →
        m1.raster_buffer i = m2.raster_buffer i := by
  have e1 : (ms.screen_size.w.toNat : Int) = ms.screen_size.w := Int.toNat_of_nonneg hw
  have e2 : (ms.screen_size.h.toNat : Int) = ms.screen_size.h := Int.toNat_of_nonneg hh
  rcases @agree_on_update (fun i => 0 ≤ i ∧ i < ms.screen_size.w * ms.screen_size.h)
      ms buf input (by
        intro i hi
        rw [e1, e2, mul_comm]
        exact hi)
    with ⟨f, ha, -⟩ | ⟨m1, m2, r, ha, hb, h1⟩
  · rw [ha] at hok
    cases hok
  · refine ⟨by rw [hb]; rfl, m1, m2, r, ha, hb, h1.1, fun i h0 h2 => h1.2 i ⟨h0, h2⟩⟩

/-- Witness of C17: the session `drawing` and the same session with other
buffer contents, when the stroke being captured is finalized. -/
theorem buffer_fully_recomputed_witness :
    drawing.raster_buffer 0 ≠ drawing_dirty.raster_buffer 0 ∧
    fault_of (milton_update drawing ⟨0, none⟩) = none ∧
    fault_of (milton_update drawing_dirty ⟨0, none⟩) = none ∧
    ∃ m1 m2 r, milton_update drawing ⟨0, none⟩ = .ok (m1, r) ∧
      milton_update drawing_dirty ⟨0, none⟩ = .ok (m2, r) ∧
      m2 = { m1 with raster_buffer := m2.raster_buffer } ∧
      ∀ i : Int, 0 ≤ i → i < drawing.screen_size.w * drawing.screen_size.h →
        m1.raster_buffer i = m2.raster_buffer i :=
  ⟨by decide, milton_update_completes (by decide) (by decide),
    buffer_fully_recomputed drawing (fun i => (i * i).toNat + 7) ⟨0, none⟩
      (by decide) (by decide) (milton_update_completes (by decide) (by decide))⟩

/-! ## Pixels the rasterizer leaves alone -/

/-- A pixel that is the index of no point of the stroke keeps its value through
`rasterize_stroke`. -/
theorem rasterize_loop_untouched (points : Int → v2l) (idx : Int) :
    ∀ (k : Nat) (i : Int) (ms ms' : MiltonState),
      rasterize_loop points k i ms = .ok ms' →
      (∀ j : Int, i ≤ j → j < i + k → raster_index ms (points j) ≠ some idx) →
      ms'.raster_buffer idx = ms.raster_buffer idx := by
  intro k
  induction k with
  | zero =>
    intro i ms ms' h _
    simp only [rasterize_loop] at h
    cases h
    rfl
  | succ k ih =>
    intro i ms ms' h hno
    simp only [rasterize_loop] at h
    cases hp : rasterize_point ms (points i) with
    | error f => simp [hp] at h
    | ok ms1 =>
      simp only [hp] at h
      have hf := rasterize_point_frame hp
      have h1 : ms1.raster_buffer idx = ms.raster_buffer idx := by
        rw [rasterize_point_buffer hp, if_neg (hno i (le_refl i) (by push_cast; omega))]
      rw [← h1]
      apply ih _ _ _ h
      intro j hj1 hj2
      rw [raster_index_congr ms1 ms _ (by rw [hf]) (by rw [hf]) (by rw [hf])]
      exact hno j (by omega) (by push_cast; omega)

/-- A pixel that is the index of no point of the history keeps its value
through the history pass. -/
theorem rasterize_history_untouched (idx : Int) :
    ∀ (k : Nat) (i : Int) (ms ms' : MiltonState),
      rasterize_history k i ms = .ok ms' →
      (∀ s j : Int, i ≤ s → s < i + k → 0 ≤ j → j < (ms.stored_strokes s).num_points →
        raster_index ms ((ms.stored_strokes s).points j) ≠ some idx) →
      ms'.raster_buffer idx = ms.raster_buffer idx := by
  intro k
  induction k with
  | zero =>
    intro i ms ms' h _
    simp only [rasterize_history] at h
    cases h
    rfl
  | succ k ih =>
    intro i ms ms' h hno
    obtain ⟨-, ms1, hp, h'⟩ := rasterize_history_succ h
    have hf := rasterize_stroke_frame hp
    have e : ms1.stored_strokes = ms.stored_strokes := by rw [hf]
    have h1 : ms1.raster_buffer idx = ms.raster_buffer idx := by
      apply rasterize_loop_untouched _ idx _ _ _ _ hp
      intro j hj1 hj2
      exact hno i j (le_refl i) (by push_cast; omega) hj1 (by omega)
    rw [← h1]
    apply ih _ _ _ h'
    intro s j hs1 hs2 hj1 hj2
    rw [e] at hj2 ⊢
    rw [raster_index_congr ms1 ms _ (by rw [hf]) (by rw [hf]) (by rw [hf])]
    exact hno s j (by omega) (by push_cast; omega) hj1 hj2

/-- After a completed history pass, a pixel that is the index of no point of
the history holds the value it had before the pass. -/
theorem rasterize_history_untouched_all {mid ms' : MiltonState} {idx : Int}
    (hh : rasterize_history mid.num_stored_strokes.toNat 0 mid = .ok ms')
    (hhist : ∀ s j : Int, 0 ≤ s → s < ms'.num_stored_strokes →
      0 ≤ j → j < (ms'.stored_strokes s).num_points →
      raster_index ms' ((ms'.stored_strokes s).points j) ≠ some idx) :
    ms'.raster_buffer idx = mid.raster_buffer idx := by
  have f2 := rasterize_history_frame _ _ _ _ hh
  have e1 : ms'.num_stored_strokes = mid.num_stored_strokes := by rw [f2]
  have e2 : ms'.stored_strokes = mid.stored_strokes := by rw [f2]
  have c2 : ∀ p, raster_index ms' p = raster_index mid p := fun p =>
    raster_index_congr ms' mid p (by rw [f2]) (by rw [f2]) (by rw [f2])
  apply rasterize_history_untouched idx _ _ _ _ hh
  intro s j hs1 hs2 hj1 hj2
  rw [← e2] at hj2 ⊢
  rw [← c2]
  exact hhist s j hs1 (by rw [e1]; omega) hj1 hj2

/-- After the completed stages after the clear, a pixel that is the index of
no point of the resulting live stroke and history holds the value it had
before them. -/
theorem milton_update_repaint_untouched {ms ms' : MiltonState} {input : MiltonInput}
    {r idx : Int}
    (h : milton_update_repaint ms input = .ok (ms', r))
    (hlive : ∀ j : Int, 0 ≤ j → j < ms'.num_stroke_points →
      raster_index ms' (ms'.stroke_points j) ≠ some idx)
    (hhist : ∀ s j : Int, 0 ≤ s → s < ms'.num_stored_strokes →
      0 ≤ j → j < (ms'.stored_strokes s).num_points →
      raster_index ms' ((ms'.stored_strokes s).points j) ≠ some idx) :
    ms'.raster_buffer idx = ms.raster_buffer idx := by
  obtain ⟨fr, br⟩ := input
  cases br with
  | none =>
    obtain ⟨mid, hs, hh⟩ := milton_update_repaint_ok h
    rw [rasterize_history_untouched_all hh hhist]
    simp only [milton_update_stroke, push_stroke_to_history] at hs
    split_ifs at hs
    · cases hs
      rfl
    · cases hs
      rfl
  | some b =>
    obtain ⟨-, ms2, hr, hh2⟩ := milton_update_repaint_brush_ok h
    rw [rasterize_history_untouched_all hh2 hhist]
    have f1 := rasterize_stroke_frame hr
    have f3 := rasterize_history_frame _ _ _ _ hh2
    have g1 : ms'.num_stroke_points = ms.num_stroke_points + 1 := by
      rw [f3, f1]
    have g2 : ms'.stroke_points
        = store ms.stroke_points ms.num_stroke_points (raster_to_canvas ms b) := by
      rw [f3, f1]
    have step1 := rasterize_loop_untouched _ idx _ _ _ _ hr (by
      intro j hj1 hj2
      rw [← g2]
      rw [← raster_index_congr ms' _ _ (by rw [f3, f1]) (by rw [f3, f1]) (by rw [f3, f1])]
      exact hlive j hj1 (by rw [g1]; omega))
    rw [step1]

/-! ## The repaint in the order of the specification: lemmas -/

theorem spec_point_buffer (ms : MiltonState) (pixels : Int → Nat) (p : v2l) (idx : Int) :
    spec_paint_point ms pixels p idx
      = if spec_raster_index ms p = some idx then FOREGROUND else pixels idx := by
  unfold spec_paint_point
  cases hidx : spec_raster_index ms p with
  | none => simp
  | some index =>
    simp only [Option.some.injEq]
    by_cases hi : idx = index
    · subst hi
      simp [store]
    · have hne : ¬ index = idx := fun e => hi e.symm
      simp [store, hi, hne]

theorem spec_stroke_keeps (ms : MiltonState) (points : Int → v2l) (idx : Int) :
    ∀ (k : Nat) (i : Int) (pixels : Int → Nat),
      pixels idx = FOREGROUND → spec_paint_stroke ms points k i pixels idx = FOREGROUND := by
  intro k
  induction k with
  | zero =>
    intro i pixels h
    exact h
  | succ k ih =>
    intro i pixels h
    simp only [spec_paint_stroke]
    apply ih
    rw [spec_point_buffer]
    split_ifs
    · rfl
    · exact h

theorem spec_stroke_paints (ms : MiltonState) (points : Int → v2l) (idx : Int) :
    ∀ (k : Nat) (i : Int) (pixels : Int → Nat),
      (∃ j : Int, i ≤ j ∧ j < i + k ∧ spec_raster_index ms (points j) = some idx) →
      spec_paint_stroke ms points k i pixels idx = FOREGROUND := by
  intro k
  induction k with
  | zero =>
    intro i pixels hj
    obtain ⟨j, h1, h2, -⟩ := hj
    simp only [Nat.cast_zero, add_zero] at h2
    omega
  | succ k ih =>
    intro i pixels hj
    simp only [spec_paint_stroke]
    obtain ⟨j, h1, h2, h3⟩ := hj
    by_cases hji : j = i
    · subst hji
      apply spec_stroke_keeps
      rw [spec_point_buffer, if_pos h3]
    · apply ih
      exact ⟨j, by omega, by push_cast at h2; omega, h3⟩

theorem spec_stroke_untouched (ms : MiltonState) (points : Int → v2l) (idx : Int) :
    ∀ (k : Nat) (i : Int) (pixels : Int → Nat),
      (∀ j : Int, i ≤ j → j < i + k → spec_raster_index ms (points j) ≠ some idx) →
      spec_paint_stroke ms points k i pixels idx = pixels idx := by
  intro k
  induction k with
  | zero =>
    intro i pixels _
    rfl
  | succ k ih =>
    intro i pixels hno
    simp only [spec_paint_stroke]
    rw [ih (i + 1) _ (fun j hj1 hj2 => hno j (by omega) (by push_cast; omega)),
      spec_point_buffer, if_neg (hno i (le_refl i) (by push_cast; omega))]

theorem spec_history_keeps (ms : MiltonState) (idx : Int) :
    ∀ (k : Nat) (i : Int) (pixels : Int → Nat),
      pixels idx = FOREGROUND → spec_paint_history ms k i pixels idx = FOREGROUND := by
  intro k
  induction k with
  | zero =>
    intro i pixels h
    exact h
  | succ k ih =>
    intro i pixels h
    simp only [spec_paint_history]
    exact ih _ _ (spec_stroke_keeps ms _ idx _ _ _ h)

theorem spec_history_paints (ms : MiltonState) (idx : Int) :
    ∀ (k : Nat) (i : Int) (pixels : Int → Nat),
      (∃ s j : Int, i ≤ s ∧ s < i + k ∧ 0 ≤ j ∧ j < (ms.stored_strokes s).num_points ∧
        spec_raster_index ms ((ms.stored_strokes s).points j) = some idx) →
      spec_paint_history ms k i pixels idx = FOREGROUND := by
  intro k
  induction k with
  | zero =>
    intro i pixels hj
    obtain ⟨s, j, h1, h2, -⟩ := hj
    simp only [Nat.cast_zero, add_zero] at h2
    omega
  | succ k ih =>
    intro i pixels hj
    simp only [spec_paint_history]
    obtain ⟨s, j, h1, h2, h3, h4, h5⟩ := hj
    by_cases hsi : s = i
    · subst hsi
      apply spec_history_keeps
      apply spec_stroke_paints
      exact ⟨j, h3, by omega, h5⟩
    · apply ih
      exact ⟨s, j, by omega, by push_cast at h2; omega, h3, h4, h5⟩

theorem spec_history_untouched (ms : MiltonState) (idx : Int) :
    ∀ (k : Nat) (i : Int) (pixels : Int → Nat),
      (∀ s j : Int, i ≤ s → s < i + k → 0 ≤ j → j < (ms.stored_strokes s).num_points →
        spec_raster_index ms ((ms.stored_strokes s).points j) ≠ some idx) →
      spec_paint_history ms k i pixels idx = pixels idx := by
  intro k
  induction k with
  | zero =>
    intro i pixels _
    rfl
  | succ k ih =>
    intro i pixels hno
    simp only [spec_paint_history]
    rw [ih (i + 1) _ (fun s j hs1 hs2 hj1 hj2 =>
        hno s j (by omega) (by push_cast; omega) hj1 hj2),
      spec_stroke_untouched ms _ idx _ _ _ (fun j hj1 hj2 =>
        hno i j (le_refl i) (by push_cast; omega) hj1 (by omega))]

/-- For a point that is inside the screen or skipped, the test of the
specification and the test of `rasterize_stroke` give the same index. -/
theorem spec_raster_index_eq (ms : MiltonState) (p : v2l) (h : in_range_or_skipped ms p) :
    spec_raster_index ms p = raster_index ms p := by
  unfold in_range_or_skipped at h
  unfold spec_raster_index raster_index
  simp only [v2l.w, v2l.h] at h ⊢
  rcases h with hin | hout
  · have hc : ¬ ((canvas_to_raster ms p).x ≥ ms.screen_size.x ∨
        (canvas_to_raster ms p).y ≥ ms.screen_size.y) := by omega
    rw [if_pos hin, if_neg hc]
  · have hc : ¬ (0 ≤ (canvas_to_raster ms p).x ∧ (canvas_to_raster ms p).x < ms.screen_size.x ∧
        0 ≤ (canvas_to_raster ms p).y ∧ (canvas_to_raster ms p).y < ms.screen_size.y) := by
      omega
    rw [if_neg hc, if_pos hout]

theorem in_range_or_skipped_congr (m1 m2 : MiltonState) (p : v2l)
    (h1 : m1.screen_size = m2.screen_size) (h2 : m1.view_center = m2.view_center)
    (h3 : m1.view_scale = m2.view_scale) :
    in_range_or_skipped m1 p ↔ in_range_or_skipped m2 p := by
  simp only [in_range_or_skipped, canvas_to_raster, h1, h2, h3]

/-- An update that completes keeps every point of the live stroke and of the
history inside the screen or skipped, when the brush sample is. -/
theorem strokes_in_range_or_skipped_step {ms ms' : MiltonState} {input : MiltonInput}
    {r : Int} (hst : strokes_in_range_or_skipped ms)
    (hbrush : ∀ b, input.brush = some b → in_range_or_skipped ms (raster_to_canvas ms b))
    (h : milton_update ms input = .ok (ms', r)) :
    strokes_in_range_or_skipped ms' := by
  obtain ⟨hlive, hhist⟩ := hst
  obtain ⟨fr, br⟩ := input
  cases br with
  | some b =>
    obtain ⟨-, -, h2⟩ := milton_update_brush h
    have hb := hbrush b rfl
    have e1 : ms'.num_stroke_points = ms.num_stroke_points + 1 := by rw [h2]
    have e2 : ms'.stroke_points
        = store ms.stroke_points ms.num_stroke_points (raster_to_canvas ms b) := by
      rw [h2]
    have e3 : ms'.num_stored_strokes = ms.num_stored_strokes := by rw [h2]
    have e4 : ms'.stored_strokes = ms.stored_strokes := by rw [h2]
    have hc : ∀ p, in_range_or_skipped ms' p ↔ in_range_or_skipped ms p := fun p =>
      in_range_or_skipped_congr ms' ms p (by rw [h2]) (by rw [h2]) (by rw [h2])
    refine ⟨?_, ?_⟩
    · intro j hj1 hj2
      rw [hc, e2]
      by_cases hj : j = ms.num_stroke_points
      · simp only [store, if_pos hj]
        exact hb
      · simp only [store, if_neg hj]
        exact hlive j hj1 (by omega)
    · intro s j hs1 hs2 hj1 hj2
      rw [e4] at hj2 ⊢
      rw [hc]
      exact hhist s j hs1 (by omega) hj1 hj2
  | none =>
    by_cases hn : 0 < ms.num_stroke_points
    · obtain ⟨-, -, -, h2⟩ := milton_update_release hn h
      have e1 : ms'.num_stroke_points = 0 := by rw [h2]
      have e3 : ms'.num_stored_strokes = ms.num_stored_strokes + 1 := by rw [h2]
      have e4 : ms'.stored_strokes = store ms.stored_strokes ms.num_stored_strokes
          { points := memcpy (arena_alloc_array ⟨0, 0⟩) ms.stroke_points
              ms.num_stroke_points
            num_points := ms.num_stroke_points } := by rw [h2]
      have hc : ∀ p, in_range_or_skipped ms' p ↔ in_range_or_skipped ms p := fun p =>
        in_range_or_skipped_congr ms' ms p (by rw [h2]) (by rw [h2])
          (by rw [h2])
      refine ⟨?_, ?_⟩
      · intro j hj1 hj2
        omega
      · intro s j hs1 hs2 hj1 hj2
        rw [e4] at hj2 ⊢
        rw [hc]
        by_cases hs : s = ms.num_stored_strokes
        · simp only [store, if_pos hs] at hj2 ⊢
          have hj : 0 ≤ j ∧ j < ms.num_stroke_points := ⟨hj1, hj2⟩
          simp only [memcpy, if_pos hj]
          exact hlive j hj1 hj2
        · simp only [store, if_neg hs] at hj2 ⊢
          exact hhist s j hs1 (by omega) hj1 hj2
    · obtain ⟨-, h2⟩ := milton_update_idle hn h
      have e1 : ms'.num_stroke_points = ms.num_stroke_points := by rw [h2]
      have e2 : ms'.stroke_points = ms.stroke_points := by rw [h2]
      have e3 : ms'.num_stored_strokes = ms.num_stored_strokes := by rw [h2]
      have e4 : ms'.stored_strokes = ms.stored_strokes := by rw [h2]
      have hc : ∀ p, in_range_or_skipped ms' p ↔ in_range_or_skipped ms p := fun p =>
        in_range_or_skipped_congr ms' ms p (by rw [h2]) (by rw [h2]) (by rw [h2])
      refine ⟨?_, ?_⟩
      · intro j hj1 hj2
        rw [hc, e2]
        exact hlive j hj1 (by omega)
      · intro s j hs1 hs2 hj1 hj2
        rw [e4] at hj2 ⊢
        rw [hc]
        exact hhist s j hs1 (by omega) hj1 hj2


/-- The points of `sketch` are inside the screen or skipped. -/
theorem sketch_in_range_or_skipped : strokes_in_range_or_skipped sketch := by
  refine ⟨?_, ?_⟩
  · intro j hj1 hj2
    have hj : j = 0 := by
      have : sketch.num_stroke_points = 1 := rfl
      omega
    subst hj
    decide
  · intro s j hs1 hs2 hj1 hj2
    have hs : s = 0 := by
      have : sketch.num_stored_strokes = 1 := rfl
      omega
    subst hs
    have hj : j = 0 ∨ j = 1 := by
      have : (sketch.stored_strokes 0).num_points = 2 := rfl
      omega
    rcases hj with hj | hj <;> subst hj <;> decide

/-- C15. Full repaint in the specified order: in a state with a screen size
that is not negative, whose stroke points and brush sample all map to raster
coordinates inside the screen or skipped by `rasterize_stroke`, after an
update that completes (no assertion fails and no access leaves its object)
the pixels of `[0, screen_size.w * screen_size.h)` hold
what `repaint_in_spec_order` gives for the resulting strokes: every pixel
cleared to `0xff000000`, then `0xff0000ff` painted for every point of every
stored stroke in insertion order and then for every point of the live
stroke.  The code paints the live stroke before the history. -/
theorem repaint_matches_spec_order (ms : MiltonState) (input : MiltonInput)
    (hw : 0 ≤ ms.screen_size.w) (hh : 0 ≤ ms.screen_size.h)
    (hst : strokes_in_range_or_skipped ms)
    (hbrush : ∀ b, input.brush = some b → in_range_or_skipped ms (raster_to_canvas ms b))
    (hok : fault_of (milton_update ms input) = none) :
    ∃ ms' r, milton_update ms input = .ok (ms', r) ∧
      strokes_in_range_or_skipped ms' ∧
      ∀ i : Int, 0 ≤ i → i < ms.screen_size.w * ms.screen_size.h →
        ms'.raster_buffer i = repaint_in_spec_order ms' i := by
  obtain ⟨⟨ms', r⟩, h⟩ := ok_of_fault_none hok
  have hst' := strokes_in_range_or_skipped_step hst hbrush h
  refine ⟨ms', r, h, hst', ?_⟩
  intro i hi0 hi1
  obtain ⟨hlive, hhist⟩ := hst'
  unfold repaint_in_spec_order
  by_cases hL : ∃ j : Int, 0 ≤ j ∧ j < ms'.num_stroke_points ∧
      raster_index ms' (ms'.stroke_points j) = some i
  · rw [milton_update_paints_live h hL]
    obtain ⟨j, hj1, hj2, hj3⟩ := hL
    symm
    apply spec_stroke_paints
    refine ⟨j, hj1, by omega, ?_⟩
    rw [spec_raster_index_eq ms' _ (hlive j hj1 hj2)]
    exact hj3
  · by_cases hH : ∃ s j : Int, 0 ≤ s ∧ s < ms'.num_stored_strokes ∧
        0 ≤ j ∧ j < (ms'.stored_strokes s).num_points ∧
        raster_index ms' ((ms'.stored_strokes s).points j) = some i
    · rw [milton_update_paints_history h hH]
      obtain ⟨s, j, hs1, hs2, hj1, hj2, hj3⟩ := hH
      symm
      apply spec_stroke_keeps
      apply spec_history_paints
      refine ⟨s, j, hs1, by omega, hj1, hj2, ?_⟩
      rw [spec_raster_index_eq ms' _ (hhist s j hs1 hs2 hj1 hj2)]
      exact hj3
    · have hL' : ∀ j : Int, 0 ≤ j → j < ms'.num_stroke_points →
          raster_index ms' (ms'.stroke_points j) ≠ some i :=
        fun j hj1 hj2 hj3 => hL ⟨j, hj1, hj2, hj3⟩
      have hH' : ∀ s j : Int, 0 ≤ s → s < ms'.num_stored_strokes →
          0 ≤ j → j < (ms'.stored_strokes s).num_points →
          raster_index ms' ((ms'.stored_strokes s).points j) ≠ some i :=
        fun s j hs1 hs2 hj1 hj2 hj3 => hH ⟨s, j, hs1, hs2, hj1, hj2, hj3⟩
      obtain ⟨buf, hc, h'⟩ := milton_update_cleared h
      rw [milton_update_repaint_untouched h' hL' hH']
      have hbg := clear_raster_screen hc i hw hh hi0 hi1
      simp only at hbg ⊢
      rw [hbg]
      symm
      rw [spec_stroke_untouched ms' _ i _ _ _ (fun j hj1 hj2 => by
          have hj2' : j < ms'.num_stroke_points := by omega
          rw [spec_raster_index_eq ms' _ (hlive j hj1 hj2')]
          exact hL' j hj1 hj2'),
        spec_history_untouched ms' i _ _ _ (fun s j hs1 hs2 hj1 hj2 => by
          have hs2' : s < ms'.num_stored_strokes := by omega
          rw [spec_raster_index_eq ms' _ (hhist s j hs1 hs2' hj1 hj2)]
          exact hH' s j hs1 hs2' hj1 hj2)]

/-- Witness of C15: a third point, then the release, in the session `sketch`,
whose history has a point right of the screen; the specified repaint of
`sketch` itself has the foreground value at the pixels `(10, 10)` and
`(20, 20)` and the background value at `(50, 10)`. -/
theorem repaint_matches_spec_order_witness :
    repaint_in_spec_order sketch 1010 = FOREGROUND ∧
    repaint_in_spec_order sketch 2020 = FOREGROUND ∧
    repaint_in_spec_order sketch 1050 = BACKGROUND ∧
    (∃ ms' r, milton_update sketch ⟨0, some ⟨21, 20⟩⟩ = .ok (ms', r) ∧
      strokes_in_range_or_skipped ms' ∧
      ∀ i : Int, 0 ≤ i → i < sketch.screen_size.w * sketch.screen_size.h →
        ms'.raster_buffer i = repaint_in_spec_order ms' i) ∧
    (∃ ms' r, milton_update sketch ⟨0, none⟩ = .ok (ms', r) ∧
      strokes_in_range_or_skipped ms' ∧
      ∀ i : Int, 0 ≤ i → i < sketch.screen_size.w * sketch.screen_size.h →
        ms'.raster_buffer i = repaint_in_spec_order ms' i) :=
  ⟨by decide, by decide, by decide,
    repaint_matches_spec_order sketch ⟨0, some ⟨21, 20⟩⟩ (by decide) (by decide)
      sketch_in_range_or_skipped
      (fun b hb => by
        have hb' : b = ⟨21, 20⟩ := (Option.some.inj hb).symm
        subst hb'
        decide)
      (milton_update_completes (by decide) (by decide)),
    repaint_matches_spec_order sketch ⟨0, none⟩ (by decide) (by decide)
      sketch_in_range_or_skipped (fun b hb => by cases hb)
      (milton_update_completes (by decide) (by decide))⟩

end Milton
